import Mathlib

/-! A shallow embedding of `mos-platform/common/c/printf.c`.

Characters are natural numbers (their codes, `char` being an unsigned byte on
the MOS target).  A reversed scratch buffer `buf` with its fill count `len`
is the list of its first `len` cells, so `buf[len++] = c` appends and `len--`
drops the last cell.  Values of the integer types are reduced modulo
`2 ^ bits` wherever the source relies on it.

The sink index `idx` of the source is a `size_t` that starts at 0 and changes
by `idx++` only.  The functions below carry the count of the characters
written so far, a natural number; `_vsnprintf` hands the sink that count
modulo `2 ^ bits` (`sizeIdx`), which is the value of the `size_t`, uses the
same value for the terminating write, and returns it converted to `int`.
The differences `idx - start_idx` in `_out_rev` and `_etoa` are taken on the
count: they are the length of a scratch buffer or a width, which a `size_t`
of 16 bits or more holds.
-/

namespace Printf

/-! ## Configuration constants -/

/-- Capacity of the scratch buffer of `_ntoa` (`PRINTF_NTOA_BUFFER_SIZE`). -/
def PRINTF_NTOA_BUFFER_SIZE : Nat := 510

/-- Capacity of the scratch buffer of `_ftoa` (`PRINTF_FTOA_BUFFER_SIZE`). -/
def PRINTF_FTOA_BUFFER_SIZE : Nat := 510

/-- Default number of decimals (`PRINTF_DEFAULT_FLOAT_PRECISION`). -/
def PRINTF_DEFAULT_FLOAT_PRECISION : Nat := 6

/-- The bit set `flags`: one boolean per `FLAGS_*` bit of the source. -/
structure Flags where
  zeropad : Bool := false
  left : Bool := false
  plus : Bool := false
  space : Bool := false
  hash : Bool := false
  uppercase : Bool := false
  char : Bool := false
  short : Bool := false
  long : Bool := false
  long_long : Bool := false
  precision : Bool := false
  adapt_exp : Bool := false
  deriving DecidableEq

/-! ## Output sinks -/

/-- The type `out_fct_type`: character, buffer, index, capacity; the result is
the buffer after the call. -/
abbrev out_fct_type (β : Type) : Type := Nat → β → Nat → Nat → β

/-- Sink `_out_buffer`: store the character when `idx < maxlen`. -/
def _out_buffer : out_fct_type (List Nat) :=
  fun character buffer idx maxlen =>
    if idx < maxlen then buffer.set idx character else buffer

/-- Sink `_out_null`: nothing is stored. -/
def _out_null {β : Type} : out_fct_type β :=
  fun _ buffer _ _ => buffer

/-- Sink `_out_char`: the buffer stands for the stream behind `__putchar`. -/
def _out_char : out_fct_type (List Nat) :=
  fun character buffer _ _ =>
    if character ≠ 0 then buffer ++ [character] else buffer

/-- Sink `_out_fct`: `fct` is the wrapped consumer and the buffer its `arg`. -/
def _out_fct {α : Type} (fct : Nat → α → α) : out_fct_type α :=
  fun character buffer _ _ =>
    if character ≠ 0 then fct character buffer else buffer

/-- A recording sink, used to speak about the logical output: every character
handed to the sink is appended, whatever the index and the capacity. -/
def traceOut : out_fct_type (List Nat) :=
  fun character buffer _ _ => buffer ++ [character]

/-- The statement `out(c, buffer, idx++, maxlen)` for each `c` of a list in
turn. -/
def outList {β : Type} (out : out_fct_type β) (maxlen : Nat) :
    List Nat → β × Nat → β × Nat
  | [], s => s
  | c :: cs, s => outList out maxlen cs (out c s.1 s.2 maxlen, s.2 + 1)

/-- Function `_out_rev`: spaces up to `width` unless left aligned or zero
padded, the buffer from its last cell down to its first, then spaces up to
`width` when left aligned. -/
def _out_rev {β : Type} (out : out_fct_type β) (buffer : β) (idx maxlen : Nat)
    (buf : List Nat) (width : Nat) (flags : Flags) : β × Nat :=
  let start_idx := idx
  let s1 :=
    if !flags.left && !flags.zeropad then
      outList out maxlen (List.replicate (width - buf.length) 32) (buffer, idx)
    else (buffer, idx)
  let s2 := outList out maxlen buf.reverse s1
  if flags.left then
    outList out maxlen (List.replicate (width - (s2.2 - start_idx)) 32) s2
  else s2

/-! ## Integer conversion -/

/-- The loop `while ((len < limit) && (len < PRINTF_NTOA_BUFFER_SIZE))
buf[len++] = '0'`. -/
def padZeros (buf : List Nat) (limit : Nat) : List Nat :=
  buf ++ List.replicate (min limit PRINTF_NTOA_BUFFER_SIZE - buf.length) 48

/-- First block of `_ntoa_format`: the width after the sign column has been
reserved. -/
def ntoaWidth (negative : Bool) (width : Nat) (flags : Flags) : Nat :=
  if !flags.left && (width != 0 && flags.zeropad &&
      (negative || flags.plus || flags.space)) then width - 1 else width

/-- First block of `_ntoa_format`: leading zeros for the precision and, with
the zero flag, for the width; nothing when left aligned. -/
def ntoaPad (buf : List Nat) (negative : Bool) (prec width : Nat)
    (flags : Flags) : List Nat :=
  if !flags.left then
    let buf1 := padZeros buf prec
    if flags.zeropad then padZeros buf1 (ntoaWidth negative width flags) else buf1
  else buf

/-- Second block of `_ntoa_format` ("handle hash"); `width` is the width left
by the first block. -/
def ntoaHash (buf : List Nat) (base prec width : Nat) (flags : Flags) : List Nat :=
  if flags.hash then
    let b1 :=
      if !flags.precision && buf.length != 0 &&
          (buf.length == prec || buf.length == width) then
        let b := buf.dropLast
        if b.length != 0 && base == 16 then b.dropLast else b
      else buf
    let b2 :=
      if base == 16 && !flags.uppercase && b1.length < PRINTF_NTOA_BUFFER_SIZE then
        b1 ++ [120]
      else if base == 16 && flags.uppercase && b1.length < PRINTF_NTOA_BUFFER_SIZE then
        b1 ++ [88]
      else if base == 2 && b1.length < PRINTF_NTOA_BUFFER_SIZE then
        b1 ++ [98]
      else b1
    if b2.length < PRINTF_NTOA_BUFFER_SIZE then b2 ++ [48] else b2
  else buf

/-- Third block of `_ntoa_format`: the sign character, when the buffer has
room for it. -/
def ntoaSign (buf : List Nat) (negative : Bool) (flags : Flags) : List Nat :=
  if buf.length < PRINTF_NTOA_BUFFER_SIZE then
    if negative then buf ++ [45]
    else if flags.plus then buf ++ [43]
    else if flags.space then buf ++ [32]
    else buf
  else buf

/-- The scratch buffer of `_ntoa_format` when it is handed to `_out_rev`. -/
def ntoaFormatBuf (buf : List Nat) (negative : Bool) (base prec width : Nat)
    (flags : Flags) : List Nat :=
  ntoaSign
    (ntoaHash (ntoaPad buf negative prec width flags) base prec
      (ntoaWidth negative width flags) flags)
    negative flags

/-- Function `_ntoa_format`. -/
def _ntoa_format {β : Type} (out : out_fct_type β) (buffer : β) (idx maxlen : Nat)
    (buf : List Nat) (negative : Bool) (base prec width : Nat) (flags : Flags) :
    β × Nat :=
  _out_rev out buffer idx maxlen (ntoaFormatBuf buf negative base prec width flags)
    (ntoaWidth negative width flags) flags

/-- Function `_is_zero` on the bytes of a value. -/
def _is_zero (value : List Nat) : Bool :=
  value.all (fun b => b == 0)

/-- Function `_is_high_bit_set`: bit 7 of the last byte. -/
def _is_high_bit_set (value : List Nat) : Bool :=
  (value.getLastD 0) &&& 0x80 != 0

/-- Loop of `_bcd_shl`: the cells from index `i` on, with the carry that
enters them; the result holds the new cells and the carry that leaves. -/
def bcdShlLoop (base : Nat) : List Nat → Bool → List Nat × Bool
  | [], carry => ([], carry)
  | d :: ds, carry =>
    let d1 := (d <<< 1) % 256
    let d2 := if carry then (d1 + 1) % 256 else d1
    let carry1 := decide (base ≤ d2)
    let d3 := if carry1 then d2 - base else d2
    let r := bcdShlLoop base ds carry1
    (d3 :: r.1, r.2)

/-- Function `_bcd_shl`: double the accumulator in the given base. -/
def _bcd_shl (bcd : List Nat) (base : Nat) : List Nat :=
  let r := bcdShlLoop base bcd false
  if r.2 then r.1 ++ [1] else r.1

/-- Loop of `_bcd_inc`; it returns at the first cell reached without a carry. -/
def bcdIncLoop (base : Nat) : List Nat → Bool → List Nat × Bool
  | [], carry => ([], carry)
  | d :: ds, carry =>
    if !carry then (d :: ds, false)
    else
      let d1 := (d + 1) % 256
      let carry1 := d1 == base
      let r := bcdIncLoop base ds carry1
      ((if carry1 then 0 else d1) :: r.1, r.2)

/-- Function `_bcd_inc`: add one to the accumulator in the given base. -/
def _bcd_inc (bcd : List Nat) (base : Nat) : List Nat :=
  let r := bcdIncLoop base bcd true
  if r.2 then r.1 ++ [1] else r.1

/-- Loop of `_bin_shl`. -/
def binShlLoop : List Nat → Bool → List Nat
  | [], _ => []
  | b :: bs, carry =>
    (((b <<< 1) ||| carry.toNat) % 256) :: binShlLoop bs (b &&& 0x80 != 0)

/-- Function `_bin_shl`: shift the bytes of a value left by one bit. -/
def _bin_shl (value : List Nat) : List Nat :=
  binShlLoop value false

/-- The bit loop of `_ntoa`, `n` iterations from the accumulator `bcd` and the
working copy `working_value`. -/
def ntoaBits (base : Nat) : Nat → List Nat → List Nat → List Nat
  | 0, bcd, _ => bcd
  | n + 1, bcd, working_value =>
    let bcd1 := _bcd_shl bcd base
    let bcd2 := if _is_high_bit_set working_value then _bcd_inc bcd1 base else bcd1
    ntoaBits base n bcd2 (_bin_shl working_value)

/-- The conversion of one accumulator cell to ASCII in `_ntoa`. -/
def bcdToAscii (flags : Flags) (cell : Nat) : Nat :=
  if cell < 10 then (48 + cell) % 256
  else ((if flags.uppercase then 65 else 97) + cell - 10) % 256

/-- The flags of `_ntoa` after "no hash for 0 values". -/
def ntoaFlags (value : List Nat) (flags : Flags) : Flags :=
  if _is_zero value then { flags with hash := false } else flags

/-- The digits `_ntoa` leaves in its scratch buffer, lowest first, before
`_ntoa_format` runs; `base` has been converted to `char` for the accumulator. -/
def ntoaDigits (value : List Nat) (base : Nat) (flags : Flags) : List Nat :=
  if !(ntoaFlags value flags).precision || !_is_zero value then
    (ntoaBits (base % 256) (value.length * 8) [0] value).map
      (bcdToAscii (ntoaFlags value flags))
  else []

/-- Function `_ntoa`; `value` holds the `value_size` bytes of the magnitude,
lowest byte first. -/
def _ntoa {β : Type} (out : out_fct_type β) (buffer : β) (idx maxlen : Nat)
    (value : List Nat) (negative : Bool) (base prec width : Nat) (flags : Flags) :
    β × Nat :=
  _ntoa_format out buffer idx maxlen (ntoaDigits value base flags) negative base
    prec width (ntoaFlags value flags)

/-- The bytes of an unsigned object of `n` bytes holding `v`, lowest first. -/
def toBytes : Nat → Nat → List Nat
  | 0, _ => []
  | n + 1, v => (v % 256) :: toBytes n (v / 256)

/-- No flag set. -/
def noFlags : Flags := {}

/-- The characters a call hands to its sink, read off the recording sink. -/
def ntoaChars (value : List Nat) (negative : Bool) (base prec width : Nat)
    (flags : Flags) : List Nat :=
  (_ntoa traceOut [] 0 0 value negative base prec width flags).1

/-! ## Reading numerals back -/

/-- The value of one digit character, in any base up to 16. -/
def digitValue (c : Nat) : Option Nat :=
  if 48 ≤ c ∧ c ≤ 57 then some (c - 48)
  else if 97 ≤ c ∧ c ≤ 102 then some (c - 87)
  else if 65 ≤ c ∧ c ≤ 70 then some (c - 55)
  else none

/-- Reading a numeral, most significant digit first, onto an accumulator. -/
def parseFrom (base : Nat) : List Nat → Nat → Option Nat
  | [], acc => some acc
  | c :: cs, acc =>
    match digitValue c with
    | some d => if d < base then parseFrom base cs (acc * base + d) else none
    | none => none

/-- Reading a non-empty numeral of the given base. -/
def parseNum (base : Nat) (cs : List Nat) : Option Nat :=
  if cs = [] then none else parseFrom base cs 0

/-! ## Platform and arguments -/

/-- The sizes of the integer types, which the source takes from the target:
`sizeof(int)`, `sizeof(short)`, `sizeof(long)`, `sizeof(long long)`,
`sizeof(void *)`, `sizeof(size_t)`, `sizeof(ptrdiff_t)`, `sizeof(intmax_t)`. -/
structure Platform where
  int_bytes : Nat
  short_bytes : Nat
  long_bytes : Nat
  long_long_bytes : Nat
  ptr_bytes : Nat
  size_bytes : Nat
  ptrdiff_bytes : Nat
  intmax_bytes : Nat

/-- The type sizes of the 6502 target of the SDK. -/
def mos : Platform :=
  { int_bytes := 2, short_bytes := 2, long_bytes := 4, long_long_bytes := 8,
    ptr_bytes := 2, size_bytes := 2, ptrdiff_bytes := 2, intmax_bytes := 8 }

/-- Conversion to an unsigned type of the given number of bits. -/
def wrapU (bits : Nat) (x : Int) : Nat :=
  (x % 2 ^ bits).toNat

/-- Conversion to a signed two's complement type of the given number of bits. -/
def wrapS (bits : Nat) (x : Int) : Int :=
  (x + 2 ^ (bits - 1)) % 2 ^ bits - 2 ^ (bits - 1)

/-- The operations on `double` that the source uses.  The type and its
arithmetic belong to the target and are taken as a parameter: conversions
from and to integers (the latter truncating), literal constants, the
comparisons, the arithmetic, `DBL_MAX`, and the two directions of the union
`conv` between a double and its 64 bit pattern. -/
structure DoubleOps (F : Type) where
  ofInt : Int → F
  toInt : F → Int
  ofRat : ℚ → F
  lt : F → F → Bool
  le : F → F → Bool
  ne : F → F → Bool
  add : F → F → F
  sub : F → F → F
  mul : F → F → F
  div : F → F → F
  neg : F → F
  dblMax : F
  toBits : F → Nat
  ofBits : Nat → F

/-- One variadic argument: an integer of any integer type, a double, or a
pointer with the bytes it points to. -/
inductive Arg (F : Type) where
  | int (v : Int)
  | dbl (x : F)
  | ptr (addr : Nat) (target : List Nat)

/-- The integer read by `va_arg` at an integer type; an argument of another
kind, or a missing one, is outside the contract of the caller and reads as 0. -/
def argInt {F : Type} : Option (Arg F) → Int
  | some (Arg.int v) => v
  | _ => 0

/-- The double read by `va_arg(va, double)`. -/
def argDbl {F : Type} (D : DoubleOps F) : Option (Arg F) → F
  | some (Arg.dbl x) => x
  | _ => D.ofInt 0

/-- The address read by `va_arg(va, void *)`. -/
def argAddr {F : Type} : Option (Arg F) → Nat
  | some (Arg.ptr addr _) => addr
  | _ => 0

/-- The bytes behind the pointer read by `va_arg(va, char *)`. -/
def argStr {F : Type} : Option (Arg F) → List Nat
  | some (Arg.ptr _ target) => target
  | _ => []

/-! ## Floating point conversion -/

/-- `PRINTF_MAX_FLOAT`. -/
def PRINTF_MAX_FLOAT {F : Type} (D : DoubleOps F) : F := D.ofRat 1000000000

/-- The table `pow10` of `_ftoa`; an index past its end reads as 0. -/
def pow10 {F : Type} (D : DoubleOps F) (prec : Nat) : F :=
  if prec ≤ 9 then D.ofInt (10 ^ prec) else D.ofInt 0

/-- The test `(value > PRINTF_MAX_FLOAT) || (value < -PRINTF_MAX_FLOAT)`. -/
def ftoaIsLarge {F : Type} (D : DoubleOps F) (value : F) : Bool :=
  D.lt (PRINTF_MAX_FLOAT D) value || D.lt value (D.neg (PRINTF_MAX_FLOAT D))

/-- The loop `while (len < PRINTF_FTOA_BUFFER_SIZE) { --count; buf[len++] =
48 + frac % 10; if (!(frac /= 10)) break; }`, by the room left in the buffer;
`count` is an `unsigned int` of `bits` bits. -/
def ftoaFracLoop (bits : Nat) : Nat → List Nat → Nat → Nat → List Nat × Nat
  | 0, buf, _, count => (buf, count)
  | room + 1, buf, frac, count =>
    let count1 := (count + 2 ^ bits - 1) % 2 ^ bits
    let buf1 := buf ++ [(48 + frac % 10) % 256]
    if frac / 10 = 0 then (buf1, count1)
    else ftoaFracLoop bits room buf1 (frac / 10) count1

/-- The loop `while ((len < PRINTF_FTOA_BUFFER_SIZE) && (count-- > 0U))
buf[len++] = '0'`. -/
def ftoaCountZeros (buf : List Nat) (count : Nat) : List Nat :=
  buf ++ List.replicate (min count (PRINTF_FTOA_BUFFER_SIZE - buf.length)) 48

/-- The loop `while (len < PRINTF_FTOA_BUFFER_SIZE) { buf[len++] = 48 +
whole % 10; if (!(whole /= 10)) break; }`, by the room left in the buffer. -/
def ftoaWholeLoop : Nat → List Nat → Int → List Nat
  | 0, buf, _ => buf
  | room + 1, buf, whole =>
    let buf1 := buf ++ [wrapU 8 (48 + Int.tmod whole 10)]
    if Int.tdiv whole 10 = 0 then buf1 else ftoaWholeLoop room buf1 (Int.tdiv whole 10)

/-- The scratch buffer of `_ftoa` for a value that is neither special nor
large, as handed to `_out_rev`, with the width left by the padding block. -/
def ftoaBuf {F : Type} (P : Platform) (D : DoubleOps F) (value0 : F)
    (prec0 width : Nat) (flags : Flags) : List Nat × Nat :=
  let ibits := 8 * P.int_bytes
  -- test for negative
  let negative := D.lt value0 (D.ofInt 0)
  let value := if negative then D.sub (D.ofInt 0) value0 else value0
  -- default precision, then the limit of 9 decimals
  let prec1 := if !flags.precision then PRINTF_DEFAULT_FLOAT_PRECISION else prec0
  let k := min (prec1 - 9) PRINTF_FTOA_BUFFER_SIZE
  let buf0 : List Nat := List.replicate k 48
  let prec := prec1 - k
  let whole0 : Int := wrapS ibits (D.toInt value)
  let tmp := D.mul (D.sub value (D.ofInt whole0)) (pow10 D prec)
  let frac0 : Nat := wrapU (8 * P.long_bytes) (D.toInt tmp)
  let diff := D.sub tmp (D.ofInt frac0)
  let fw : Nat × Int :=
    if D.lt (D.ofRat 0.5) diff then
      let frac1 := (frac0 + 1) % 2 ^ (8 * P.long_bytes)
      if D.le (pow10 D prec) (D.ofInt frac1) then (0, wrapS ibits (whole0 + 1))
      else (frac1, whole0)
    else if D.lt diff (D.ofRat 0.5) then (frac0, whole0)
    else if frac0 = 0 ∨ frac0 % 2 = 1 then
      ((frac0 + 1) % 2 ^ (8 * P.long_bytes), whole0)
    else (frac0, whole0)
  let frac := fw.1
  let whole1 := fw.2
  let bw : List Nat × Int :=
    if prec = 0 then
      let diff2 := D.sub value (D.ofInt whole1)
      if (!(D.lt diff2 (D.ofRat 0.5)) || D.lt (D.ofRat 0.5) diff2) && whole1 % 2 != 0 then
        (buf0, wrapS ibits (whole1 + 1))
      else (buf0, whole1)
    else
      let r := ftoaFracLoop ibits (PRINTF_FTOA_BUFFER_SIZE - buf0.length) buf0 frac prec
      let b1 := ftoaCountZeros r.1 r.2
      (if b1.length < PRINTF_FTOA_BUFFER_SIZE then b1 ++ [46] else b1, whole1)
  -- do whole part, number is reversed
  let buf2 := ftoaWholeLoop (PRINTF_FTOA_BUFFER_SIZE - bw.1.length) bw.1 bw.2
  -- pad leading zeros
  let width1 :=
    if !flags.left && flags.zeropad && (width != 0 &&
        (negative || flags.plus || flags.space)) then width - 1 else width
  let buf3 :=
    if !flags.left && flags.zeropad then
      buf2 ++ List.replicate (min width1 PRINTF_FTOA_BUFFER_SIZE - buf2.length) 48
    else buf2
  let buf4 :=
    if buf3.length < PRINTF_FTOA_BUFFER_SIZE then
      if negative then buf3 ++ [45]
      else if flags.plus then buf3 ++ [43]
      else if flags.space then buf3 ++ [32]
      else buf3
    else buf3
  (buf4, width1)

/-- The values `_etoa` computes before it prints: the decimal exponent
`expval`, the power of ten `conv.F`, and the magnitude of the value. -/
structure EtoaScale (F : Type) where
  negative : Bool
  value : F
  expval : Int
  convF : F

/-- The decimal exponent of `_etoa` and `conv.F`, from the bit pattern of the
magnitude. -/
def etoaScale {F : Type} (P : Platform) (D : DoubleOps F) (value0 : F) : EtoaScale F :=
  let ibits := 8 * P.int_bytes
  let negative := D.lt value0 (D.ofInt 0)
  let value := if negative then D.neg value0 else value0
  let u0 := D.toBits value
  let exp2 : Int := wrapS ibits ((((u0 >>> 52) &&& 0x07FF : Nat) : Int) - 1023)
  let u1 := (u0 &&& (2 ^ 52 - 1)) ||| (1023 <<< 52)
  let f1 := D.ofBits u1
  let expval0 : Int := wrapS ibits (D.toInt
    (D.add (D.add (D.ofRat 0.1760912590558) (D.mul (D.ofInt exp2) (D.ofRat 0.301029995663981)))
      (D.mul (D.sub f1 (D.ofRat 1.5)) (D.ofRat 0.289529654602168))))
  let exp2b : Int := wrapS ibits (D.toInt
    (D.add (D.mul (D.ofInt expval0) (D.ofRat 3.321928094887362)) (D.ofRat 0.5)))
  let z := D.sub (D.mul (D.ofInt expval0) (D.ofRat 2.302585092994046))
    (D.mul (D.ofInt exp2b) (D.ofRat 0.6931471805599453))
  let z2 := D.mul z z
  let u2 := (wrapU 64 (exp2b + 1023) <<< 52) % 2 ^ 64
  let f2 := D.mul (D.ofBits u2)
    (D.add (D.ofInt 1)
      (D.div (D.mul (D.ofInt 2) z)
        (D.add (D.sub (D.ofInt 2) z)
          (D.div z2 (D.add (D.ofInt 6) (D.div z2 (D.add (D.ofInt 10) (D.div z2 (D.ofInt 14)))))))))
  -- correct for rounding errors
  if D.lt value f2 then
    { negative := negative, value := value, expval := wrapS ibits (expval0 - 1),
      convF := D.div f2 (D.ofInt 10) }
  else { negative := negative, value := value, expval := expval0, convF := f2 }

/-- What `_etoa` settles before it calls `_ftoa`: the value, precision, width
and flags of that call, the width of the exponent field (0 when there is
none), and the exponent. -/
structure EtoaPlan (F : Type) where
  value : F
  prec : Nat
  fwidth : Nat
  flags : Flags
  minwidth : Nat
  expval : Int

/-- The part of `_etoa` between the special values and the output. -/
def etoaPlan {F : Type} (P : Platform) (D : DoubleOps F) (value0 : F)
    (prec0 width : Nat) (flags : Flags) : EtoaPlan F :=
  let ibits := 8 * P.int_bytes
  let sc := etoaScale P D value0
  let prec1 := if !flags.precision then PRINTF_DEFAULT_FLOAT_PRECISION else prec0
  let minwidth0 : Nat := if sc.expval < 100 ∧ sc.expval > -100 then 4 else 5
  let fallback := flags.adapt_exp &&
    (D.le (D.ofRat 0.0001) sc.value && D.lt sc.value (D.ofRat 1000000))
  let prec :=
    if flags.adapt_exp then
      if fallback then
        if wrapS ibits prec1 > sc.expval then wrapU ibits (wrapS ibits prec1 - sc.expval - 1)
        else 0
      else if prec1 > 0 && flags.precision then prec1 - 1 else prec1
    else prec1
  let flags1 := if fallback then { flags with precision := true } else flags
  let minwidth := if fallback then 0 else minwidth0
  let expval := if fallback then 0 else sc.expval
  let fwidth0 := if width > minwidth then width - minwidth else 0
  let fwidth := if flags1.left && minwidth != 0 then 0 else fwidth0
  let value1 := if expval != 0 then D.div sc.value sc.convF else sc.value
  { value := if sc.negative then D.neg value1 else value1, prec := prec,
    fwidth := fwidth, flags := { flags1 with adapt_exp := false },
    minwidth := minwidth, expval := expval }

/-- The exponent part of `_etoa`, after the floating part has been written up
to `s`. -/
def etoaTail {β F : Type} (P : Platform) (out : out_fct_type β) (maxlen : Nat)
    (start_idx width : Nat) (flags : Flags) (pl : EtoaPlan F) (s : β × Nat) : β × Nat :=
  if pl.minwidth != 0 then
    let s1 : β × Nat :=
      (out (if flags.uppercase then 69 else 101) s.1 s.2 maxlen, s.2 + 1)
    let expval_abs : Int :=
      wrapS (8 * P.int_bytes) (if pl.expval < 0 then -pl.expval else pl.expval)
    let s2 := _ntoa out s1.1 s1.2 maxlen
      (toBytes P.int_bytes (wrapU (8 * P.int_bytes) expval_abs)) (decide (pl.expval < 0)) 10 0
      (pl.minwidth - 1) { zeropad := true, plus := true }
    if flags.left then
      outList out maxlen (List.replicate (width - (s2.2 - start_idx)) 32) s2
    else s2
  else s

/-- The test for NaN and the infinities at the head of `_etoa` and `_ftoa`. -/
def isSpecial {F : Type} (D : DoubleOps F) (value : F) : Bool :=
  D.ne value value || D.lt D.dblMax value || D.lt value (D.neg D.dblMax)

/-- Function `_etoa`, over the `_ftoa` it calls. -/
def etoaWith {β F : Type} (P : Platform) (D : DoubleOps F)
    (ftoa : β → Nat → F → Nat → Nat → Flags → Option (β × Nat))
    (out : out_fct_type β) (buffer : β) (idx maxlen : Nat) (value : F)
    (prec width : Nat) (flags : Flags) : Option (β × Nat) :=
  if isSpecial D value then ftoa buffer idx value prec width flags
  else
    let pl := etoaPlan P D value prec width flags
    (ftoa buffer idx pl.value pl.prec pl.fwidth pl.flags).map
      (etoaTail P out maxlen idx width flags pl)

/-- Function `_ftoa`.  `_ftoa` and `_etoa` call each other; `depth` bounds the
nesting of these calls that the model follows, and no result is given past it. -/
def _ftoa {β F : Type} (P : Platform) (D : DoubleOps F) (out : out_fct_type β)
    (maxlen : Nat) : Nat → β → Nat → F → Nat → Nat → Flags → Option (β × Nat)
  | 0, _, _, _, _, _, _ => none
  | depth + 1, buffer, idx, value, prec, width, flags =>
    -- test for special values
    if D.ne value value then
      some (_out_rev out buffer idx maxlen [110, 97, 110] width flags)
    else if D.lt value (D.neg D.dblMax) then
      some (_out_rev out buffer idx maxlen [102, 110, 105, 45] width flags)
    else if D.lt D.dblMax value then
      some (_out_rev out buffer idx maxlen
        (if flags.plus then [102, 110, 105, 43] else [102, 110, 105]) width flags)
    -- test for very large values
    else if ftoaIsLarge D value then
      etoaWith P D (_ftoa P D out maxlen depth) out buffer idx maxlen value prec width flags
    else
      some (_out_rev out buffer idx maxlen (ftoaBuf P D value prec width flags).1
        (ftoaBuf P D value prec width flags).2 flags)

/-- Function `_etoa`, with the same bound on the nesting of calls. -/
def _etoa {β F : Type} (P : Platform) (D : DoubleOps F) (out : out_fct_type β)
    (maxlen : Nat) (depth : Nat) (buffer : β) (idx : Nat) (value : F)
    (prec width : Nat) (flags : Flags) : Option (β × Nat) :=
  etoaWith P D (_ftoa P D out maxlen depth) out buffer idx maxlen value prec width flags

/-- The nesting of `_ftoa` and `_etoa` followed from a directive. -/
def FLOAT_DEPTH : Nat := 2

/-! ## The format parser -/

/-- Function `_is_digit`. -/
def _is_digit (ch : Nat) : Bool :=
  decide (48 ≤ ch) && decide (ch ≤ 57)

/-- Function `_atoi` from the accumulator `i`; the result holds the number
and the cursor after the digits.  The number is an `unsigned int`. -/
def atoiLoop (P : Platform) : List Nat → Nat → Nat × List Nat
  | [], i => (i, [])
  | c :: cs, i =>
    if _is_digit c then atoiLoop P cs ((i * 10 + (c - 48)) % 2 ^ (8 * P.int_bytes))
    else (i, c :: cs)

/-- Function `_atoi`. -/
def _atoi (P : Platform) (str : List Nat) : Nat × List Nat :=
  atoiLoop P str 0

/-- Loop of `_strnlen_s`. -/
def strnlenLoop : List Nat → Nat → Nat → Nat
  | [], _, n => n
  | c :: cs, maxsize, n =>
    if c != 0 && maxsize != 0 then strnlenLoop cs (maxsize - 1) (n + 1) else n

/-- Function `_strnlen_s`; the result is an `unsigned int`. -/
def _strnlen_s (P : Platform) (str : List Nat) (maxsize : Nat) : Nat :=
  strnlenLoop str maxsize 0 % 2 ^ (8 * P.int_bytes)

/-- The parser between two directives: the sink, the format cursor (the
bytes from the cursor on; a read past them gives 0) and the argument cursor. -/
structure State (β F : Type) where
  buffer : β
  idx : Nat
  format : List Nat
  va : List (Arg F)

/-- A directive read up to its conversion letter. -/
structure Directive (F : Type) where
  flags : Flags
  width : Nat
  precision : Nat
  format : List Nat
  va : List (Arg F)

/-- The loop "evaluate flags". -/
def evalFlags : List Nat → Flags → List Nat × Flags
  | [], flags => ([], flags)
  | c :: cs, flags =>
    if c = 48 then evalFlags cs { flags with zeropad := true }
    else if c = 45 then evalFlags cs { flags with left := true }
    else if c = 43 then evalFlags cs { flags with plus := true }
    else if c = 32 then evalFlags cs { flags with space := true }
    else if c = 35 then evalFlags cs { flags with hash := true }
    else (c :: cs, flags)

/-- The block "evaluate width field". -/
def evalWidth {F : Type} (P : Platform) (format : List Nat) (va : List (Arg F))
    (flags : Flags) : Directive F :=
  if _is_digit (format.headD 0) then
    { flags := flags, width := (_atoi P format).1, precision := 0,
      format := (_atoi P format).2, va := va }
  else if format.headD 0 = 42 then
    let w := wrapS (8 * P.int_bytes) (argInt va.head?)
    if w < 0 then
      { flags := { flags with left := true }, width := wrapU (8 * P.int_bytes) (-w),
        precision := 0, format := format.tail, va := va.tail }
    else
      { flags := flags, width := wrapU (8 * P.int_bytes) w, precision := 0,
        format := format.tail, va := va.tail }
  else { flags := flags, width := 0, precision := 0, format := format, va := va }

/-- The block "evaluate precision field". -/
def evalPrecision {F : Type} (P : Platform) (d : Directive F) : Directive F :=
  if d.format.headD 0 = 46 then
    let flags := { d.flags with precision := true }
    let format := d.format.tail
    if _is_digit (format.headD 0) then
      { d with flags := flags, precision := (_atoi P format).1, format := (_atoi P format).2 }
    else if format.headD 0 = 42 then
      let prec := wrapS (8 * P.int_bytes) (argInt d.va.head?)
      { d with flags := flags,
               precision := if prec > 0 then wrapU (8 * P.int_bytes) prec else 0,
               format := format.tail, va := d.va.tail }
    else { d with flags := flags, format := format }
  else d

/-- The flag a length modifier of the size of the given type stands for. -/
def sizedLong (P : Platform) (bytes : Nat) (flags : Flags) : Flags :=
  if bytes = P.long_bytes then { flags with long := true }
  else { flags with long_long := true }

/-- The block "evaluate length field". -/
def evalLength {F : Type} (P : Platform) (d : Directive F) : Directive F :=
  let c := d.format.headD 0
  if c = 108 then
    let format := d.format.tail
    if format.headD 0 = 108 then
      { d with flags := { d.flags with long := true, long_long := true }, format := format.tail }
    else { d with flags := { d.flags with long := true }, format := format }
  else if c = 104 then
    let format := d.format.tail
    if format.headD 0 = 104 then
      { d with flags := { d.flags with short := true, char := true }, format := format.tail }
    else { d with flags := { d.flags with short := true }, format := format }
  else if c = 116 then
    { d with flags := sizedLong P P.ptrdiff_bytes d.flags, format := d.format.tail }
  else if c = 106 then
    { d with flags := sizedLong P P.intmax_bytes d.flags, format := d.format.tail }
  else if c = 122 then
    { d with flags := sizedLong P P.size_bytes d.flags, format := d.format.tail }
  else d

/-- A directive from the character after its `%` up to its conversion
letter: flags, width, precision, length. -/
def parseDirective {F : Type} (P : Platform) (format : List Nat) (va : List (Arg F)) :
    Directive F :=
  let r := evalFlags format {}
  evalLength P (evalPrecision P (evalWidth P r.1 va r.2))

/-- The conversion letters `d i u x X o b`. -/
def isIntConv (c : Nat) : Bool :=
  c = 100 || c = 105 || c = 117 || c = 120 || c = 88 || c = 111 || c = 98

/-- The base of an integer conversion. -/
def intBase (c : Nat) : Nat :=
  if c = 120 ∨ c = 88 then 16 else if c = 111 then 8 else if c = 98 then 2 else 10

/-- The flags of an integer conversion as they reach `_ntoa`. -/
def intFlags (c : Nat) (flags : Flags) : Flags :=
  let f1 := if c = 120 ∨ c = 88 ∨ c = 111 ∨ c = 98 then flags else { flags with hash := false }
  let f2 := if c = 88 then { f1 with uppercase := true } else f1
  let f3 := if c ≠ 105 ∧ c ≠ 100 then { f2 with plus := false, space := false } else f2
  if f3.precision then { f3 with zeropad := false } else f3

/-- The operand of an integer conversion: the bytes of the magnitude handed
to `_ntoa`, lowest first, and whether the value is negative.  `flags` are the
flags of `intFlags` and `a` is the argument. -/
def intOperand (P : Platform) (c : Nat) (flags : Flags) (a : Int) : List Nat × Bool :=
  if c = 105 ∨ c = 100 then
    if flags.long_long then
      let value := wrapS (8 * P.long_long_bytes) a
      (toBytes P.long_long_bytes
        (wrapU (8 * P.long_long_bytes) (if value > 0 then value else 0 - value)),
        decide (value < 0))
    else if flags.long then
      let value := wrapS (8 * P.long_bytes) a
      (toBytes P.long_bytes (wrapU (8 * P.long_bytes) (if value > 0 then value else 0 - value)),
        decide (value < 0))
    else
      let v0 := wrapS (8 * P.int_bytes) a
      let value :=
        if flags.char then wrapS 8 v0
        else if flags.short then wrapS (8 * P.short_bytes) v0
        else v0
      (toBytes P.int_bytes (wrapU (8 * P.int_bytes) (if value > 0 then value else 0 - value)),
        decide (value < 0))
  else
    if flags.long_long then
      (toBytes P.long_long_bytes (wrapU (8 * P.long_long_bytes) a), false)
    else if flags.long then
      (toBytes P.long_bytes (wrapU (8 * P.long_bytes) a), false)
    else
      let v0 := wrapU (8 * P.int_bytes) a
      let value :=
        if flags.char then v0 % 2 ^ 8
        else if flags.short then v0 % 2 ^ (8 * P.short_bytes)
        else v0
      (toBytes P.int_bytes value, false)

/-- The cases `d i u x X o b` of the conversion switch, up to `format++`. -/
def convInt {β F : Type} (P : Platform) (out : out_fct_type β) (maxlen : Nat)
    (c : Nat) (d : Directive F) (buffer : β) (idx : Nat) : β × Nat :=
  let flags := intFlags c d.flags
  let op := intOperand P c flags (argInt d.va.head?)
  _ntoa out buffer idx maxlen op.1 op.2 (intBase c) d.precision d.width flags

/-- The case `c` of the conversion switch. -/
def convChar {β F : Type} (out : out_fct_type β) (maxlen : Nat) (d : Directive F)
    (buffer : β) (idx : Nat) : β × Nat :=
  let s1 :=
    if !d.flags.left then outList out maxlen (List.replicate (d.width - 1) 32) (buffer, idx)
    else (buffer, idx)
  let s2 : β × Nat := (out (wrapU 8 (argInt d.va.head?)) s1.1 s1.2 maxlen, s1.2 + 1)
  if d.flags.left then outList out maxlen (List.replicate (d.width - 1) 32) s2 else s2

/-- The loop "string output" of the case `s`: the characters it hands to the
sink, `precision` being the count left when the precision flag is set. -/
def strChars (flagPrecision : Bool) : List Nat → Nat → List Nat
  | [], _ => []
  | c :: cs, precision =>
    if c != 0 && (!flagPrecision || precision != 0) then
      c :: strChars flagPrecision cs (precision - 1)
    else []

/-- The case `s` of the conversion switch. -/
def convStr {β F : Type} (P : Platform) (out : out_fct_type β) (maxlen : Nat)
    (d : Directive F) (buffer : β) (idx : Nat) : β × Nat :=
  let p := argStr d.va.head?
  let l0 := _strnlen_s P p (if d.precision != 0 then d.precision else 2 ^ (8 * P.size_bytes) - 1)
  let l := if d.flags.precision then (if l0 < d.precision then l0 else d.precision) else l0
  let s1 :=
    if !d.flags.left then outList out maxlen (List.replicate (d.width - l) 32) (buffer, idx)
    else (buffer, idx)
  let s2 := outList out maxlen (strChars d.flags.precision p d.precision) s1
  if d.flags.left then outList out maxlen (List.replicate (d.width - l) 32) s2 else s2

/-- The case `p` of the conversion switch. -/
def convPtr {β F : Type} (P : Platform) (out : out_fct_type β) (maxlen : Nat)
    (d : Directive F) (buffer : β) (idx : Nat) : β × Nat :=
  _ntoa out buffer idx maxlen
    (toBytes P.ptr_bytes (argAddr d.va.head? % 2 ^ (8 * P.ptr_bytes))) false 16 d.precision
    (P.ptr_bytes * 2) { d.flags with zeropad := true, uppercase := true }

/-- The switch "evaluate specifier" with the `format++` that ends each case;
`d` is the directive read so far and `(buffer, idx)` the sink. -/
def evalSpecifier {β F : Type} (P : Platform) (D : DoubleOps F) (out : out_fct_type β)
    (maxlen : Nat) (d : Directive F) (buffer : β) (idx : Nat) : Option (State β F) :=
  let c := d.format.headD 0
  if isIntConv c then
    let r := convInt P out maxlen c d buffer idx
    some { buffer := r.1, idx := r.2, format := d.format.tail, va := d.va.tail }
  else if c = 102 ∨ c = 70 then
    let flags := if c = 70 then { d.flags with uppercase := true } else d.flags
    (_ftoa P D out maxlen FLOAT_DEPTH buffer idx (argDbl D d.va.head?) d.precision d.width
      flags).map
      (fun r => { buffer := r.1, idx := r.2, format := d.format.tail, va := d.va.tail })
  else if c = 101 ∨ c = 69 ∨ c = 103 ∨ c = 71 then
    let f1 := if c = 103 ∨ c = 71 then { d.flags with adapt_exp := true } else d.flags
    let f2 := if c = 69 ∨ c = 71 then { f1 with uppercase := true } else f1
    (_etoa P D out maxlen FLOAT_DEPTH buffer idx (argDbl D d.va.head?) d.precision d.width
      f2).map
      (fun r => { buffer := r.1, idx := r.2, format := d.format.tail, va := d.va.tail })
  else if c = 99 then
    let r := convChar out maxlen d buffer idx
    some { buffer := r.1, idx := r.2, format := d.format.tail, va := d.va.tail }
  else if c = 115 then
    let r := convStr P out maxlen d buffer idx
    some { buffer := r.1, idx := r.2, format := d.format.tail, va := d.va.tail }
  else if c = 112 then
    let r := convPtr P out maxlen d buffer idx
    some { buffer := r.1, idx := r.2, format := d.format.tail, va := d.va.tail }
  else if c = 37 then
    some { buffer := out 37 buffer idx maxlen, idx := idx + 1, format := d.format.tail,
           va := d.va }
  else
    some { buffer := out c buffer idx maxlen, idx := idx + 1, format := d.format.tail,
           va := d.va }

/-- The loop `while (*format)` of `_vsnprintf`, for at most `fuel` rounds. -/
def vsnprintfLoop {β F : Type} (P : Platform) (D : DoubleOps F) (out : out_fct_type β)
    (maxlen : Nat) : Nat → State β F → Option (State β F)
  | 0, _ => none
  | fuel + 1, s =>
    if s.format.headD 0 = 0 then some s
    else if s.format.headD 0 ≠ 37 then
      vsnprintfLoop P D out maxlen fuel
        { s with buffer := out (s.format.headD 0) s.buffer s.idx maxlen, idx := s.idx + 1,
                 format := s.format.tail }
    else
      let d := parseDirective P s.format.tail s.va
      (evalSpecifier P D out maxlen d s.buffer s.idx).bind (vsnprintfLoop P D out maxlen fuel)

/-- The index of the terminating write, `idx < maxlen ? idx : maxlen - 1U` in
`size_t`. -/
def terminatorIndex (P : Platform) (idx maxlen : Nat) : Nat :=
  if idx < maxlen then idx else (maxlen + 2 ^ (8 * P.size_bytes) - 1) % 2 ^ (8 * P.size_bytes)

/-- The sink as `_vsnprintf` calls it: `idx` is a `size_t`, so after as many
`idx++` as characters written the sink is handed their count modulo
`2 ^ bits`. -/
def sizeIdx {β : Type} (P : Platform) (out : out_fct_type β) : out_fct_type β :=
  fun character buffer idx maxlen => out character buffer (idx % 2 ^ (8 * P.size_bytes)) maxlen

/-- Function `_vsnprintf`; a null `buffer` is `none`.  The loop gets one round
for each byte of the format and one more.  The result is the buffer after the
call, the terminating write included, with the value returned, `(int)idx`
for the `size_t idx`. -/
def _vsnprintf {β F : Type} (P : Platform) (D : DoubleOps F) (out : out_fct_type β)
    (buffer : Option β) (maxlen : Nat) (format : List Nat) (va : List (Arg F)) :
    Option (Option β × Int) :=
  match buffer with
  | none =>
    (vsnprintfLoop P D (sizeIdx P (_out_null : out_fct_type Unit)) maxlen (format.length + 1)
      { buffer := (), idx := 0, format := format, va := va }).map
      (fun s => (none, wrapS (8 * P.int_bytes) ((s.idx % 2 ^ (8 * P.size_bytes) : Nat) : Int)))
  | some b =>
    (vsnprintfLoop P D (sizeIdx P out) maxlen (format.length + 1)
      { buffer := b, idx := 0, format := format, va := va }).map
      (fun s =>
        (some (out 0 s.buffer (terminatorIndex P (s.idx % 2 ^ (8 * P.size_bytes)) maxlen)
          maxlen),
          wrapS (8 * P.int_bytes) ((s.idx % 2 ^ (8 * P.size_bytes) : Nat) : Int)))

/-- Function `snprintf` (and `vsnprintf`): `_vsnprintf` on `_out_buffer`. -/
def snprintf {F : Type} (P : Platform) (D : DoubleOps F) (buffer : List Nat) (count : Nat)
    (format : List Nat) (va : List (Arg F)) : Option (Option (List Nat) × Int) :=
  _vsnprintf P D _out_buffer (some buffer) count format va

/-- Function `printf` (and `vprintf`): `_vsnprintf` on `_out_char` with the
capacity `(size_t)-1`; `stream` is what `__putchar` has received so far. -/
def printf {F : Type} (P : Platform) (D : DoubleOps F) (stream : List Nat)
    (format : List Nat) (va : List (Arg F)) : Option (Option (List Nat) × Int) :=
  _vsnprintf P D _out_char (some stream) (2 ^ (8 * P.size_bytes) - 1) format va

/-- The logical output of a format and its arguments: the characters the
parser hands to its sink, in order, read off the recording sink. -/
def logicalOutput {F : Type} (P : Platform) (D : DoubleOps F) (format : List Nat)
    (va : List (Arg F)) : Option (List Nat) :=
  (vsnprintfLoop P D traceOut 0 (format.length + 1)
    { buffer := [], idx := 0, format := format, va := va }).map (fun s => s.buffer)

/-- A stand-in for the double type in runs that format no double. -/
def noDouble : DoubleOps Unit :=
  { ofInt := fun _ => (), toInt := fun _ => 0, ofRat := fun _ => (),
    lt := fun _ _ => false, le := fun _ _ => false, ne := fun _ _ => false,
    add := fun _ _ => (), sub := fun _ _ => (), mul := fun _ _ => (), div := fun _ _ => (),
    neg := fun _ => (), dblMax := (), toBits := fun _ => 0, ofBits := fun _ => () }

/-- The double arithmetic carried out exactly, over the rationals: every
operation is the exact one and the conversion to an integer truncates.  The
exact rationals have no bit pattern; the two directions of the union `conv`
are not read by `_ftoa` on a value within `PRINTF_MAX_FLOAT`. -/
def exactOps : DoubleOps ℚ :=
  { ofInt := fun i => (i : ℚ), toInt := fun x => Int.tdiv x.num x.den, ofRat := fun q => q,
    lt := fun a b => decide (a < b), le := fun a b => decide (a ≤ b),
    ne := fun a b => decide (a ≠ b),
    add := fun a b => a + b, sub := fun a b => a - b, mul := fun a b => a * b,
    div := fun a b => a / b, neg := fun a => -a,
    dblMax := (2 ^ 53 - 1) * 2 ^ 971, toBits := fun _ => 0, ofBits := fun _ => 0 }

/-! ## Notions used by the statements -/

/-- A base the accumulator arithmetic handles without overflow of a cell. -/
def GoodBase (base : Nat) : Prop := 2 ≤ base ∧ base ≤ 128

/-- The accumulator cells of the number `N`: its digits, lowest first, and the
single cell 0 for zero. -/
def cellsOf (base N : Nat) : List Nat :=
  if N = 0 then [0] else Nat.digits base N

/-- The characters `_out_rev` hands to its sink. -/
def outRevChars (buf : List Nat) (width : Nat) (flags : Flags) : List Nat :=
  (if !flags.left && !flags.zeropad then List.replicate (width - buf.length) 32 else []) ++
    buf.reverse ++
    (if flags.left then List.replicate (width - buf.length) 32 else [])

/-- The characters `_ntoa` hands to its sink. -/
def ntoaOutput (value : List Nat) (negative : Bool) (base prec width : Nat) (flags : Flags) :
    List Nat :=
  outRevChars
    (ntoaFormatBuf (ntoaDigits value base flags) negative base prec width (ntoaFlags value flags))
    (ntoaWidth negative width (ntoaFlags value flags)) (ntoaFlags value flags)

/-- The digit character of a cell, as `_ntoa` writes it. -/
def digitChar (uppercase : Bool) (d : Nat) : Nat :=
  if d < 10 then 48 + d else (if uppercase then 65 else 97) + d - 10

/-- The canonical numeral of `v` in the given base: its digits, most
significant first, and the single digit `0` for zero. -/
def numeral (base : Nat) (uppercase : Bool) (v : Nat) : List Nat :=
  ((cellsOf base v).map (digitChar uppercase)).reverse

/-- The sink after the characters `t.1` have been written from `(b, i)`, with
the format and argument cursors `t.2`. -/
def emit {β F : Type} (out : out_fct_type β) (maxlen : Nat) (b : β) (i : Nat)
    (t : List Nat × List Nat × List (Arg F)) : State β F :=
  { buffer := (outList out maxlen t.1 (b, i)).1, idx := (outList out maxlen t.1 (b, i)).2,
    format := t.2.1, va := t.2.2 }

/-- The characters of the cases `d i u x X o b`. -/
def convIntChars {F : Type} (P : Platform) (c : Nat) (d : Directive F) : List Nat :=
  ntoaOutput (intOperand P c (intFlags c d.flags) (argInt d.va.head?)).1
    (intOperand P c (intFlags c d.flags) (argInt d.va.head?)).2 (intBase c) d.precision
    d.width (intFlags c d.flags)

/-- The characters of the case `c`. -/
def convCharChars {F : Type} (d : Directive F) : List Nat :=
  (if !d.flags.left then List.replicate (d.width - 1) 32 else []) ++
    [wrapU 8 (argInt d.va.head?)] ++
    (if d.flags.left then List.replicate (d.width - 1) 32 else [])

/-- The characters of the case `s`. -/
def convStrChars {F : Type} (P : Platform) (d : Directive F) : List Nat :=
  let p := argStr d.va.head?
  let l0 := _strnlen_s P p (if d.precision != 0 then d.precision else 2 ^ (8 * P.size_bytes) - 1)
  let l := if d.flags.precision then (if l0 < d.precision then l0 else d.precision) else l0
  (if !d.flags.left then List.replicate (d.width - l) 32 else []) ++
    strChars d.flags.precision p d.precision ++
    (if d.flags.left then List.replicate (d.width - l) 32 else [])

/-- The characters of the case `p`. -/
def convPtrChars {F : Type} (P : Platform) (d : Directive F) : List Nat :=
  ntoaOutput (toBytes P.ptr_bytes (argAddr d.va.head? % 2 ^ (8 * P.ptr_bytes))) false 16
    d.precision (P.ptr_bytes * 2) { d.flags with zeropad := true, uppercase := true }

/-- The characters of the exponent part of `_etoa`, after `n` characters of
the floating part. -/
def etoaTailChars {F : Type} (P : Platform) (width : Nat) (flags : Flags) (pl : EtoaPlan F)
    (n : Nat) : List Nat :=
  if pl.minwidth != 0 then
    let x := ntoaOutput
      (toBytes P.int_bytes (wrapU (8 * P.int_bytes)
        (wrapS (8 * P.int_bytes) (if pl.expval < 0 then -pl.expval else pl.expval))))
      (decide (pl.expval < 0)) 10 0 (pl.minwidth - 1) { zeropad := true, plus := true }
    (if flags.uppercase then 69 else 101) ::
      (x ++ (if flags.left then List.replicate (width - (n + 1 + x.length)) 32 else []))
  else []

/-- The value `_etoa` scales for `_ftoa` is one `_ftoa` prints itself: it is
special or within `PRINTF_MAX_FLOAT`.  This holds of the arithmetic of the
target; it is what ends the mutual calls of `_ftoa` and `_etoa`. -/
def MantissaInRange {F : Type} (P : Platform) (D : DoubleOps F) : Prop :=
  ∀ (value : F) (prec width : Nat) (flags : Flags), isSpecial D value = false →
    (isSpecial D (etoaPlan P D value prec width flags).value ||
      !ftoaIsLarge D (etoaPlan P D value prec width flags).value) = true

/-- The sign character of a conversion, as the claim words it: `-` for a
negative value, else `+` with the plus flag, else a space with the space
flag, else none. -/
def signChars (negative : Bool) (flags : Flags) : List Nat :=
  if negative then [45] else if flags.plus then [43] else if flags.space then [32] else []

/-- The digits of the value as `_ntoa` prints them, most significant first:
its numeral, or nothing for a zero printed with an explicit precision. -/
def valueDigits (base : Nat) (flags : Flags) (v : Nat) : List Nat :=
  if v = 0 ∧ flags.precision = true then [] else numeral base flags.uppercase v

/-- The base prefix of the alternate form: `0x`, `0X`, `0b`, or `0`. -/
def altFormChars (base : Nat) (flags : Flags) : List Nat :=
  if base = 16 then (if flags.uppercase then [48, 88] else [48, 120])
  else if base = 2 then [48, 98] else [48]

/-- Reading a signed decimal numeral: an optional `-`, then digits. -/
def parseSigned (cs : List Nat) : Option Int :=
  match cs with
  | 45 :: rest => Option.map (fun m : Nat => -Int.ofNat m) (parseNum 10 rest)
  | _ => Option.map (fun m : Nat => Int.ofNat m) (parseNum 10 cs)

/-- The values of a signed two's complement type of the given number of bits. -/
def inRange (bits : Nat) (value : Int) : Prop :=
  -(2 ^ (bits - 1) : Int) ≤ value ∧ value < 2 ^ (bits - 1)

/-- Whether the width field of the directive that starts at `format` (after
its `%`) is `*`. -/
def widthStar (format : List Nat) : Bool :=
  !_is_digit ((evalFlags format {}).1.headD 0) && decide ((evalFlags format {}).1.headD 0 = 42)

/-- Whether the precision field of the directive that starts at `format` is
`.*`. -/
def precisionStar {F : Type} (P : Platform) (format : List Nat) (va : List (Arg F)) : Bool :=
  let d := evalWidth P (evalFlags format {}).1 va (evalFlags format {}).2
  decide (d.format.headD 0 = 46) && !_is_digit (d.format.tail.headD 0) &&
    decide (d.format.tail.headD 0 = 42)

/-- The conversion letters of the switch in `_vsnprintf`:
`d i u x X o b f F e E g G c s p %`. -/
def conversionLetters : List Nat :=
  [100, 105, 117, 120, 88, 111, 98, 102, 70, 101, 69, 103, 71, 99, 115, 112, 37]

/-- The sign, prefix and digits of an integer conversion as the second and
third block of `_ntoa_format` leave them when the first block adds nothing,
in the order of the output. -/
def unpaddedChars {F : Type} (P : Platform) (c : Nat) (d : Directive F) : List Nat :=
  let fl := intFlags c d.flags
  let op := intOperand P c fl (argInt d.va.head?)
  (ntoaSign
    (ntoaHash (ntoaDigits op.1 (intBase c) fl) (intBase c) d.precision d.width
      (ntoaFlags op.1 fl))
    op.2 (ntoaFlags op.1 fl)).reverse

/-- The consumer of a callback sink applied to each character of a list in
turn. -/
def deliver {α : Type} (fct : Nat → α → α) (cs : List Nat) (arg : α) : α :=
  cs.foldl (fun a c => fct c a) arg

/-- An accumulator without a leading zero cell: its highest cell is not 0,
unless it is the single cell of zero. -/
def NoLeadingZero (cells : List Nat) : Prop :=
  cells = [0] ∨ ∀ x, cells.getLast? = some x → x ≠ 0

/-- The characters of a string that the case `s` is to print, as the claim
words it: all of it, or its first `precision` characters when the precision is
explicit. -/
def strEmitted (flagPrecision : Bool) (precision : Nat) (s : List Nat) : List Nat :=
  if flagPrecision then s.take precision else s

/-- Two flag sets that agree on the flags `_ntoa` and `_ntoa_format` read. -/
def SameNtoaFlags (f g : Flags) : Prop :=
  f.zeropad = g.zeropad ∧ f.left = g.left ∧ f.plus = g.plus ∧ f.space = g.space ∧
    f.hash = g.hash ∧ f.uppercase = g.uppercase ∧ f.precision = g.precision

/-- The token of a special value, as the claim words it: `nan` for a NaN,
`-inf` for a value below `-DBL_MAX`, and for a value above `DBL_MAX` `+inf`
with the plus flag and `inf` without. -/
def specialToken {F : Type} (D : DoubleOps F) (value : F) (flags : Flags) : List Nat :=
  if D.ne value value then [110, 97, 110]
  else if D.lt value (D.neg D.dblMax) then [45, 105, 110, 102]
  else if flags.plus then [43, 105, 110, 102]
  else [105, 110, 102]

/-- The magnitude of a value, as `_etoa` takes it: the value negated when it
is below zero. -/
def magnitude {F : Type} (D : DoubleOps F) (value : F) : F :=
  if D.lt value (D.ofInt 0) then D.neg value else value

/-- The test of the adaptive mode for the fall-back to fixed notation:
the magnitude lies in `[1e-4, 1e6)`. -/
def inAdaptiveRange {F : Type} (D : DoubleOps F) (value : F) : Bool :=
  D.le (D.ofRat 0.0001) (magnitude D value) && D.lt (magnitude D value) (D.ofRat 1000000)

/-- A property of the arithmetic of the target: a magnitude in `[1e-4, 1e6)`
and its negation are within the ceiling `PRINTF_MAX_FLOAT` of fixed notation. -/
def CeilingCovers {F : Type} (D : DoubleOps F) : Prop :=
  ∀ v : F, D.le (D.ofRat 0.0001) v = true → D.lt v (D.ofRat 1000000) = true →
    ftoaIsLarge D v = false ∧ ftoaIsLarge D (D.neg v) = false

/-- The statement `out(c, buffer, idx++, maxlen)` for each `c` of a list in
turn, with `idx` a `size_t` of `bits` bits: the increment wraps around. -/
def outListSize {β : Type} (bits : Nat) (out : out_fct_type β) (maxlen : Nat) :
    List Nat → β × Nat → β × Nat
  | [], s => s
  | c :: cs, s => outListSize bits out maxlen cs (out c s.1 s.2 maxlen, (s.2 + 1) % 2 ^ bits)

/-- The length the second block of `_ntoa_format` ("handle hash") leaves, from
the length `len` it finds: what it takes back when `len` equals the precision
or the width, then the prefix characters for which there is room. -/
def hashLen (len base prec width : Nat) (flags : Flags) : Nat :=
  if flags.hash = true then
    let l1 :=
      if flags.precision = false ∧ len ≠ 0 ∧ (len = prec ∨ len = width) then
        (if len - 1 ≠ 0 ∧ base = 16 then len - 2 else len - 1)
      else len
    let l2 := if (base = 16 ∨ base = 2) ∧ l1 < 510 then l1 + 1 else l1
    if l2 < 510 then l2 + 1 else l2
  else len

/-- The widths at which an integer conversion in alternate form without
explicit precision keeps the length `max(w, natural_length)`, for a value of
`L` digits.  Without zero padding to the width: every width but `L`, where
the hash block takes a digit back.  With zero padding to the width: a width
below `L`, or one at which what the hash block takes back and what it writes
have the same length, which is `w ≥ L + 2` in base 16, `w ≥ L + 1` in base 8,
and `w = L + 1` or `w = 510` in base 2. -/
def AltWidthFits (base L w : Nat) (zeroPads : Bool) : Prop :=
  if zeroPads = true then
    w < L ∨ (base = 16 ∧ L + 2 ≤ w) ∨ (base = 8 ∧ L + 1 ≤ w) ∨
      (base = 2 ∧ (w = L + 1 ∨ w = 510))
  else w ≠ L

/-- The length of the scratch buffer after the first block of `_ntoa_format`,
from the number `L` of digits, when there is no sign. -/
def padLen (L prec width : Nat) (flags : Flags) : Nat :=
  if flags.left = true then L
  else if flags.zeropad = true then max (max L (min prec 510)) (min width 510)
  else max L (min prec 510)

/-- Whether the alternate form is in effect in an integer directive without
explicit precision: the flag `#`, a conversion `x`, `X`, `o` or `b`, no
explicit precision, and a value other than zero. -/
def altFormApplies {F : Type} (P : Platform) (c : Nat) (d : Directive F) : Prop :=
  d.flags.hash = true ∧ (c = 120 ∨ c = 88 ∨ c = 111 ∨ c = 98) ∧ d.flags.precision = false ∧
    _is_zero (intOperand P c (intFlags c d.flags) (argInt d.va.head?)).1 = false

/-- The number of digits of the value of an integer directive, as `_ntoa`
leaves them in its scratch buffer. -/
def intDigitCount {F : Type} (P : Platform) (c : Nat) (d : Directive F) : Nat :=
  (ntoaDigits (intOperand P c (intFlags c d.flags) (argInt d.va.head?)).1 (intBase c)
    (intFlags c d.flags)).length

/-! ## Theorems -/

theorem bcdShlLoop_spec (base : Nat) (hb : GoodBase base) :
    ∀ (cells : List Nat) (c : Bool), (∀ x ∈ cells, x < base) →
      (bcdShlLoop base cells c).1.length = cells.length ∧
      (∀ x ∈ (bcdShlLoop base cells c).1, x < base) ∧
      Nat.ofDigits base (bcdShlLoop base cells c).1 +
          base ^ cells.length * (bcdShlLoop base cells c).2.toNat =
        2 * Nat.ofDigits base cells + c.toNat := by
  obtain ⟨hb2, hb128⟩ := hb
  intro cells
  induction cells with
  | nil => intro c _; simp [bcdShlLoop]
  | cons d ds ih =>
    intro c hlt
    have hd : d < base := hlt d (List.mem_cons_self _ _)
    have hds : ∀ x ∈ ds, x < base := fun x hx => hlt x (List.mem_cons_of_mem _ hx)
    have h1 : (d <<< 1) % 256 = 2 * d := by
      rw [Nat.shiftLeft_eq]; omega
    have h2 : (if c = true then ((d <<< 1) % 256 + 1) % 256 else (d <<< 1) % 256)
        = 2 * d + c.toNat := by
      rw [h1]; cases c <;> simp; omega
    simp only [bcdShlLoop, h2]
    obtain ⟨ihl, iha, ihv⟩ := ih (decide (base ≤ 2 * d + c.toNat)) hds
    refine ⟨by simp [ihl], ?_, ?_⟩
    · intro x hx
      rcases List.mem_cons.1 hx with hx | hx
      · subst hx
        have : c.toNat ≤ 1 := by cases c <;> simp
        split_ifs with h
        · simp at h; omega
        · simp at h; omega
      · exact iha x hx
    · simp only [Nat.ofDigits_cons, List.length_cons, pow_succ]
      have hc : c.toNat ≤ 1 := by cases c <;> simp
      by_cases h : base ≤ 2 * d + c.toNat
      · simp only [h, decide_True, if_true] at ihv ⊢
        obtain ⟨w, hw⟩ : ∃ w, 2 * d + c.toNat = base + w := ⟨_, (Nat.add_sub_cancel' h).symm⟩
        have hw2 : 2 * d + c.toNat - base = w := by omega
        rw [hw2]
        simp only [Bool.toNat_true] at ihv
        generalize Nat.ofDigits base (bcdShlLoop base ds true).1 = X at ihv ⊢
        generalize (bcdShlLoop base ds true).2.toNat = t at ihv ⊢
        generalize Nat.ofDigits base ds = Z at ihv ⊢
        have e : base ^ ds.length * base * t = base * (base ^ ds.length * t) := by ring
        rw [e]
        generalize base ^ ds.length * t = Y at ihv ⊢
        have : base * (X + Y) = base * (2 * Z + 1) := by rw [ihv]
        linarith
      · simp only [h, decide_False, if_false] at ihv ⊢
        simp only [Bool.toNat_false] at ihv
        generalize Nat.ofDigits base (bcdShlLoop base ds false).1 = X at ihv ⊢
        generalize (bcdShlLoop base ds false).2.toNat = t at ihv ⊢
        generalize Nat.ofDigits base ds = Z at ihv ⊢
        have e : base ^ ds.length * base * t = base * (base ^ ds.length * t) := by ring
        rw [e]
        generalize base ^ ds.length * t = Y at ihv ⊢
        have : base * (X + Y) = base * (2 * Z + 0) := by rw [ihv]
        simp only [Bool.false_eq_true, if_false]
        linarith

theorem bcdShlLoop_last (base : Nat) (hb : GoodBase base) :
    ∀ (cells : List Nat) (c : Bool), (∀ x ∈ cells, x < base) →
      (∀ x, cells.getLast? = some x → x ≠ 0) → (bcdShlLoop base cells c).2 = false →
      ∀ y, (bcdShlLoop base cells c).1.getLast? = some y → y ≠ 0 := by
  obtain ⟨hb2, hb128⟩ := hb
  intro cells
  induction cells with
  | nil => intro c _ _ _ y hy; simp [bcdShlLoop] at hy
  | cons d ds ih =>
    intro c hlt hnz hcarry y hy
    have hd : d < base := hlt d (List.mem_cons_self _ _)
    have hds : ∀ x ∈ ds, x < base := fun x hx => hlt x (List.mem_cons_of_mem _ hx)
    have h1 : (d <<< 1) % 256 = 2 * d := by
      rw [Nat.shiftLeft_eq]; omega
    have h2 : (if c = true then ((d <<< 1) % 256 + 1) % 256 else (d <<< 1) % 256)
        = 2 * d + c.toNat := by
      rw [h1]; cases c <;> simp; omega
    simp only [bcdShlLoop, h2] at hcarry hy
    cases ds with
    | nil =>
      simp only [bcdShlLoop, List.getLast?_singleton, Option.some.injEq] at hcarry hy
      have hd0 : d ≠ 0 := hnz d (by simp)
      simp at hcarry
      subst hy
      simp [Nat.not_le.2 hcarry]
      omega
    | cons e es =>
      have hlen := (bcdShlLoop_spec base ⟨hb2, hb128⟩ (e :: es)
        (decide (base ≤ 2 * d + c.toNat)) hds).1
      have hne : (bcdShlLoop base (e :: es) (decide (base ≤ 2 * d + c.toNat))).1 ≠ [] := by
        intro h0; rw [h0] at hlen; simp at hlen
      obtain ⟨a, as, has⟩ := List.exists_cons_of_ne_nil hne
      rw [has, List.getLast?_cons_cons, ← has] at hy
      exact ih _ hds (fun x hx => hnz x (by rw [List.getLast?_cons_cons]; exact hx)) hcarry y hy

theorem bcdIncLoop_spec (base : Nat) (hb : GoodBase base) :
    ∀ (cells : List Nat) (c : Bool), (∀ x ∈ cells, x < base) →
      (bcdIncLoop base cells c).1.length = cells.length ∧
      (∀ x ∈ (bcdIncLoop base cells c).1, x < base) ∧
      Nat.ofDigits base (bcdIncLoop base cells c).1 +
          base ^ cells.length * (bcdIncLoop base cells c).2.toNat =
        Nat.ofDigits base cells + c.toNat := by
  obtain ⟨hb2, hb128⟩ := hb
  intro cells
  induction cells with
  | nil => intro c _; simp [bcdIncLoop]
  | cons d ds ih =>
    intro c hlt
    have hd : d < base := hlt d (List.mem_cons_self _ _)
    have hds : ∀ x ∈ ds, x < base := fun x hx => hlt x (List.mem_cons_of_mem _ hx)
    cases c with
    | false => simp [bcdIncLoop]; exact ⟨hd, hds⟩
    | true =>
      have h1 : (d + 1) % 256 = d + 1 := by omega
      simp only [bcdIncLoop, h1, Bool.not_true, Bool.false_eq_true, if_false]
      obtain ⟨ihl, iha, ihv⟩ := ih (d + 1 == base) hds
      refine ⟨by simp [ihl], ?_, ?_⟩
      · intro x hx
        rcases List.mem_cons.1 hx with hx | hx
        · subst hx
          split_ifs with h
          · omega
          · simp at h; omega
        · exact iha x hx
      · simp only [Nat.ofDigits_cons, List.length_cons, pow_succ, Bool.toNat_true]
        generalize Nat.ofDigits base (bcdIncLoop base ds (d + 1 == base)).1 = X at ihv ⊢
        generalize (bcdIncLoop base ds (d + 1 == base)).2.toNat = t at ihv ⊢
        generalize Nat.ofDigits base ds = Z at ihv ⊢
        have e : base ^ ds.length * base * t = base * (base ^ ds.length * t) := by ring
        rw [e]
        generalize base ^ ds.length * t = Y at ihv ⊢
        by_cases h : d + 1 = base
        · simp only [h, beq_self_eq_true, Bool.toNat_true, if_true] at ihv ⊢
          have : base * (X + Y) = base * (Z + 1) := by rw [ihv]
          linarith
        · have hbeq : (d + 1 == base) = false := by simp [h]
          simp only [hbeq, Bool.toNat_false, Bool.false_eq_true, if_false] at ihv ⊢
          have : base * (X + Y) = base * (Z + 0) := by rw [ihv]
          linarith

theorem bcdIncLoop_last (base : Nat) (hb : GoodBase base) :
    ∀ (cells : List Nat) (c : Bool), (∀ x ∈ cells, x < base) →
      (∀ x, cells.getLast? = some x → x ≠ 0) → (bcdIncLoop base cells c).2 = false →
      ∀ y, (bcdIncLoop base cells c).1.getLast? = some y → y ≠ 0 := by
  obtain ⟨hb2, hb128⟩ := hb
  intro cells
  induction cells with
  | nil => intro c _ _ _ y hy; simp [bcdIncLoop] at hy
  | cons d ds ih =>
    intro c hlt hnz hcarry y hy
    have hd : d < base := hlt d (List.mem_cons_self _ _)
    have hds : ∀ x ∈ ds, x < base := fun x hx => hlt x (List.mem_cons_of_mem _ hx)
    cases c with
    | false =>
      simp only [bcdIncLoop, Bool.not_false, if_true] at hy
      exact hnz y hy
    | true =>
      have h1 : (d + 1) % 256 = d + 1 := by omega
      simp only [bcdIncLoop, h1, Bool.not_true, Bool.false_eq_true, if_false] at hcarry hy
      cases ds with
      | nil =>
        simp only [bcdIncLoop, List.getLast?_singleton, Option.some.injEq] at hcarry hy
        subst hy
        simp [hcarry]
      | cons e es =>
        have hlen := (bcdIncLoop_spec base ⟨hb2, hb128⟩ (e :: es) (d + 1 == base) hds).1
        have hne : (bcdIncLoop base (e :: es) (d + 1 == base)).1 ≠ [] := by
          intro h0; rw [h0] at hlen; simp at hlen
        obtain ⟨a, as, has⟩ := List.exists_cons_of_ne_nil hne
        rw [has, List.getLast?_cons_cons, ← has] at hy
        exact ih _ hds (fun x hx => hnz x (by rw [List.getLast?_cons_cons]; exact hx)) hcarry y hy

theorem cellsOf_lt (base N : Nat) (hb : GoodBase base) : ∀ x ∈ cellsOf base N, x < base := by
  intro x hx
  unfold cellsOf at hx
  split_ifs at hx with h
  · simp at hx; subst hx; exact lt_of_lt_of_le (by norm_num) hb.1
  · exact Nat.digits_lt_base hb.1 hx

theorem cellsOf_last (base N : Nat) (hN : N ≠ 0) :
    ∀ x, (cellsOf base N).getLast? = some x → x ≠ 0 := by
  intro x hx
  unfold cellsOf at hx
  rw [if_neg hN] at hx
  have hne : Nat.digits base N ≠ [] := Nat.digits_ne_nil_iff_ne_zero.2 hN
  rw [List.getLast?_eq_getLast _ hne] at hx
  have := Nat.getLast_digit_ne_zero base hN
  simp only [Option.some.injEq] at hx
  rw [← hx]; exact this

theorem ofDigits_cellsOf (base N : Nat) : Nat.ofDigits base (cellsOf base N) = N := by
  unfold cellsOf
  split_ifs with h
  · simp [h]
  · exact Nat.ofDigits_digits base N

/-- Cells below the base with a non-zero last cell are the cells of their value. -/
theorem eq_cellsOf (base : Nat) (hb : GoodBase base) (L : List Nat) (hL : L ≠ [])
    (hlt : ∀ x ∈ L, x < base) (hlast : ∀ x, L.getLast? = some x → x ≠ 0) :
    L = cellsOf base (Nat.ofDigits base L) := by
  have hd : Nat.digits base (Nat.ofDigits base L) = L :=
    Nat.digits_ofDigits base hb.1 L hlt
      (fun h => hlast _ (List.getLast?_eq_getLast _ h))
  unfold cellsOf
  split_ifs with h0
  · rw [h0] at hd; simp at hd; exact absurd hd.symm (by simpa using hL)
  · exact hd.symm

theorem bcd_shl_cellsOf (base N : Nat) (hb : GoodBase base) :
    _bcd_shl (cellsOf base N) base = cellsOf base (2 * N) := by
  by_cases hN : N = 0
  · subst hN
    have : ¬ base ≤ 0 := by have := hb.1; omega
    simp [cellsOf, _bcd_shl, bcdShlLoop, this]
  · have hlt := cellsOf_lt base N hb
    obtain ⟨hlen, hall, hval⟩ := bcdShlLoop_spec base hb (cellsOf base N) false hlt
    have hlast := bcdShlLoop_last base hb (cellsOf base N) false hlt (cellsOf_last base N hN)
    rw [ofDigits_cellsOf] at hval
    have hne0 : cellsOf base N ≠ [] := by
      unfold cellsOf; rw [if_neg hN]; exact Nat.digits_ne_nil_iff_ne_zero.2 hN
    have hne : (bcdShlLoop base (cellsOf base N) false).1 ≠ [] := by
      intro h0; rw [h0] at hlen; exact hne0 (List.length_eq_zero.1 hlen.symm)
    unfold _bcd_shl
    simp only
    cases hc : (bcdShlLoop base (cellsOf base N) false).2 with
    | false =>
      simp only [Bool.false_eq_true, if_false]
      have := eq_cellsOf base hb _ hne hall (hlast hc)
      rw [hc] at hval
      simp at hval
      rw [hval] at this
      exact this
    | true =>
      simp only [if_true]
      have h1 : Nat.ofDigits base ((bcdShlLoop base (cellsOf base N) false).1 ++ [1]) = 2 * N := by
        rw [Nat.ofDigits_append, hlen]
        rw [hc] at hval
        simp at hval ⊢
        exact hval
      have := eq_cellsOf base hb ((bcdShlLoop base (cellsOf base N) false).1 ++ [1]) (by simp)
        (by
          intro x hx
          rcases List.mem_append.1 hx with hx | hx
          · exact hall x hx
          · simp at hx; subst hx; exact lt_of_lt_of_le (by norm_num) hb.1)
        (by intro x hx; simp at hx; omega)
      rw [h1] at this
      exact this

theorem bcd_inc_cellsOf (base N : Nat) (hb : GoodBase base) :
    _bcd_inc (cellsOf base N) base = cellsOf base (N + 1) := by
  have hlt := cellsOf_lt base N hb
  obtain ⟨hlen, hall, hval⟩ := bcdIncLoop_spec base hb (cellsOf base N) true hlt
  rw [ofDigits_cellsOf] at hval
  have hne0 : cellsOf base N ≠ [] := by
    unfold cellsOf; split_ifs with h
    · simp
    · exact Nat.digits_ne_nil_iff_ne_zero.2 h
  have hne : (bcdIncLoop base (cellsOf base N) true).1 ≠ [] := by
    intro h0; rw [h0] at hlen; exact hne0 (List.length_eq_zero.1 hlen.symm)
  unfold _bcd_inc
  simp only
  cases hc : (bcdIncLoop base (cellsOf base N) true).2 with
  | false =>
    simp only [Bool.false_eq_true, if_false]
    have hlast : ∀ y, (bcdIncLoop base (cellsOf base N) true).1.getLast? = some y → y ≠ 0 := by
      by_cases hN : N = 0
      · subst hN
        have h1 : ¬ (1 = base) := by have := hb.1; omega
        intro y hy
        simp [cellsOf, bcdIncLoop, h1] at hy
        omega
      · exact bcdIncLoop_last base hb (cellsOf base N) true hlt (cellsOf_last base N hN) hc
    have := eq_cellsOf base hb _ hne hall hlast
    rw [hc] at hval
    simp at hval
    rw [hval] at this
    exact this
  | true =>
    simp only [if_true]
    have h1 : Nat.ofDigits base ((bcdIncLoop base (cellsOf base N) true).1 ++ [1]) = N + 1 := by
      rw [Nat.ofDigits_append, hlen]
      rw [hc] at hval
      simp at hval ⊢
      exact hval
    have := eq_cellsOf base hb ((bcdIncLoop base (cellsOf base N) true).1 ++ [1]) (by simp)
      (by
        intro x hx
        rcases List.mem_append.1 hx with hx | hx
        · exact hall x hx
        · simp at hx; subst hx; exact lt_of_lt_of_le (by norm_num) hb.1)
      (by intro x hx; simp at hx; omega)
    rw [h1] at this
    exact this

set_option maxRecDepth 100000 in
theorem byte_high_bit : ∀ b : Fin 256, ((b.val &&& 0x80 != 0) = decide (128 ≤ b.val)) := by
  decide

set_option maxRecDepth 100000 in
theorem byte_shl_or : ∀ b : Fin 256, ∀ c : Bool,
    ((b.val <<< 1) ||| c.toNat) % 256 = (2 * b.val + c.toNat) % 256 := by
  decide

theorem binShlLoop_spec : ∀ (w : List Nat) (c : Bool), (∀ b ∈ w, b < 256) →
    (binShlLoop w c).length = w.length ∧ (∀ b ∈ binShlLoop w c, b < 256) ∧
    Nat.ofDigits 256 (binShlLoop w c) = (2 * Nat.ofDigits 256 w + c.toNat) % 256 ^ w.length := by
  intro w
  induction w with
  | nil => intro c _; simp [binShlLoop, Nat.mod_one]
  | cons b bs ih =>
    intro c hlt
    have hb : b < 256 := hlt b (List.mem_cons_self _ _)
    have hbs : ∀ x ∈ bs, x < 256 := fun x hx => hlt x (List.mem_cons_of_mem _ hx)
    obtain ⟨ihl, iha, ihv⟩ := ih (b &&& 0x80 != 0) hbs
    have e1 := byte_shl_or ⟨b, hb⟩ c
    have e2 := byte_high_bit ⟨b, hb⟩
    simp only at e1 e2
    simp only [binShlLoop]
    refine ⟨by simp [ihl], ?_, ?_⟩
    · intro x hx
      rcases List.mem_cons.1 hx with hx | hx
      · subst hx; exact Nat.mod_lt _ (by norm_num)
      · exact iha x hx
    · rw [Nat.ofDigits_cons, Nat.ofDigits_cons, ihv, e1, e2, List.length_cons, pow_succ,
        mul_comm (256 ^ bs.length) 256, Nat.mod_mul]
      have hc : c.toNat ≤ 1 := by cases c <;> simp
      have h3 : (2 * (b + 256 * Nat.ofDigits 256 bs) + c.toNat) % 256 = (2 * b + c.toNat) % 256 := by
        omega
      have h4 : (2 * (b + 256 * Nat.ofDigits 256 bs) + c.toNat) / 256 =
          2 * Nat.ofDigits 256 bs + (decide (128 ≤ b)).toNat := by
        by_cases h : 128 ≤ b
        · simp only [h, decide_True, Bool.toNat_true]; omega
        · simp only [h, decide_False, Bool.toNat_false]; omega
      rw [h3, h4]

theorem high_bit_spec (w : List Nat) (hw : w ≠ []) (hlt : ∀ b ∈ w, b < 256) :
    _is_high_bit_set w = decide (2 ^ (8 * w.length - 1) ≤ Nat.ofDigits 256 w) := by
  unfold _is_high_bit_set
  have hsplit : w = w.dropLast ++ [w.getLast hw] := (List.dropLast_append_getLast hw).symm
  have hlast : w.getLastD 0 = w.getLast hw := by
    rw [List.getLastD_eq_getLast?, List.getLast?_eq_getLast _ hw]; rfl
  have hl256 : w.getLast hw < 256 := hlt _ (List.getLast_mem hw)
  rw [hlast, byte_high_bit ⟨w.getLast hw, hl256⟩]
  simp only
  have hlow : Nat.ofDigits 256 w.dropLast < 256 ^ w.dropLast.length :=
    Nat.ofDigits_lt_base_pow_length (by norm_num)
      (fun x hx => hlt x (List.mem_of_mem_dropLast hx))
  have hval : Nat.ofDigits 256 w =
      Nat.ofDigits 256 w.dropLast + 256 ^ w.dropLast.length * w.getLast hw := by
    conv_lhs => rw [hsplit]
    rw [Nat.ofDigits_append]; simp
  have hlen : w.length = w.dropLast.length + 1 := by
    conv_lhs => rw [hsplit]
    simp
  have hpow : 2 ^ (8 * w.length - 1) = 128 * 256 ^ w.dropLast.length := by
    rw [hlen]
    have : 8 * (w.dropLast.length + 1) - 1 = 7 + 8 * w.dropLast.length := by omega
    rw [this, pow_add, pow_mul]; norm_num
  rw [hval, hpow]
  generalize 256 ^ w.dropLast.length = Q at hlow ⊢
  generalize Nat.ofDigits 256 w.dropLast = A at hlow ⊢
  apply decide_eq_decide.2
  constructor
  · intro h
    nlinarith
  · intro h
    by_contra hcon
    have : w.getLast hw + 1 ≤ 128 := by omega
    nlinarith

theorem bit_step (k m V : Nat) (hV : V < 2 ^ (k + 1 + m)) :
    (if 2 ^ (k + m) ≤ V then 1 else 0) * 2 ^ k + ((2 * V) % 2 ^ (k + 1 + m)) / 2 ^ (m + 1) =
      V / 2 ^ m := by
  have e1 : 2 ^ (k + 1 + m) = 2 * 2 ^ (k + m) := by ring
  have e2 : 2 ^ (m + 1) = 2 * 2 ^ m := by ring
  have e3 : 2 ^ (k + m) = 2 ^ m * 2 ^ k := by ring
  have hpos : 0 < 2 ^ m := by positivity
  by_cases h : 2 ^ (k + m) ≤ V
  · rw [if_pos h, e1, e2]
    have h5 : 2 * V % (2 * 2 ^ (k + m)) = 2 * (V - 2 ^ (k + m)) := by
      rw [Nat.mul_mod_mul_left]
      congr 1
      rw [Nat.mod_eq_sub_mod h, Nat.mod_eq_of_lt]
      rw [e1] at hV; omega
    rw [h5, Nat.mul_div_mul_left _ _ (by norm_num : 0 < 2), e3]
    rw [Nat.sub_mul_div _ _ _ (le_of_eq_of_le (by ring) h)]
    have : 2 ^ k ≤ V / 2 ^ m := by
      rw [Nat.le_div_iff_mul_le hpos]; exact le_of_eq_of_le (by ring) h
    omega
  · rw [if_neg h, e1, e2]
    have h5 : 2 * V % (2 * 2 ^ (k + m)) = 2 * V := by
      apply Nat.mod_eq_of_lt; omega
    rw [h5, Nat.mul_div_mul_left _ _ (by norm_num : 0 < 2)]
    simp

theorem ntoaBits_spec (base : Nat) (hb : GoodBase base) :
    ∀ (k N : Nat) (w : List Nat), (∀ b ∈ w, b < 256) → w ≠ [] → k ≤ 8 * w.length →
      ntoaBits base k (cellsOf base N) w =
        cellsOf base (N * 2 ^ k + Nat.ofDigits 256 w / 2 ^ (8 * w.length - k)) := by
  intro k
  induction k with
  | zero =>
    intro N w hlt hw _
    have : Nat.ofDigits 256 w < 2 ^ (8 * w.length) := by
      have := Nat.ofDigits_lt_base_pow_length (b := 256) (l := w) (by norm_num) hlt
      rw [pow_mul]; simpa using this
    simp [ntoaBits, Nat.div_eq_of_lt this]
  | succ k ih =>
    intro N w hlt hw hk
    obtain ⟨hl, ha, hv⟩ := binShlLoop_spec w false hlt
    have hw2 : _bin_shl w ≠ [] := by
      intro h0; unfold _bin_shl at h0; rw [h0] at hl; exact hw (List.length_eq_zero.1 hl.symm)
    have hVlt : Nat.ofDigits 256 w < 2 ^ (8 * w.length) := by
      have := Nat.ofDigits_lt_base_pow_length (b := 256) (l := w) (by norm_num) hlt
      rw [pow_mul]; simpa using this
    obtain ⟨m, hm⟩ : ∃ m, 8 * w.length = k + 1 + m := ⟨8 * w.length - (k + 1), by omega⟩
    simp only [ntoaBits]
    rw [bcd_shl_cellsOf base N hb, high_bit_spec w hw hlt]
    have hstep := bit_step k m (Nat.ofDigits 256 w) (by rw [← hm]; exact hVlt)
    have e256 : (256 : Nat) ^ w.length = 2 ^ (8 * w.length) := by rw [pow_mul]; norm_num
    have hv2 : Nat.ofDigits 256 (_bin_shl w) = (2 * Nat.ofDigits 256 w) % 2 ^ (k + 1 + m) := by
      unfold _bin_shl; rw [hv, e256, hm]; simp
    have hlen2 : (_bin_shl w).length = w.length := hl
    have e1 : 8 * w.length - 1 = k + m := by omega
    have e2 : 8 * w.length - k = m + 1 := by omega
    have e3 : 8 * w.length - (k + 1) = m := by omega
    by_cases h : 2 ^ (k + m) ≤ Nat.ofDigits 256 w
    · rw [e1]
      simp only [h, decide_True, if_true]
      rw [bcd_inc_cellsOf base _ hb, ih (2 * N + 1) (_bin_shl w) ha hw2 (by rw [hlen2]; omega),
        hlen2, hv2, e2, e3]
      rw [if_pos h] at hstep
      congr 1
      rw [← hstep]; ring
    · rw [e1]
      simp only [h, decide_False, Bool.false_eq_true, if_false]
      rw [ih (2 * N) (_bin_shl w) ha hw2 (by rw [hlen2]; omega), hlen2, hv2, e2, e3]
      rw [if_neg h] at hstep
      congr 1
      rw [← hstep]; ring

/-! ### Sinks and traces -/

theorem outList_nil {β : Type} (out : out_fct_type β) (maxlen : Nat) (s : β × Nat) :
    outList out maxlen [] s = s := rfl

theorem outList_cons {β : Type} (out : out_fct_type β) (maxlen : Nat) (c : Nat)
    (cs : List Nat) (s : β × Nat) :
    outList out maxlen (c :: cs) s = outList out maxlen cs (out c s.1 s.2 maxlen, s.2 + 1) := rfl

theorem outList_append {β : Type} (out : out_fct_type β) (maxlen : Nat) :
    ∀ (xs ys : List Nat) (s : β × Nat),
      outList out maxlen (xs ++ ys) s = outList out maxlen ys (outList out maxlen xs s) := by
  intro xs
  induction xs with
  | nil => intro ys s; rfl
  | cons x xs ih => intro ys s; exact ih ys _

theorem outList_idx {β : Type} (out : out_fct_type β) (maxlen : Nat) :
    ∀ (cs : List Nat) (s : β × Nat), (outList out maxlen cs s).2 = s.2 + cs.length := by
  intro cs
  induction cs with
  | nil => intro s; rfl
  | cons c cs ih => intro s; simp only [outList, ih, List.length_cons]; omega

theorem outList_traceOut (maxlen : Nat) :
    ∀ (cs : List Nat) (s : List Nat × Nat),
      outList traceOut maxlen cs s = (s.1 ++ cs, s.2 + cs.length) := by
  intro cs
  induction cs with
  | nil => intro s; simp [outList]
  | cons c cs ih =>
    intro s
    simp only [outList, ih, traceOut, List.length_cons, List.append_assoc, List.singleton_append]
    congr 1; omega

theorem out_rev_eq {β : Type} (out : out_fct_type β) (buffer : β) (idx maxlen : Nat)
    (buf : List Nat) (width : Nat) (flags : Flags) :
    _out_rev out buffer idx maxlen buf width flags =
      outList out maxlen (outRevChars buf width flags) (buffer, idx) := by
  unfold _out_rev outRevChars
  cases hl : flags.left <;> cases hz : flags.zeropad <;>
    simp [outList_append, outList, outList_idx]

theorem ntoa_eq {β : Type} (out : out_fct_type β) (buffer : β) (idx maxlen : Nat)
    (value : List Nat) (negative : Bool) (base prec width : Nat) (flags : Flags) :
    _ntoa out buffer idx maxlen value negative base prec width flags =
      outList out maxlen (ntoaOutput value negative base prec width flags) (buffer, idx) := by
  unfold _ntoa _ntoa_format ntoaOutput
  rw [out_rev_eq]

theorem ntoaChars_eq (value : List Nat) (negative : Bool) (base prec width : Nat)
    (flags : Flags) :
    ntoaChars value negative base prec width flags =
      ntoaOutput value negative base prec width flags := by
  unfold ntoaChars
  rw [ntoa_eq, outList_traceOut]
  simp

/-! ### Bytes of a value -/

theorem toBytes_spec : ∀ (n v : Nat),
    (toBytes n v).length = n ∧ (∀ b ∈ toBytes n v, b < 256) ∧
      Nat.ofDigits 256 (toBytes n v) = v % 256 ^ n := by
  intro n
  induction n with
  | zero => intro v; simp [toBytes, Nat.mod_one]
  | succ n ih =>
    intro v
    obtain ⟨hl, ha, hv⟩ := ih (v / 256)
    refine ⟨by simp [toBytes, hl], ?_, ?_⟩
    · intro b hb
      simp only [toBytes, List.mem_cons] at hb
      rcases hb with hb | hb
      · subst hb; exact Nat.mod_lt _ (by norm_num)
      · exact ha b hb
    · simp only [toBytes, Nat.ofDigits_cons, hv, pow_succ]
      rw [mul_comm (256 ^ n) 256, Nat.mod_mul]

theorem is_zero_spec : ∀ (w : List Nat), _is_zero w = decide (Nat.ofDigits 256 w = 0) := by
  intro w
  induction w with
  | nil => simp [_is_zero]
  | cons b bs ih =>
    unfold _is_zero at ih ⊢
    simp only [List.all_cons, ih, Nat.ofDigits_cons]
    by_cases hb : b = 0
    · subst hb; simp
    · have : ¬ (b + 256 * Nat.ofDigits 256 bs = 0) := by omega
      simp [hb, this]

/-! ### Digits and numerals -/

theorem bcdToAscii_eq (flags : Flags) (d : Nat) (hd : d < 16) :
    bcdToAscii flags d = digitChar flags.uppercase d := by
  unfold bcdToAscii digitChar
  split_ifs <;> omega

theorem digitValue_digitChar (up : Bool) (d : Nat) (hd : d < 16) :
    digitValue (digitChar up d) = some d := by
  interval_cases d <;> cases up <;> rfl

theorem parseFrom_append (base : Nat) : ∀ (xs ys : List Nat) (acc : Nat),
    parseFrom base (xs ++ ys) acc = (parseFrom base xs acc).bind (parseFrom base ys) := by
  intro xs
  induction xs with
  | nil => intro ys acc; simp [parseFrom]
  | cons x xs ih =>
    intro ys acc
    simp only [List.cons_append, parseFrom]
    cases digitValue x with
    | none => simp
    | some d =>
      simp only
      split_ifs
      · exact ih ys _
      · simp

theorem parseFrom_digits (base : Nat) (hb : base ≤ 16) (up : Bool) :
    ∀ (ds : List Nat) (acc : Nat), (∀ d ∈ ds, d < base) →
      parseFrom base ((ds.map (digitChar up)).reverse) acc =
        some (acc * base ^ ds.length + Nat.ofDigits base ds) := by
  intro ds
  induction ds with
  | nil => intro acc _; simp [parseFrom]
  | cons d ds ih =>
    intro acc hlt
    have hd : d < base := hlt d (List.mem_cons_self _ _)
    have hds : ∀ x ∈ ds, x < base := fun x hx => hlt x (List.mem_cons_of_mem _ hx)
    simp only [List.map_cons, List.reverse_cons, parseFrom_append, ih acc hds, Option.some_bind,
      parseFrom, digitValue_digitChar up d (by omega), hd, if_true, List.length_cons,
      Nat.ofDigits_cons]
    congr 1; ring

theorem ntoaBits_value (base n v : Nat) (hb : GoodBase base) (hn : 0 < n) (hv : v < 2 ^ (8 * n)) :
    ntoaBits base ((toBytes n v).length * 8) [0] (toBytes n v) = cellsOf base v := by
  obtain ⟨hl, ha, hval⟩ := toBytes_spec n v
  have hne : toBytes n v ≠ [] := by
    intro h0; rw [h0] at hl; simp at hl; omega
  have h := ntoaBits_spec base hb ((toBytes n v).length * 8) 0 (toBytes n v) ha hne (by omega)
  have e0 : cellsOf base 0 = [0] := by simp [cellsOf]
  rw [e0] at h
  rw [h, hval]
  have : v % 256 ^ n = v := by
    apply Nat.mod_eq_of_lt
    have e : (256 : Nat) ^ n = 2 ^ (8 * n) := by rw [pow_mul]; norm_num
    rw [e]; exact hv
  rw [this]
  have : 8 * (toBytes n v).length - (toBytes n v).length * 8 = 0 := by omega
  simp [this]

theorem ntoaDigits_value (base n v : Nat) (hb : GoodBase base) (hb16 : base ≤ 16) (hn : 0 < n)
    (hv : v < 2 ^ (8 * n)) (flags : Flags) (hp : flags.precision = false ∨ v ≠ 0) :
    ntoaDigits (toBytes n v) base flags =
      (cellsOf base v).map (digitChar flags.uppercase) := by
  have hz : _is_zero (toBytes n v) = decide (v = 0) := by
    rw [is_zero_spec, (toBytes_spec n v).2.2]
    have : v % 256 ^ n = v := by
      apply Nat.mod_eq_of_lt
      have e : (256 : Nat) ^ n = 2 ^ (8 * n) := by rw [pow_mul]; norm_num
      rw [e]; exact hv
    rw [this]
  have hup : (ntoaFlags (toBytes n v) flags).uppercase = flags.uppercase := by
    unfold ntoaFlags; split_ifs <;> rfl
  have hpr : (ntoaFlags (toBytes n v) flags).precision = flags.precision := by
    unfold ntoaFlags; split_ifs <;> rfl
  have hcond : (!(ntoaFlags (toBytes n v) flags).precision || !_is_zero (toBytes n v)) = true := by
    rw [hpr, hz]
    rcases hp with hp | hp
    · simp [hp]
    · simp [hp]
  unfold ntoaDigits
  rw [if_pos hcond]
  have hmod : base % 256 = base := Nat.mod_eq_of_lt (by omega)
  rw [hmod, ntoaBits_value base n v hb hn hv]
  apply List.map_congr_left
  intro d hd
  rw [bcdToAscii_eq _ d (lt_of_lt_of_le (cellsOf_lt base v hb d hd) hb16), hup]

theorem parseNum_numeral (base : Nat) (hb : GoodBase base) (hb16 : base ≤ 16) (up : Bool)
    (v : Nat) : parseNum base (numeral base up v) = some v := by
  unfold parseNum numeral
  have hne : cellsOf base v ≠ [] := by
    unfold cellsOf; split_ifs with h
    · simp
    · exact Nat.digits_ne_nil_iff_ne_zero.2 h
  rw [if_neg (by simpa using hne)]
  rw [parseFrom_digits base hb16 up _ 0 (cellsOf_lt base v hb), ofDigits_cellsOf]
  simp

theorem numeral_head (base : Nat) (hb : GoodBase base) (hb16 : base ≤ 16) (up : Bool)
    (v : Nat) (hv : v ≠ 0) : (numeral base up v).head? ≠ some 48 := by
  unfold numeral
  rw [List.head?_reverse, List.getLast?_map]
  intro h
  cases hl : (cellsOf base v).getLast? with
  | none => rw [hl] at h; simp at h
  | some d =>
    rw [hl] at h
    simp only [Option.map_some', Option.some.injEq] at h
    have hd0 : d ≠ 0 := cellsOf_last base v hv d hl
    have hd : d < 16 := lt_of_lt_of_le
      (cellsOf_lt base v hb d (List.mem_of_getLast?_eq_some hl)) hb16
    unfold digitChar at h
    split_ifs at h <;> omega

theorem ntoa_plain (base n v : Nat) (hb : GoodBase base) (hb16 : base ≤ 16) (hn : 0 < n)
    (hv : v < 2 ^ (8 * n)) :
    ntoaChars (toBytes n v) false base 0 0 noFlags = numeral base false v := by
  rw [ntoaChars_eq]
  unfold ntoaOutput
  rw [ntoaDigits_value base n v hb hb16 hn hv noFlags (Or.inl rfl)]
  have hf : ntoaFlags (toBytes n v) noFlags = noFlags := by
    unfold ntoaFlags; split_ifs <;> rfl
  rw [hf]
  simp [ntoaFormatBuf, ntoaPad, ntoaHash, ntoaSign, ntoaWidth, padZeros, outRevChars, noFlags,
    numeral]

/-- Claim C1: for a base in {2, 8, 10, 16}, a width of 1, 2, 4 or 8 bytes and
a magnitude below `2 ^ (8 n)`, `_ntoa` with no flag, width 0 and precision 0
writes the canonical numeral of the magnitude in that base (most significant
digit first, no leading zero unless the magnitude is 0), and reading the
output back in that base gives the magnitude. -/
theorem ntoa_canonical (b n v : Nat) (hb : b = 2 ∨ b = 8 ∨ b = 10 ∨ b = 16)
    (hn : n = 1 ∨ n = 2 ∨ n = 4 ∨ n = 8) (hv : v < 2 ^ (8 * n)) :
    ntoaChars (toBytes n v) false b 0 0 noFlags = numeral b false v ∧
      parseNum b (ntoaChars (toBytes n v) false b 0 0 noFlags) = some v ∧
      (v ≠ 0 → (ntoaChars (toBytes n v) false b 0 0 noFlags).head? ≠ some 48) := by
  have hg : GoodBase b := by
    unfold GoodBase; rcases hb with h | h | h | h <;> subst h <;> norm_num
  have h16 : b ≤ 16 := by rcases hb with h | h | h | h <;> subst h <;> norm_num
  have hn0 : 0 < n := by rcases hn with h | h | h | h <;> subst h <;> norm_num
  have h := ntoa_plain b n v hg h16 hn0 hv
  refine ⟨h, ?_, ?_⟩
  · rw [h]; exact parseNum_numeral b hg h16 false v
  · intro hv0; rw [h]; exact numeral_head b hg h16 false v hv0

theorem ntoa_canonical_witness :
    ntoaChars (toBytes 2 1234) false 10 0 0 noFlags = numeral 10 false 1234 ∧
      parseNum 10 (ntoaChars (toBytes 2 1234) false 10 0 0 noFlags) = some 1234 ∧
      ((1234 : Nat) ≠ 0 → (ntoaChars (toBytes 2 1234) false 10 0 0 noFlags).head? ≠ some 48) :=
  ntoa_canonical 10 2 1234 (by decide) (by decide) (by decide)

theorem convInt_eq {β F : Type} (P : Platform) (out : out_fct_type β) (maxlen c : Nat)
    (d : Directive F) (buffer : β) (idx : Nat) :
    convInt P out maxlen c d buffer idx =
      outList out maxlen (convIntChars P c d) (buffer, idx) := by
  unfold convInt convIntChars
  rw [ntoa_eq]

theorem convChar_eq {β F : Type} (out : out_fct_type β) (maxlen : Nat)
    (d : Directive F) (buffer : β) (idx : Nat) :
    convChar out maxlen d buffer idx = outList out maxlen (convCharChars d) (buffer, idx) := by
  unfold convChar convCharChars
  cases hl : d.flags.left <;> simp [outList_append, outList]

theorem convStr_eq {β F : Type} (P : Platform) (out : out_fct_type β) (maxlen : Nat)
    (d : Directive F) (buffer : β) (idx : Nat) :
    convStr P out maxlen d buffer idx = outList out maxlen (convStrChars P d) (buffer, idx) := by
  unfold convStr convStrChars
  cases hl : d.flags.left <;> simp [outList_append, outList]

theorem convPtr_eq {β F : Type} (P : Platform) (out : out_fct_type β) (maxlen : Nat)
    (d : Directive F) (buffer : β) (idx : Nat) :
    convPtr P out maxlen d buffer idx = outList out maxlen (convPtrChars P d) (buffer, idx) := by
  unfold convPtr convPtrChars
  rw [ntoa_eq]

theorem etoaTail_eq {β F : Type} (P : Platform) (out : out_fct_type β) (maxlen : Nat)
    (width : Nat) (flags : Flags) (pl : EtoaPlan F) (cs : List Nat) (b : β) (i : Nat) :
    etoaTail P out maxlen i width flags pl (outList out maxlen cs (b, i)) =
      outList out maxlen (cs ++ etoaTailChars P width flags pl cs.length) (b, i) := by
  unfold etoaTail etoaTailChars
  by_cases hm : pl.minwidth = 0
  · simp [hm]
  · simp only [bne_iff_ne, ne_eq, hm, not_false_eq_true, if_true]
    rw [ntoa_eq]
    cases hl : flags.left
    · simp [outList_append, outList]
    · simp only [if_true, outList_append, outList, outList_idx]
      have e : ∀ X : Nat, i + cs.length + 1 + X - i = cs.length + 1 + X := fun X => by omega
      simp only [List.append_assoc, List.singleton_append, outList_append, outList_cons,
        outList_idx, e]

theorem etoaWith_traced {F : Type} (P : Platform) (D : DoubleOps F)
    (ftoa : ∀ (β : Type), out_fct_type β → Nat → β → Nat → F → Nat → Nat → Flags →
      Option (β × Nat))
    (hf : ∀ (value : F) (prec width : Nat) (flags : Flags), ∃ r : Option (List Nat),
      ∀ (β : Type) (out : out_fct_type β) (maxlen : Nat) (b : β) (i : Nat),
        ftoa β out maxlen b i value prec width flags =
          r.map (fun cs => outList out maxlen cs (b, i)))
    (value : F) (prec width : Nat) (flags : Flags) :
    ∃ r : Option (List Nat),
      ∀ (β : Type) (out : out_fct_type β) (maxlen : Nat) (b : β) (i : Nat),
        etoaWith P D (ftoa β out maxlen) out b i maxlen value prec width flags =
          r.map (fun cs => outList out maxlen cs (b, i)) := by
  unfold etoaWith
  by_cases hs : isSpecial D value = true
  · obtain ⟨r, hr⟩ := hf value prec width flags
    exact ⟨r, fun β out maxlen b i => by rw [if_pos hs]; exact hr β out maxlen b i⟩
  · obtain ⟨r, hr⟩ := hf (etoaPlan P D value prec width flags).value
      (etoaPlan P D value prec width flags).prec (etoaPlan P D value prec width flags).fwidth
      (etoaPlan P D value prec width flags).flags
    refine ⟨r.map (fun cs => cs ++ etoaTailChars P width flags
      (etoaPlan P D value prec width flags) cs.length), fun β out maxlen b i => ?_⟩
    rw [if_neg hs]
    simp only [hr]
    cases r with
    | none => rfl
    | some cs => simp only [Option.map_some', etoaTail_eq]

theorem ftoa_traced {F : Type} (P : Platform) (D : DoubleOps F) :
    ∀ (depth : Nat) (value : F) (prec width : Nat) (flags : Flags),
      ∃ r : Option (List Nat),
        ∀ (β : Type) (out : out_fct_type β) (maxlen : Nat) (b : β) (i : Nat),
          _ftoa P D out maxlen depth b i value prec width flags =
            r.map (fun cs => outList out maxlen cs (b, i)) := by
  intro depth
  induction depth with
  | zero => intro value prec width flags; exact ⟨none, fun _ _ _ _ _ => rfl⟩
  | succ depth ih =>
    intro value prec width flags
    by_cases h1 : D.ne value value = true
    · exact ⟨some (outRevChars [110, 97, 110] width flags), fun β out maxlen b i => by
        simp only [_ftoa, h1, if_true, out_rev_eq, Option.map_some']⟩
    by_cases h2 : D.lt value (D.neg D.dblMax) = true
    · exact ⟨some (outRevChars [102, 110, 105, 45] width flags), fun β out maxlen b i => by
        simp only [_ftoa, h1, h2, if_true, if_false, Bool.false_eq_true, out_rev_eq,
          Option.map_some']⟩
    by_cases h3 : D.lt D.dblMax value = true
    · exact ⟨some (outRevChars (if flags.plus then [102, 110, 105, 43] else [102, 110, 105])
        width flags), fun β out maxlen b i => by
        simp only [_ftoa, h1, h2, h3, if_true, if_false, Bool.false_eq_true, out_rev_eq,
          Option.map_some']⟩
    by_cases h4 : ftoaIsLarge D value = true
    · obtain ⟨r, hr⟩ := etoaWith_traced P D
        (fun β out maxlen => _ftoa P D out maxlen depth) ih value prec width flags
      exact ⟨r, fun β out maxlen b i => by
        simp only [_ftoa, h1, h2, h3, h4, if_true, if_false, Bool.false_eq_true]
        exact hr β out maxlen b i⟩
    · exact ⟨some (outRevChars (ftoaBuf P D value prec width flags).1
        (ftoaBuf P D value prec width flags).2 flags), fun β out maxlen b i => by
        simp only [_ftoa, h1, h2, h3, h4, if_true, if_false, Bool.false_eq_true, out_rev_eq,
          Option.map_some']⟩

theorem etoa_traced {F : Type} (P : Platform) (D : DoubleOps F) (depth : Nat) (value : F)
    (prec width : Nat) (flags : Flags) :
    ∃ r : Option (List Nat),
      ∀ (β : Type) (out : out_fct_type β) (maxlen : Nat) (b : β) (i : Nat),
        _etoa P D out maxlen depth b i value prec width flags =
          r.map (fun cs => outList out maxlen cs (b, i)) := by
  obtain ⟨r, hr⟩ := etoaWith_traced P D
    (fun β out maxlen => _ftoa P D out maxlen depth) (ftoa_traced P D depth) value prec width flags
  exact ⟨r, fun β out maxlen b i => by unfold _etoa; exact hr β out maxlen b i⟩

theorem emit_emit {β F : Type} (out : out_fct_type β) (maxlen : Nat) (b : β) (i : Nat)
    (t1 t2 : List Nat × List Nat × List (Arg F)) :
    emit out maxlen (emit out maxlen b i t1).buffer (emit out maxlen b i t1).idx t2 =
      emit out maxlen b i (t1.1 ++ t2.1, t2.2) := by
  simp [emit, outList_append]

theorem evalSpecifier_traced {F : Type} (P : Platform) (D : DoubleOps F) (d : Directive F) :
    ∃ r : Option (List Nat × List Nat × List (Arg F)),
      ∀ (β : Type) (out : out_fct_type β) (maxlen : Nat) (b : β) (i : Nat),
        evalSpecifier P D out maxlen d b i = r.map (emit out maxlen b i) := by
  unfold evalSpecifier
  simp only []
  generalize d.format.headD 0 = c
  by_cases h1 : isIntConv c = true
  · exact ⟨some (convIntChars P c d, d.format.tail, d.va.tail),
      fun β out maxlen b i => by
        simp only [h1, if_true, convInt_eq, Option.map_some', emit]⟩
  by_cases h2 : c = 102 ∨ c = 70
  · obtain ⟨r, hr⟩ := ftoa_traced P D FLOAT_DEPTH (argDbl D d.va.head?) d.precision d.width
      (if c = 70 then { d.flags with uppercase := true } else d.flags)
    refine ⟨r.map (fun cs => (cs, d.format.tail, d.va.tail)), fun β out maxlen b i => ?_⟩
    simp only [h1, h2, if_true, if_false, Bool.false_eq_true, hr]
    cases r <;> simp [emit]
  by_cases h3 : c = 101 ∨ c = 69 ∨ c = 103 ∨ c = 71
  · obtain ⟨r, hr⟩ := etoa_traced P D FLOAT_DEPTH (argDbl D d.va.head?) d.precision d.width
      (if c = 69 ∨ c = 71 then
        { (if c = 103 ∨ c = 71 then
            { d.flags with adapt_exp := true } else d.flags) with uppercase := true }
       else (if c = 103 ∨ c = 71 then
            { d.flags with adapt_exp := true } else d.flags))
    refine ⟨r.map (fun cs => (cs, d.format.tail, d.va.tail)), fun β out maxlen b i => ?_⟩
    simp only [h1, h2, h3, if_true, if_false, Bool.false_eq_true, hr]
    cases r <;> simp [emit]
  by_cases h4 : c = 99
  · subst h4
    exact ⟨some (convCharChars d, d.format.tail, d.va.tail), fun β out maxlen b i => by
      simp [isIntConv, convChar_eq, emit]⟩
  by_cases h5 : c = 115
  · subst h5
    exact ⟨some (convStrChars P d, d.format.tail, d.va.tail), fun β out maxlen b i => by
      simp [isIntConv, convStr_eq, emit]⟩
  by_cases h6 : c = 112
  · subst h6
    exact ⟨some (convPtrChars P d, d.format.tail, d.va.tail), fun β out maxlen b i => by
      simp [isIntConv, convPtr_eq, emit]⟩
  by_cases h7 : c = 37
  · subst h7
    exact ⟨some ([37], d.format.tail, d.va), fun β out maxlen b i => by
      simp [isIntConv, emit, outList_cons, outList_nil]⟩
  · exact ⟨some ([c], d.format.tail, d.va), fun β out maxlen b i => by
      simp only [h1, h2, h3, h4, h5, h6, h7, if_true, if_false,
        Bool.false_eq_true, Option.map_some', emit, outList_cons, outList_nil]⟩

theorem loop_traced {F : Type} (P : Platform) (D : DoubleOps F) :
    ∀ (fuel : Nat) (format : List Nat) (va : List (Arg F)),
      ∃ r : Option (List Nat × List Nat × List (Arg F)),
        ∀ (β : Type) (out : out_fct_type β) (maxlen : Nat) (b : β) (i : Nat),
          vsnprintfLoop P D out maxlen fuel { buffer := b, idx := i, format := format, va := va } =
            r.map (emit out maxlen b i) := by
  intro fuel
  induction fuel with
  | zero => intro format va; exact ⟨none, fun _ _ _ _ _ => rfl⟩
  | succ fuel ih =>
    intro format va
    by_cases h0 : format.headD 0 = 0
    · exact ⟨some ([], format, va), fun β out maxlen b i => by
        simp only [vsnprintfLoop, h0, if_true, Option.map_some', emit, outList_nil]⟩
    by_cases h1 : format.headD 0 ≠ 37
    · obtain ⟨r, hr⟩ := ih format.tail va
      refine ⟨r.map (fun t => (format.headD 0 :: t.1, t.2)), fun β out maxlen b i => ?_⟩
      simp only [vsnprintfLoop, h0, h1, if_false, if_true, ne_eq, not_false_eq_true]
      rw [hr]
      cases r with
      | none => rfl
      | some t => simp only [Option.map_some', emit, outList_cons]
    · obtain ⟨r1, hr1⟩ := evalSpecifier_traced P D (parseDirective P format.tail va)
      cases r1 with
      | none =>
        exact ⟨none, fun β out maxlen b i => by
          simp only [vsnprintfLoop, h0, h1, if_false, hr1, Option.map_none', Option.none_bind]⟩
      | some t1 =>
        obtain ⟨r2, hr2⟩ := ih t1.2.1 t1.2.2
        refine ⟨r2.map (fun t2 => (t1.1 ++ t2.1, t2.2)), fun β out maxlen b i => ?_⟩
        simp only [vsnprintfLoop, h0, h1, if_false, hr1, Option.map_some', Option.some_bind]
        have := hr2 β out maxlen (emit out maxlen b i t1).buffer (emit out maxlen b i t1).idx
        simp only [emit] at this ⊢
        rw [this]
        cases r2 with
        | none => rfl
        | some t2 => simp only [Option.map_some', emit, outList_append]

theorem ftoa_direct {β F : Type} (P : Platform) (D : DoubleOps F) (out : out_fct_type β)
    (maxlen depth : Nat) (b : β) (i : Nat) (value : F) (prec width : Nat) (flags : Flags)
    (h : (isSpecial D value || !ftoaIsLarge D value) = true) :
    (_ftoa P D out maxlen (depth + 1) b i value prec width flags).isSome = true := by
  unfold isSpecial at h
  by_cases h1 : D.ne value value = true
  · simp [_ftoa, h1]
  by_cases h2 : D.lt value (D.neg D.dblMax) = true
  · simp [_ftoa, h1, h2]
  by_cases h3 : D.lt D.dblMax value = true
  · simp [_ftoa, h1, h2, h3]
  by_cases h4 : ftoaIsLarge D value = true
  · simp [h1, h2, h3, h4] at h
  · simp [_ftoa, h1, h2, h3, h4]

theorem etoa_some {β F : Type} (P : Platform) (D : DoubleOps F) (hD : MantissaInRange P D)
    (out : out_fct_type β) (maxlen depth : Nat) (b : β) (i : Nat) (value : F)
    (prec width : Nat) (flags : Flags) :
    (_etoa P D out maxlen (depth + 1) b i value prec width flags).isSome = true := by
  unfold _etoa etoaWith
  by_cases hs : isSpecial D value = true
  · rw [if_pos hs]
    exact ftoa_direct P D out maxlen depth b i value prec width flags (by simp [hs])
  · rw [if_neg hs]
    simp only [Option.isSome_map']
    exact ftoa_direct P D out maxlen depth b i _ _ _ _
      (hD value prec width flags (by simpa using hs))

theorem ftoa_some {β F : Type} (P : Platform) (D : DoubleOps F) (hD : MantissaInRange P D)
    (out : out_fct_type β) (maxlen depth : Nat) (b : β) (i : Nat) (value : F)
    (prec width : Nat) (flags : Flags) :
    (_ftoa P D out maxlen (depth + 2) b i value prec width flags).isSome = true := by
  by_cases h : (isSpecial D value || !ftoaIsLarge D value) = true
  · exact ftoa_direct P D out maxlen (depth + 1) b i value prec width flags h
  · have hs : isSpecial D value = false := by
      cases hh : isSpecial D value <;> simp [hh] at h ⊢
    have hl : ftoaIsLarge D value = true := by
      cases hh : ftoaIsLarge D value <;> simp [hh, hs] at h ⊢
    have := etoa_some P D hD out maxlen depth b i value prec width flags
    unfold isSpecial at hs
    simp only [Bool.or_eq_false_iff] at hs
    obtain ⟨⟨h1, h2⟩, h3⟩ := hs
    unfold _ftoa
    simp only [h1, h2, h3, hl, Bool.false_eq_true, if_false, if_true]
    exact this

theorem evalSpecifier_some {β F : Type} (P : Platform) (D : DoubleOps F)
    (hD : MantissaInRange P D) (out : out_fct_type β) (maxlen : Nat) (d : Directive F)
    (b : β) (i : Nat) :
    ∃ s, evalSpecifier P D out maxlen d b i = some s ∧ s.format = d.format.tail := by
  unfold evalSpecifier
  simp only []
  generalize d.format.headD 0 = c
  by_cases h1 : isIntConv c = true
  · rw [if_pos h1]; exact ⟨_, rfl, rfl⟩
  rw [if_neg h1]
  by_cases h2 : c = 102 ∨ c = 70
  · rw [if_pos h2]
    have := ftoa_some P D hD out maxlen 0 b i (argDbl D d.va.head?) d.precision d.width
      (if c = 70 then { d.flags with uppercase := true } else d.flags)
    obtain ⟨r, hr⟩ := Option.isSome_iff_exists.1 this
    have e : FLOAT_DEPTH = 0 + 2 := rfl
    rw [e, hr]
    exact ⟨_, rfl, rfl⟩
  rw [if_neg h2]
  by_cases h3 : c = 101 ∨ c = 69 ∨ c = 103 ∨ c = 71
  · rw [if_pos h3]
    have := etoa_some P D hD out maxlen 1 b i (argDbl D d.va.head?) d.precision d.width
      (if c = 69 ∨ c = 71 then
        { (if c = 103 ∨ c = 71 then
            { d.flags with adapt_exp := true } else d.flags) with uppercase := true }
       else (if c = 103 ∨ c = 71 then
            { d.flags with adapt_exp := true } else d.flags))
    obtain ⟨r, hr⟩ := Option.isSome_iff_exists.1 this
    have e : FLOAT_DEPTH = 1 + 1 := rfl
    rw [e, hr]
    exact ⟨_, rfl, rfl⟩
  rw [if_neg h3]
  split_ifs <;> exact ⟨_, rfl, rfl⟩

/-! ### The cursor only moves forward -/

theorem evalFlags_length : ∀ (format : List Nat) (flags : Flags),
    (evalFlags format flags).1.length ≤ format.length := by
  intro format
  induction format with
  | nil => intro flags; simp [evalFlags]
  | cons c cs ih =>
    intro flags
    unfold evalFlags
    split_ifs <;> first | exact Nat.le_succ_of_le (ih _) | exact le_refl _

theorem atoiLoop_length (P : Platform) : ∀ (format : List Nat) (i : Nat),
    (atoiLoop P format i).2.length ≤ format.length := by
  intro format
  induction format with
  | nil => intro i; simp [atoiLoop]
  | cons c cs ih =>
    intro i
    unfold atoiLoop
    split_ifs
    · exact Nat.le_succ_of_le (ih _)
    · exact le_refl _

theorem evalWidth_length {F : Type} (P : Platform) (format : List Nat) (va : List (Arg F))
    (flags : Flags) : (evalWidth P format va flags).format.length ≤ format.length := by
  unfold evalWidth
  simp only []
  split_ifs <;> simp [_atoi, atoiLoop_length]

theorem evalPrecision_length {F : Type} (P : Platform) (d : Directive F) :
    (evalPrecision P d).format.length ≤ d.format.length := by
  unfold evalPrecision
  simp only []
  by_cases h : d.format.headD 0 = 46
  · rw [if_pos h]
    by_cases h2 : _is_digit (d.format.tail.headD 0) = true
    · rw [if_pos h2]
      exact le_trans (atoiLoop_length P _ 0) (by simp)
    · rw [if_neg h2]
      by_cases h3 : d.format.tail.headD 0 = 42
      · rw [if_pos h3]; simp only [List.length_tail]; omega
      · rw [if_neg h3]; simp
  · rw [if_neg h]

theorem evalLength_length {F : Type} (P : Platform) (d : Directive F) :
    (evalLength P d).format.length ≤ d.format.length := by
  unfold evalLength
  simp only []
  split_ifs <;> simp <;> omega

theorem parseDirective_length {F : Type} (P : Platform) (format : List Nat)
    (va : List (Arg F)) : (parseDirective P format va).format.length ≤ format.length := by
  unfold parseDirective
  exact le_trans (evalLength_length P _) (le_trans (evalPrecision_length P _)
    (le_trans (evalWidth_length P _ _ _) (evalFlags_length _ _)))

theorem loop_some {β F : Type} (P : Platform) (D : DoubleOps F) (hD : MantissaInRange P D)
    (out : out_fct_type β) (maxlen : Nat) :
    ∀ (fuel : Nat) (s : State β F), s.format.length < fuel →
      (vsnprintfLoop P D out maxlen fuel s).isSome = true := by
  intro fuel
  induction fuel with
  | zero => intro s h; omega
  | succ fuel ih =>
    intro s h
    unfold vsnprintfLoop
    by_cases h0 : s.format.headD 0 = 0
    · rw [if_pos h0]; rfl
    have hne : s.format ≠ [] := by
      intro hnil; rw [hnil] at h0; simp at h0
    have hlen : s.format.tail.length + 1 = s.format.length := by
      cases hf : s.format with
      | nil => exact absurd hf hne
      | cons c cs => simp
    rw [if_neg h0]
    by_cases h1 : s.format.headD 0 ≠ 37
    · rw [if_pos h1]
      exact ih _ (by simp only []; omega)
    · rw [if_neg h1]
      obtain ⟨s', hs', hf'⟩ := evalSpecifier_some P D hD out maxlen
        (parseDirective P s.format.tail s.va) s.buffer s.idx
      simp only [hs', Option.some_bind]
      apply ih
      rw [hf']
      have := parseDirective_length P s.format.tail s.va
      have : (parseDirective P s.format.tail s.va).format.tail.length ≤
          (parseDirective P s.format.tail s.va).format.length := by simp
      omega

/-- Every sink sees the same characters: the loop of `_vsnprintf` writes a
list of characters that depends on the format and the arguments only. -/
theorem loop_emit {F : Type} (P : Platform) (D : DoubleOps F) (format : List Nat)
    (va : List (Arg F)) (s : List Nat)
    (hs : logicalOutput P D format va = some s) :
    ∃ (fmt : List Nat) (va1 : List (Arg F)),
      ∀ (β : Type) (out : out_fct_type β) (maxlen : Nat) (b : β),
        vsnprintfLoop P D out maxlen (format.length + 1)
            { buffer := b, idx := 0, format := format, va := va } =
          some (emit out maxlen b 0 (s, fmt, va1)) := by
  obtain ⟨r, hr⟩ := loop_traced P D (format.length + 1) format va
  unfold logicalOutput at hs
  rw [hr] at hs
  cases r with
  | none => simp at hs
  | some t =>
    simp only [Option.map_some', emit, outList_traceOut, List.nil_append, Option.some.injEq] at hs
    refine ⟨t.2.1, t.2.2, fun β out maxlen b => ?_⟩
    rw [hr, ← hs]
    rfl

theorem logicalOutput_some {F : Type} (P : Platform) (D : DoubleOps F)
    (hD : MantissaInRange P D) (format : List Nat) (va : List (Arg F)) :
    ∃ s, logicalOutput P D format va = some s := by
  have h := loop_some P D hD traceOut 0 (format.length + 1)
    { buffer := [], idx := 0, format := format, va := va } (by simp)
  obtain ⟨t, ht⟩ := Option.isSome_iff_exists.1 h
  exact ⟨t.buffer, by unfold logicalOutput; rw [ht]; rfl⟩

theorem mantissaInRange_noDouble (P : Platform) : MantissaInRange P noDouble := by
  intro value prec width flags _
  simp [ftoaIsLarge, noDouble]

/-! ### The bounded buffer -/

theorem outList_buffer_length (n : Nat) : ∀ (cs : List Nat) (buf : List Nat) (i : Nat),
    (outList _out_buffer n cs (buf, i)).1.length = buf.length := by
  intro cs
  induction cs with
  | nil => intro buf i; rfl
  | cons c cs ih =>
    intro buf i
    rw [outList_cons, ih]
    simp only [_out_buffer]
    split_ifs <;> simp

theorem outList_buffer_get (n : Nat) : ∀ (cs : List Nat) (buf : List Nat) (i j : Nat),
    (outList _out_buffer n cs (buf, i)).1[j]? =
      if i ≤ j ∧ j < i + cs.length ∧ j < n ∧ j < buf.length then cs[j - i]? else buf[j]? := by
  intro cs
  induction cs with
  | nil =>
    intro buf i j
    rw [outList_nil, if_neg (by simp; omega)]
  | cons c cs ih =>
    intro buf i j
    rw [outList_cons, ih]
    have hlen : (_out_buffer c buf i n).length = buf.length := by
      simp only [_out_buffer]; split_ifs <;> simp
    simp only [hlen, List.length_cons]
    by_cases h1 : i + 1 ≤ j ∧ j < i + 1 + cs.length ∧ j < n ∧ j < buf.length
    · rw [if_pos h1, if_pos (by omega)]
      obtain ⟨k, hk⟩ : ∃ k, j - i = k + 1 := ⟨j - i - 1, by omega⟩
      rw [hk, List.getElem?_cons_succ]
      congr 1; omega
    · rw [if_neg h1]
      by_cases h2 : j = i ∧ i < n ∧ i < buf.length
      · obtain ⟨hji, hin, hib⟩ := h2
        subst hji
        rw [if_pos (by omega)]
        simp [_out_buffer, hin, hib, List.getElem?_set]
      · rw [if_neg (by omega)]
        simp only [_out_buffer]
        split_ifs with h3
        · rw [List.getElem?_set]
          by_cases h4 : i = j
          · have : ¬ j < buf.length := by omega
            have h5 : ¬ i < buf.length := by omega
            rw [if_pos h4, if_neg h5, List.getElem?_eq_none (Nat.le_of_not_lt this)]
          · rw [if_neg h4]
        · rfl

theorem terminatorIndex_eq (P : Platform) (idx n : Nat) (hn : 1 ≤ n)
    (hsz : n < 2 ^ (8 * P.size_bytes)) : terminatorIndex P idx n = min idx (n - 1) := by
  unfold terminatorIndex
  split_ifs with h
  · omega
  · have e : n + 2 ^ (8 * P.size_bytes) - 1 = (n - 1) + 2 ^ (8 * P.size_bytes) := by omega
    rw [e, Nat.add_mod_right, Nat.mod_eq_of_lt (by omega)]
    omega

theorem ntoaSign_room (buf : List Nat) (negative : Bool) (flags : Flags)
    (h : buf.length < PRINTF_NTOA_BUFFER_SIZE) :
    ntoaSign buf negative flags = buf ++ signChars negative flags := by
  unfold ntoaSign signChars
  rw [if_pos h]
  split_ifs <;> simp

theorem signChars_reverse (negative : Bool) (flags : Flags) :
    (signChars negative flags).reverse = signChars negative flags := by
  unfold signChars
  split_ifs <;> rfl

theorem outRevChars_pads (buf : List Nat) (width : Nat) (flags : Flags) :
    outRevChars buf width flags =
      List.replicate (if !flags.left && !flags.zeropad then width - buf.length else 0) 32 ++
        buf.reverse ++ List.replicate (if flags.left then width - buf.length else 0) 32 := by
  unfold outRevChars
  cases flags.left <;> cases flags.zeropad <;> simp

/-- Claim C7, amended: when the scratch buffer of `_ntoa_format` still has
room after the padding and the prefix (fewer than 510 characters), the output
is spaces, then the one sign character (`-` for a negative value, else `+`
with the plus flag, else a space with the space flag, else nothing), then the
prefix, zero padding and digits, then spaces; so a negative value shows its
`-`. -/
theorem ntoa_format_sign (buf : List Nat) (negative : Bool) (base prec width : Nat)
    (flags : Flags)
    (hroom : (ntoaHash (ntoaPad buf negative prec width flags) base prec
      (ntoaWidth negative width flags) flags).length < PRINTF_NTOA_BUFFER_SIZE) :
    ∃ (chars : List Nat) (n m : Nat),
      (∀ (β : Type) (out : out_fct_type β) (buffer : β) (idx maxlen : Nat),
        _ntoa_format out buffer idx maxlen buf negative base prec width flags =
          outList out maxlen chars (buffer, idx)) ∧
      chars = List.replicate n 32 ++ signChars negative flags ++
        (ntoaHash (ntoaPad buf negative prec width flags) base prec
          (ntoaWidth negative width flags) flags).reverse ++ List.replicate m 32 ∧
      (negative = true → 45 ∈ chars) := by
  refine ⟨outRevChars (ntoaFormatBuf buf negative base prec width flags)
    (ntoaWidth negative width flags) flags,
    (if !flags.left && !flags.zeropad then
      ntoaWidth negative width flags - (ntoaFormatBuf buf negative base prec width flags).length
     else 0),
    (if flags.left then
      ntoaWidth negative width flags - (ntoaFormatBuf buf negative base prec width flags).length
     else 0), fun β out buffer idx maxlen => ?_, ?_, ?_⟩
  · unfold _ntoa_format; rw [out_rev_eq]
  · rw [outRevChars_pads]
    unfold ntoaFormatBuf
    rw [ntoaSign_room _ _ _ hroom, List.reverse_append, signChars_reverse]
    simp only [List.append_assoc]
  · intro hneg
    rw [outRevChars_pads]
    unfold ntoaFormatBuf
    rw [ntoaSign_room _ _ _ hroom, List.reverse_append, signChars_reverse]
    simp [signChars, hneg]

theorem ntoa_format_sign_witness :
    (ntoaHash (ntoaPad [50, 52] true 0 6 { zeropad := true }) 10 0
      (ntoaWidth true 6 { zeropad := true }) { zeropad := true }).length <
        PRINTF_NTOA_BUFFER_SIZE ∧
    ∃ (chars : List Nat) (n m : Nat),
      (∀ (β : Type) (out : out_fct_type β) (buffer : β) (idx maxlen : Nat),
        _ntoa_format out buffer idx maxlen [50, 52] true 10 0 6 { zeropad := true } =
          outList out maxlen chars (buffer, idx)) ∧
      chars = List.replicate n 32 ++ signChars true { zeropad := true } ++
        (ntoaHash (ntoaPad [50, 52] true 0 6 { zeropad := true }) 10 0
          (ntoaWidth true 6 { zeropad := true }) { zeropad := true }).reverse ++
          List.replicate m 32 ∧
      (true = true → 45 ∈ chars) :=
  ⟨by decide, ntoa_format_sign [50, 52] true 10 0 6 { zeropad := true } (by decide)⟩

set_option maxRecDepth 1000000 in
/-- Claim C7 as stated fails: a negative value zero padded to a width of 511
fills the scratch buffer with 510 digits and its `-` is not written. -/
theorem ntoa_format_sign_counterexample :
    (_ntoa_format traceOut [] 0 0 [53] true 10 0 511 { zeropad := true }).1.length = 510 ∧
      45 ∉ (_ntoa_format traceOut [] 0 0 [53] true 10 0 511 { zeropad := true }).1 := by
  decide

theorem ntoaPad_noleft (buf : List Nat) (negative : Bool) (prec width : Nat) (flags : Flags)
    (hl : flags.left = false) :
    ∃ k, ntoaPad buf negative prec width flags = buf ++ List.replicate k 48 ∧
      (prec ≤ PRINTF_NTOA_BUFFER_SIZE → prec ≤ buf.length + k) := by
  unfold ntoaPad padZeros
  simp only [hl, Bool.not_false, if_true]
  split_ifs
  · refine ⟨(min prec PRINTF_NTOA_BUFFER_SIZE - buf.length) +
      (min (ntoaWidth negative width flags) PRINTF_NTOA_BUFFER_SIZE -
        (buf ++ List.replicate (min prec PRINTF_NTOA_BUFFER_SIZE - buf.length) 48).length), ?_, ?_⟩
    · rw [List.append_assoc, List.append_replicate_replicate]
    · intro h; omega
  · exact ⟨_, rfl, fun h => by omega⟩

theorem ntoaHash_ext (buf : List Nat) (base prec width : Nat) (flags : Flags)
    (h : flags.hash = false ∨ flags.precision = true) :
    ∃ hx, ntoaHash buf base prec width flags = buf ++ hx ∧
      ∀ c ∈ hx, c = 120 ∨ c = 88 ∨ c = 98 ∨ c = 48 := by
  unfold ntoaHash
  by_cases hh : flags.hash = true
  · have hp : flags.precision = true := by
      rcases h with h | h
      · rw [h] at hh; exact absurd hh (by decide)
      · exact h
    simp only [hh, hp, if_true, Bool.not_true, Bool.false_and, Bool.false_eq_true, if_false]
    split_ifs <;>
      first
        | (refine ⟨[], ?_, ?_⟩ <;> simp <;> done)
        | (refine ⟨[120], ?_, ?_⟩ <;> simp <;> done)
        | (refine ⟨[88], ?_, ?_⟩ <;> simp <;> done)
        | (refine ⟨[98], ?_, ?_⟩ <;> simp <;> done)
        | (refine ⟨[48], ?_, ?_⟩ <;> simp <;> done)
        | (refine ⟨[120, 48], ?_, ?_⟩ <;> simp <;> done)
        | (refine ⟨[88, 48], ?_, ?_⟩ <;> simp <;> done)
        | (refine ⟨[98, 48], ?_, ?_⟩ <;> simp <;> done)
  · rw [if_neg hh]; exact ⟨[], by simp, by simp⟩

theorem ntoaSign_ext (buf : List Nat) (negative : Bool) (flags : Flags) :
    ∃ sx, ntoaSign buf negative flags = buf ++ sx ∧ ∀ c ∈ sx, c = 45 ∨ c = 43 ∨ c = 32 := by
  unfold ntoaSign
  split_ifs <;>
    first
      | (refine ⟨[], ?_, ?_⟩ <;> simp <;> done)
      | (refine ⟨[45], ?_, ?_⟩ <;> simp <;> done)
      | (refine ⟨[43], ?_, ?_⟩ <;> simp <;> done)
      | (refine ⟨[32], ?_, ?_⟩ <;> simp <;> done)

theorem parseFrom_zeros (base : Nat) (hb : 0 < base) : ∀ (k : Nat) (xs : List Nat),
    parseFrom base (List.replicate k 48 ++ xs) 0 = parseFrom base xs 0 := by
  intro k
  induction k with
  | zero => intro xs; rfl
  | succ k ih =>
    intro xs
    rw [List.replicate_succ, List.cons_append, parseFrom]
    have : digitValue 48 = some 0 := rfl
    rw [this]
    simp only [hb, if_true, Nat.zero_mul, Nat.add_zero]
    exact ih xs

theorem ntoaDigits_zero (base n : Nat) (flags : Flags) (hp : flags.precision = true) :
    ntoaDigits (toBytes n 0) base flags = [] := by
  have hz : _is_zero (toBytes n 0) = true := by
    rw [is_zero_spec, (toBytes_spec n 0).2.2]; simp
  unfold ntoaDigits ntoaFlags
  simp [hz, hp]

theorem ntoaDigits_reverse (base n v : Nat) (hb : GoodBase base) (hb16 : base ≤ 16)
    (hn : 0 < n) (hv : v < 2 ^ (8 * n)) (flags : Flags) :
    (ntoaDigits (toBytes n v) base flags).reverse = valueDigits base flags v := by
  unfold valueDigits
  by_cases h : v = 0 ∧ flags.precision = true
  · rw [if_pos h, h.1, ntoaDigits_zero base n flags h.2]; rfl
  · rw [if_neg h, ntoaDigits_value base n v hb hb16 hn hv flags (by
      by_cases hv0 : v = 0
      · left; cases hp : flags.precision
        · rfl
        · exact absurd ⟨hv0, hp⟩ h
      · right; exact hv0)]
    rfl

theorem parseFrom_valueDigits (base : Nat) (hb : GoodBase base) (hb16 : base ≤ 16)
    (flags : Flags) (v : Nat) : parseFrom base (valueDigits base flags v) 0 = some v := by
  unfold valueDigits
  split_ifs with h
  · rw [h.1]; rfl
  · have := parseNum_numeral base hb hb16 flags.uppercase v
    unfold parseNum at this
    split_ifs at this
    exact this

/-- Claim C6, amended: with an explicit precision `p` of at most 510 (the
capacity of the scratch buffer) and without the left-align flag, the output
of the integer converter ends in a block of at least `p` digits, the digits of
the value after leading zeros, which reads back as the value; what precedes
the block is spaces, sign and prefix characters. -/
theorem ntoa_precision_digits (b n v : Nat) (hb : b = 2 ∨ b = 8 ∨ b = 10 ∨ b = 16)
    (hn : n = 1 ∨ n = 2 ∨ n = 4 ∨ n = 8) (hv : v < 2 ^ (8 * n)) (negative : Bool)
    (prec width : Nat) (flags : Flags) (hp : flags.precision = true)
    (hl : flags.left = false) (hprec : prec ≤ PRINTF_NTOA_BUFFER_SIZE) :
    ∃ (pre : List Nat) (k : Nat),
      ntoaChars (toBytes n v) negative b prec width flags =
        pre ++ (List.replicate k 48 ++ valueDigits b flags v) ∧
      prec ≤ (List.replicate k 48 ++ valueDigits b flags v).length ∧
      parseFrom b (List.replicate k 48 ++ valueDigits b flags v) 0 = some v ∧
      ∀ c ∈ pre, c = 32 ∨ c = 45 ∨ c = 43 ∨ c = 48 ∨ c = 120 ∨ c = 88 ∨ c = 98 := by
  have hg : GoodBase b := by
    unfold GoodBase; rcases hb with h | h | h | h <;> subst h <;> norm_num
  have h16 : b ≤ 16 := by rcases hb with h | h | h | h <;> subst h <;> norm_num
  have hn0 : 0 < n := by rcases hn with h | h | h | h <;> subst h <;> norm_num
  have hfp : (ntoaFlags (toBytes n v) flags).precision = true := by
    unfold ntoaFlags; split_ifs <;> simp [hp]
  have hfl : (ntoaFlags (toBytes n v) flags).left = false := by
    unfold ntoaFlags; split_ifs <;> simp [hl]
  have hfz : (ntoaFlags (toBytes n v) flags).zeropad = flags.zeropad := by
    unfold ntoaFlags; split_ifs <;> rfl
  obtain ⟨k, hk, hkp⟩ := ntoaPad_noleft (ntoaDigits (toBytes n v) b flags) negative prec width
    (ntoaFlags (toBytes n v) flags) hfl
  obtain ⟨hx, hhx, hhxc⟩ := ntoaHash_ext
    (ntoaPad (ntoaDigits (toBytes n v) b flags) negative prec width (ntoaFlags (toBytes n v) flags))
    b prec (ntoaWidth negative width (ntoaFlags (toBytes n v) flags))
    (ntoaFlags (toBytes n v) flags) (Or.inr hfp)
  obtain ⟨sx, hsx, hsxc⟩ := ntoaSign_ext
    (ntoaHash (ntoaPad (ntoaDigits (toBytes n v) b flags) negative prec width
      (ntoaFlags (toBytes n v) flags)) b prec
      (ntoaWidth negative width (ntoaFlags (toBytes n v) flags))
      (ntoaFlags (toBytes n v) flags)) negative (ntoaFlags (toBytes n v) flags)
  have hrev := ntoaDigits_reverse b n v hg h16 hn0 hv flags
  refine ⟨List.replicate (if !(ntoaFlags (toBytes n v) flags).left &&
      !(ntoaFlags (toBytes n v) flags).zeropad then
        ntoaWidth negative width (ntoaFlags (toBytes n v) flags) -
          (ntoaFormatBuf (ntoaDigits (toBytes n v) b flags) negative b prec width
            (ntoaFlags (toBytes n v) flags)).length else 0) 32 ++ sx.reverse ++ hx.reverse,
    k, ?_, ?_, ?_, ?_⟩
  · rw [ntoaChars_eq]
    unfold ntoaOutput
    rw [outRevChars_pads]
    unfold ntoaFormatBuf
    rw [hsx, hhx, hk, hfl]
    simp only [List.reverse_append, List.reverse_replicate, hrev, if_false, Bool.false_eq_true,
      List.replicate_zero, List.append_nil, List.append_assoc]
  · have := hkp hprec
    rw [List.length_append, List.length_replicate, ← hrev, List.length_reverse]
    omega
  · rw [parseFrom_zeros b (by have := hg.1; omega)]
    exact parseFrom_valueDigits b hg h16 flags v
  · intro c hc
    simp only [List.mem_append, List.mem_replicate, List.mem_reverse] at hc
    rcases hc with (hc | hc) | hc
    · exact Or.inl hc.2
    · rcases hsxc c hc with h | h | h <;> simp [h]
    · rcases hhxc c hc with h | h | h | h <;> simp [h]

theorem ntoa_precision_digits_witness :
    ∃ (pre : List Nat) (k : Nat),
      ntoaChars (toBytes 2 42) true 10 5 8 { precision := true } =
        pre ++ (List.replicate k 48 ++ valueDigits 10 { precision := true } 42) ∧
      5 ≤ (List.replicate k 48 ++ valueDigits 10 { precision := true } 42).length ∧
      parseFrom 10 (List.replicate k 48 ++ valueDigits 10 { precision := true } 42) 0 = some 42 ∧
      ∀ c ∈ pre, c = 32 ∨ c = 45 ∨ c = 43 ∨ c = 48 ∨ c = 120 ∨ c = 88 ∨ c = 98 :=
  ntoa_precision_digits 10 2 42 (by decide) (by decide) (by decide) true 5 8
    { precision := true } rfl rfl (by decide)

set_option maxRecDepth 1000000 in
/-- Claim C6 as stated fails: with the left-align flag `%-.5d` prints 42 with
its two digits only, and a precision of 511 gives 510 characters, the
capacity of the scratch buffer. -/
theorem ntoa_precision_counterexample :
    ntoaChars (toBytes 2 42) false 10 5 0 { left := true, precision := true } = [52, 50] ∧
      (ntoaChars (toBytes 2 5) false 10 511 0 { precision := true }).length = 510 := by
  decide

theorem ntoaWidth_zero (negative : Bool) (flags : Flags) : ntoaWidth negative 0 flags = 0 := by
  unfold ntoaWidth; split_ifs <;> rfl

theorem outRevChars_length (buf : List Nat) (width : Nat) (flags : Flags) :
    (outRevChars buf width flags).length =
      if flags.zeropad = true ∧ flags.left = false then buf.length else max buf.length width := by
  unfold outRevChars
  cases flags.left <;> cases flags.zeropad <;> simp <;> omega

theorem ntoaSign_length (buf : List Nat) (negative : Bool) (flags : Flags) :
    (ntoaSign buf negative flags).length =
      buf.length + (if buf.length < 510 ∧ (negative = true ∨ flags.plus = true ∨
        flags.space = true) then 1 else 0) := by
  unfold ntoaSign PRINTF_NTOA_BUFFER_SIZE
  cases negative <;> cases flags.plus <;> cases flags.space <;> simp <;> split_ifs <;> simp

theorem ntoaPad_length (buf : List Nat) (negative : Bool) (prec width : Nat) (flags : Flags) :
    (ntoaPad buf negative prec width flags).length =
      if flags.left = true then buf.length
      else if flags.zeropad = true then
        max (max buf.length (min prec 510)) (min (ntoaWidth negative width flags) 510)
      else max buf.length (min prec 510) := by
  unfold ntoaPad padZeros PRINTF_NTOA_BUFFER_SIZE
  cases flags.left <;> cases flags.zeropad <;> simp <;> omega

theorem intFlags_left (c : Nat) (f : Flags) : (intFlags c f).left = f.left := by
  unfold intFlags; simp only []; split_ifs <;> rfl

theorem intFlags_precision (c : Nat) (f : Flags) : (intFlags c f).precision = f.precision := by
  unfold intFlags; simp only []; split_ifs <;> rfl

theorem ntoaFlags_left (value : List Nat) (f : Flags) : (ntoaFlags value f).left = f.left := by
  unfold ntoaFlags; split_ifs <;> rfl

theorem ntoaFlags_zeropad (value : List Nat) (f : Flags) :
    (ntoaFlags value f).zeropad = f.zeropad := by
  unfold ntoaFlags; split_ifs <;> rfl

theorem ntoaFlags_precision (value : List Nat) (f : Flags) :
    (ntoaFlags value f).precision = f.precision := by
  unfold ntoaFlags; split_ifs <;> rfl

theorem cellsOf_length_le (base n v : Nat) (hb : GoodBase base) (hn : 0 < n)
    (hv : v < 2 ^ (8 * n)) : (cellsOf base v).length ≤ 8 * n := by
  unfold cellsOf
  split_ifs with h0
  · simp; omega
  · rw [Nat.digits_len base v hb.1 h0]
    have : v < base ^ (8 * n) :=
      lt_of_lt_of_le hv (Nat.pow_le_pow_left hb.1 _)
    have := Nat.log_lt_of_lt_pow h0 this
    omega

theorem numeral_length (base : Nat) (up : Bool) (v : Nat) :
    (numeral base up v).length = (cellsOf base v).length := by
  simp [numeral]

theorem dropLast_pad (xs : List Nat) (k : Nat) :
    (xs ++ List.replicate (k + 1) 48).dropLast = xs ++ List.replicate k 48 := by
  rw [List.replicate_succ', ← List.append_assoc, List.dropLast_concat]

theorem ntoaFlags_nonzero (n v : Nat) (hv : v < 2 ^ (8 * n)) (hv0 : v ≠ 0) (flags : Flags) :
    ntoaFlags (toBytes n v) flags = flags := by
  have hz : _is_zero (toBytes n v) = false := by
    rw [is_zero_spec, (toBytes_spec n v).2.2]
    have : v % 256 ^ n = v := by
      apply Nat.mod_eq_of_lt
      have e : (256 : Nat) ^ n = 2 ^ (8 * n) := by rw [pow_mul]; norm_num
      rw [e]; exact hv
    rw [this]; simp [hv0]
  unfold ntoaFlags
  simp [hz]

theorem ntoaHash_plain (X : List Nat) (base prec width : Nat) (flags : Flags)
    (hb : base = 16 ∨ base = 8 ∨ base = 2) (hh : flags.hash = true)
    (hno : flags.precision = true ∨ X.length = 0 ∨ (X.length ≠ prec ∧ X.length ≠ width))
    (hroom : X.length + 2 ≤ 510) :
    ntoaHash X base prec width flags = X ++ (altFormChars base flags).reverse := by
  have hcond : (!flags.precision && X.length != 0 &&
      (X.length == prec || X.length == width)) = false := by
    rcases hno with h | h | ⟨h1, h2⟩
    · simp [h]
    · simp [h]
    · simp [h1, h2]
  unfold ntoaHash altFormChars PRINTF_NTOA_BUFFER_SIZE
  simp only [hh, hcond, if_true, Bool.false_eq_true, if_false]
  have r1 : X.length < 510 := by omega
  have r2 : X.length + 1 < 510 := by omega
  rcases hb with rfl | rfl | rfl
  · cases hu : flags.uppercase <;> simp [r1, r2]
  · simp [r1]
  · simp [r1, r2]

theorem ntoaHash_takeback (ds : List Nat) (k base width : Nat) (flags : Flags)
    (hb : base = 16 ∨ base = 8 ∨ base = 2) (hh : flags.hash = true)
    (hp : flags.precision = false)
    (hlen : (ds ++ List.replicate (k + (if base = 16 then 2 else 1)) 48).length = width)
    (hroom : width ≤ 510) (hbin : base = 2 → width ≠ 510) :
    ntoaHash (ds ++ List.replicate (k + (if base = 16 then 2 else 1)) 48) base 0 width flags =
      ds ++ List.replicate k 48 ++ (altFormChars base flags).reverse := by
  unfold ntoaHash altFormChars PRINTF_NTOA_BUFFER_SIZE
  rcases hb with rfl | rfl | rfl
  · simp only [if_true] at hlen ⊢
    have e1 : (ds ++ List.replicate (k + 2) 48).dropLast = ds ++ List.replicate (k + 1) 48 :=
      dropLast_pad ds (k + 1)
    have e2 : (ds ++ List.replicate (k + 1) 48).dropLast = ds ++ List.replicate k 48 :=
      dropLast_pad ds k
    have hl : (ds ++ List.replicate (k + 2) 48).length = width := hlen
    simp only [hh, hp, hl, e1, e2, if_true, Bool.not_false, Bool.true_and, beq_self_eq_true,
      Bool.or_true, Bool.and_true]
    simp only [List.length_append, List.length_replicate] at hl ⊢
    have h1 : (width != 0) = true := by simp; omega
    have h2 : (ds.length + (k + 1) != 0) = true := by simp
    simp only [h1, h2, if_true]
    have r1 : ds.length + k < 510 := by omega
    have r2 : ds.length + k + 1 < 510 := by omega
    cases hu : flags.uppercase <;> simp [r1, r2] <;> omega
  · simp only [show ¬ (8 = 16) by decide, if_false] at hlen ⊢
    have e1 : (ds ++ List.replicate (k + 1) 48).dropLast = ds ++ List.replicate k 48 :=
      dropLast_pad ds k
    simp only [hh, hp, hlen, e1, if_true, Bool.not_false, Bool.true_and, beq_self_eq_true,
      Bool.or_true, Bool.and_true]
    simp only [List.length_append, List.length_replicate] at hlen ⊢
    have h1 : (width != 0) = true := by simp; omega
    have r1 : ds.length + k < 510 := by omega
    simp [h1, r1]
  · simp only [show ¬ (2 = 16) by decide, if_false] at hlen ⊢
    have e1 : (ds ++ List.replicate (k + 1) 48).dropLast = ds ++ List.replicate k 48 :=
      dropLast_pad ds k
    have := hbin rfl
    simp only [hh, hp, hlen, e1, if_true, Bool.not_false, Bool.true_and, beq_self_eq_true,
      Bool.or_true, Bool.and_true]
    simp only [List.length_append, List.length_replicate] at hlen ⊢
    have h1 : (width != 0) = true := by simp; omega
    have r1 : ds.length + k < 510 := by omega
    have r2 : ds.length + k + 1 < 510 := by omega
    simp [h1, r1, r2]
    omega

theorem ntoaSign_none (buf : List Nat) (flags : Flags) (hplus : flags.plus = false)
    (hspace : flags.space = false) : ntoaSign buf false flags = buf := by
  unfold ntoaSign; simp [hplus, hspace]

theorem ntoaWidth_nosign (width : Nat) (flags : Flags) (hplus : flags.plus = false)
    (hspace : flags.space = false) : ntoaWidth false width flags = width := by
  unfold ntoaWidth; simp [hplus, hspace]

/-- The scratch buffer of an alternate-form conversion of a non-zero value
without explicit precision: digits, padding zeros, and the reversed prefix. -/
theorem formatBuf_hash (ds : List Nat) (base width : Nat) (flags : Flags)
    (hb : base = 16 ∨ base = 8 ∨ base = 2) (hds : ds.length ≠ 0) (hds64 : ds.length ≤ 64)
    (hh : flags.hash = true) (hp : flags.precision = false) (hplus : flags.plus = false)
    (hspace : flags.space = false) (hw : width ≠ ds.length)
    (hz : flags.zeropad = true → flags.left = false →
      width ≤ 510 ∧ (base = 16 → width ≠ ds.length + 1) ∧ (base = 2 → width ≠ 510)) :
    ∃ k, ntoaFormatBuf ds false base 0 width flags =
      ds ++ List.replicate k 48 ++ (altFormChars base flags).reverse := by
  unfold ntoaFormatBuf
  rw [ntoaSign_none _ _ hplus hspace, ntoaWidth_nosign _ _ hplus hspace]
  by_cases hzp : flags.zeropad = true ∧ flags.left = false ∧ ds.length < width
  · obtain ⟨hz1, hl1, hlt⟩ := hzp
    obtain ⟨h510, h16, h2⟩ := hz hz1 hl1
    have hpad : ntoaPad ds false 0 width flags = ds ++ List.replicate (width - ds.length) 48 := by
      unfold ntoaPad padZeros PRINTF_NTOA_BUFFER_SIZE
      rw [ntoaWidth_nosign _ _ hplus hspace]
      simp [hz1, hl1]
      omega
    obtain ⟨k, hk⟩ : ∃ k, width - ds.length = k + (if base = 16 then 2 else 1) := by
      by_cases hb16 : base = 16
      · have := h16 hb16
        exact ⟨width - ds.length - 2, by simp [hb16]; omega⟩
      · exact ⟨width - ds.length - 1, by simp [hb16]; omega⟩
    refine ⟨k, ?_⟩
    rw [hpad, hk]
    apply ntoaHash_takeback ds k base width flags hb hh hp _ h510 h2
    rw [List.length_append, List.length_replicate, ← hk]
    omega
  · have hpad : ntoaPad ds false 0 width flags = ds := by
      unfold ntoaPad padZeros PRINTF_NTOA_BUFFER_SIZE
      rw [ntoaWidth_nosign _ _ hplus hspace]
      cases hl : flags.left <;> cases hzz : flags.zeropad <;> simp
      have : ¬ ds.length < width := fun h => hzp ⟨hzz, hl, h⟩
      have := Nat.min_le_left width 510
      omega
    refine ⟨0, ?_⟩
    rw [hpad]
    simp only [List.replicate_zero, List.append_nil]
    apply ntoaHash_plain ds base 0 width flags hb hh
    · right; right; exact ⟨hds, fun h => hw h.symm⟩
    · omega

/-- Where the alternate form is right: for a non-zero value with `L` digits in
base 16, 8 or 2, the alternate form without explicit precision is the base
mark (`0x`, `0X`, `0b`, `0`) followed by digits that read back as the value,
between spaces, for every width other than `L`; where the zero flag pads to
the width (no left-align) the width is at most 510, differs from `L + 1` in
base 16 and from 510 in base 2. -/
theorem ntoa_alternate_form (b n v : Nat) (hb : b = 16 ∨ b = 8 ∨ b = 2)
    (hn : n = 1 ∨ n = 2 ∨ n = 4 ∨ n = 8) (hv : v < 2 ^ (8 * n)) (hv0 : v ≠ 0)
    (width : Nat) (flags : Flags) (hh : flags.hash = true) (hp : flags.precision = false)
    (hplus : flags.plus = false) (hspace : flags.space = false)
    (hw : width ≠ (numeral b flags.uppercase v).length)
    (hz : flags.zeropad = true → flags.left = false →
      width ≤ PRINTF_NTOA_BUFFER_SIZE ∧
        (b = 16 → width ≠ (numeral b flags.uppercase v).length + 1) ∧
        (b = 2 → width ≠ PRINTF_NTOA_BUFFER_SIZE)) :
    ∃ n0 k m : Nat,
      ntoaChars (toBytes n v) false b 0 width flags =
        List.replicate n0 32 ++ altFormChars b flags ++
          (List.replicate k 48 ++ numeral b flags.uppercase v) ++ List.replicate m 32 ∧
      parseFrom b (List.replicate k 48 ++ numeral b flags.uppercase v) 0 = some v := by
  have hg : GoodBase b := by
    unfold GoodBase; rcases hb with h | h | h <;> subst h <;> norm_num
  have h16 : b ≤ 16 := by rcases hb with h | h | h <;> subst h <;> norm_num
  have hn0 : 0 < n := by rcases hn with h | h | h | h <;> subst h <;> norm_num
  have hn8 : n ≤ 8 := by rcases hn with h | h | h | h <;> subst h <;> norm_num
  have hds := ntoaDigits_value b n v hg h16 hn0 hv flags (Or.inr hv0)
  have hlen : ((cellsOf b v).map (digitChar flags.uppercase)).length =
      (numeral b flags.uppercase v).length := by simp [numeral]
  have hL64 : ((cellsOf b v).map (digitChar flags.uppercase)).length ≤ 64 := by
    have := cellsOf_length_le b n v hg hn0 hv
    simp only [List.length_map]; omega
  have hL0 : ((cellsOf b v).map (digitChar flags.uppercase)).length ≠ 0 := by
    simp only [List.length_map]
    unfold cellsOf
    rw [if_neg hv0]
    intro h0
    exact (Nat.digits_ne_nil_iff_ne_zero.2 hv0) (List.length_eq_zero.1 h0)
  obtain ⟨k, hk⟩ := formatBuf_hash ((cellsOf b v).map (digitChar flags.uppercase)) b width flags
    hb hL0 hL64 hh hp hplus hspace (by rw [hlen]; exact hw)
    (by rw [hlen]; exact hz)
  refine ⟨(if !flags.left && !flags.zeropad then
      width - ((cellsOf b v).map (digitChar flags.uppercase) ++ List.replicate k 48 ++
        (altFormChars b flags).reverse).length else 0), k,
    (if flags.left then
      width - ((cellsOf b v).map (digitChar flags.uppercase) ++ List.replicate k 48 ++
        (altFormChars b flags).reverse).length else 0), ?_, ?_⟩
  · rw [ntoaChars_eq]
    unfold ntoaOutput
    rw [ntoaFlags_nonzero n v hv hv0, hds, hk, outRevChars_pads,
      ntoaWidth_nosign _ _ hplus hspace]
    simp only [List.reverse_append, List.reverse_reverse, List.reverse_replicate,
      List.append_assoc]
    rfl
  · rw [parseFrom_zeros b (by have := hg.1; omega)]
    have := parseNum_numeral b hg h16 flags.uppercase v
    unfold parseNum at this
    split_ifs at this
    exact this

theorem ntoa_alternate_form_witness :
    ∃ n0 k m : Nat,
      ntoaChars (toBytes 2 4660) false 16 0 8 { hash := true, zeropad := true } =
        List.replicate n0 32 ++ altFormChars 16 { hash := true, zeropad := true } ++
          (List.replicate k 48 ++ numeral 16 false 4660) ++ List.replicate m 32 ∧
      parseFrom 16 (List.replicate k 48 ++ numeral 16 false 4660) 0 = some 4660 :=
  ntoa_alternate_form 16 2 4660 (by decide) (by decide) (by decide) (by decide) 8
    { hash := true, zeropad := true } rfl rfl rfl rfl (by simp [numeral, cellsOf])
    (fun _ _ => ⟨by decide, fun _ => by simp [numeral, cellsOf], fun h => absurd h (by decide)⟩)

theorem two_pow_bits (bits : Nat) (hb : 0 < bits) :
    (2 : Int) ^ bits = 2 * 2 ^ (bits - 1) := by
  obtain ⟨k, rfl⟩ : ∃ k, bits = k + 1 := ⟨bits - 1, by omega⟩
  simp [pow_succ]; ring

theorem wrapS_inRange (bits : Nat) (hb : 0 < bits) (value : Int) (h : inRange bits value) :
    wrapS bits value = value := by
  unfold wrapS
  obtain ⟨h1, h2⟩ := h
  have e := two_pow_bits bits hb
  have hp : (0 : Int) < 2 ^ (bits - 1) := by positivity
  rw [Int.emod_eq_of_lt (by omega) (by omega)]
  omega

theorem wrapU_abs (bits : Nat) (hb : 0 < bits) (value : Int) (h : inRange bits value) :
    wrapU bits (if value > 0 then value else 0 - value) = value.natAbs := by
  unfold wrapU
  obtain ⟨h1, h2⟩ := h
  have e := two_pow_bits bits hb
  have hp : (0 : Int) < 2 ^ (bits - 1) := by positivity
  split_ifs with hpos
  · rw [Int.emod_eq_of_lt (by omega) (by omega)]; omega
  · rw [Int.emod_eq_of_lt (by omega) (by omega)]; omega

theorem natAbs_lt (bits : Nat) (hb : 0 < bits) (value : Int) (h : inRange bits value) :
    value.natAbs < 2 ^ bits := by
  obtain ⟨h1, h2⟩ := h
  have e := two_pow_bits bits hb
  have hp : (0 : Int) < 2 ^ (bits - 1) := by positivity
  have : (value.natAbs : Int) < 2 ^ bits := by omega
  exact_mod_cast this

/-- The output of `_ntoa` in base 10 with no formatting flag, width or
precision: the sign and the numeral of the magnitude. -/
theorem ntoa_decimal (n m : Nat) (hn : 0 < n) (hn8 : n ≤ 8) (hm : m < 2 ^ (8 * n))
    (negative : Bool)
    (flags : Flags) (h1 : flags.zeropad = false) (h2 : flags.left = false)
    (h3 : flags.plus = false) (h4 : flags.space = false) (h5 : flags.hash = false)
    (h6 : flags.precision = false) (h7 : flags.uppercase = false) :
    ntoaOutput (toBytes n m) negative 10 0 0 flags =
      (if negative then [45] else []) ++ numeral 10 false m := by
  have hg : GoodBase 10 := by unfold GoodBase; norm_num
  unfold ntoaOutput
  rw [ntoaDigits_value 10 n m hg (by norm_num) hn hm flags (Or.inl h6)]
  have hf : ∀ value, (ntoaFlags value flags).zeropad = false ∧
      (ntoaFlags value flags).left = false ∧ (ntoaFlags value flags).plus = false ∧
      (ntoaFlags value flags).space = false ∧ (ntoaFlags value flags).hash = false ∧
      (ntoaFlags value flags).precision = false := by
    intro value
    unfold ntoaFlags
    split_ifs <;> simp [h1, h2, h3, h4, h5, h6]
  obtain ⟨g1, g2, g3, g4, g5, g6⟩ := hf (toBytes n m)
  have hlen : (cellsOf 10 m).length < 510 := by
    have := cellsOf_length_le 10 n m hg hn hm
    omega
  cases negative <;>
    simp [ntoaFormatBuf, ntoaPad, ntoaHash, ntoaSign, ntoaWidth, padZeros, outRevChars,
      g1, g2, g3, g4, g5, g6, h7, numeral, PRINTF_NTOA_BUFFER_SIZE, hlen]

theorem output_d {F : Type} (P : Platform) (D : DoubleOps F) (value : Int) :
    logicalOutput P D [37, 100] [Arg.int value] =
      some (convIntChars P 100
        ({ flags := {}, width := 0, precision := 0, format := [100],
           va := [Arg.int value] } : Directive F)) := by
  have h : logicalOutput P D [37, 100] [Arg.int value] =
      some (convInt P traceOut 0 100
        ({ flags := {}, width := 0, precision := 0, format := [100],
           va := [Arg.int value] } : Directive F) [] 0).1 := rfl
  rw [h, convInt_eq, outList_traceOut]; rfl

theorem output_ld {F : Type} (P : Platform) (D : DoubleOps F) (value : Int) :
    logicalOutput P D [37, 108, 100] [Arg.int value] =
      some (convIntChars P 100
        ({ flags := { long := true }, width := 0, precision := 0, format := [100],
           va := [Arg.int value] } : Directive F)) := by
  have h : logicalOutput P D [37, 108, 100] [Arg.int value] =
      some (convInt P traceOut 0 100
        ({ flags := { long := true }, width := 0, precision := 0, format := [100],
           va := [Arg.int value] } : Directive F) [] 0).1 := rfl
  rw [h, convInt_eq, outList_traceOut]; rfl

theorem output_lld {F : Type} (P : Platform) (D : DoubleOps F) (value : Int) :
    logicalOutput P D [37, 108, 108, 100] [Arg.int value] =
      some (convIntChars P 100
        ({ flags := { long := true, long_long := true }, width := 0, precision := 0,
           format := [100], va := [Arg.int value] } : Directive F)) := by
  have h : logicalOutput P D [37, 108, 108, 100] [Arg.int value] =
      some (convInt P traceOut 0 100
        ({ flags := { long := true, long_long := true }, width := 0, precision := 0,
           format := [100], va := [Arg.int value] } : Directive F) [] 0).1 := rfl
  rw [h, convInt_eq, outList_traceOut]; rfl

theorem numeral_ne_nil (base : Nat) (up : Bool) (v : Nat) : numeral base up v ≠ [] := by
  unfold numeral cellsOf
  split_ifs with h
  · simp
  · simpa using Nat.digits_ne_nil_iff_ne_zero.2 h

theorem numeral10_head (v : Nat) : ∀ rest, numeral 10 false v ≠ 45 :: rest := by
  intro rest h
  have hg : GoodBase 10 := by unfold GoodBase; norm_num
  have hmem : (45 : Nat) ∈ numeral 10 false v := by rw [h]; simp
  unfold numeral at hmem
  simp only [List.mem_reverse, List.mem_map] at hmem
  obtain ⟨d, hd, hd45⟩ := hmem
  have := cellsOf_lt 10 v hg d hd
  unfold digitChar at hd45
  split_ifs at hd45 <;> omega

theorem parseSigned_output (m : Nat) (negative : Bool) :
    parseSigned ((if negative then [45] else []) ++ numeral 10 false m) =
      some (if negative then -(m : Int) else (m : Int)) := by
  have hg : GoodBase 10 := by unfold GoodBase; norm_num
  have hp := parseNum_numeral 10 hg (by norm_num) false m
  cases negative
  · simp only [Bool.false_eq_true, if_false, List.nil_append]
    unfold parseSigned
    split
    · rename_i rest heq
      exact absurd heq (numeral10_head m rest)
    · rw [hp]; rfl
  · simp only [if_true, List.singleton_append]
    show Option.map (fun m : Nat => -Int.ofNat m) (parseNum 10 (numeral 10 false m)) = _
    rw [hp]; rfl

/-- The characters of a plain `%d`, `%ld` or `%lld` read back as the value. -/
theorem convInt_signed {F : Type} (P : Platform) (flags : Flags) (va : List (Arg F))
    (bytes : Nat) (hb : 0 < bytes) (hb8 : bytes ≤ 8) (value : Int)
    (hr : inRange (8 * bytes) value)
    (hop : intOperand P 100 (intFlags 100 flags) (argInt va.head?) =
      (toBytes bytes (wrapU (8 * bytes) (if value > 0 then value else 0 - value)),
        decide (value < 0)))
    (h1 : flags.zeropad = false) (h2 : flags.left = false) (h3 : flags.plus = false)
    (h4 : flags.space = false) (h6 : flags.precision = false) (h7 : flags.uppercase = false) :
    parseSigned (convIntChars P 100
      ({ flags := flags, width := 0, precision := 0, format := [100], va := va } :
        Directive F)) = some value := by
  unfold convIntChars
  simp only [hop, intBase]
  have hf : intFlags 100 flags = { flags with hash := false } := by
    unfold intFlags
    simp [h6, h7]
  rw [hf, wrapU_abs (8 * bytes) (by omega) value hr]
  have hlt := natAbs_lt (8 * bytes) (by omega) value hr
  have h10 : ¬ ((100 : Nat) = 120 ∨ (100 : Nat) = 88) := by decide
  have h11 : ¬ ((100 : Nat) = 111) := by decide
  have h12 : ¬ ((100 : Nat) = 98) := by decide
  simp only [h10, h11, h12, if_false]
  rw [ntoa_decimal bytes value.natAbs hb hb8 hlt (decide (value < 0))
    { flags with hash := false } h1 h2 h3 h4 rfl h6 h7, parseSigned_output]
  congr 1
  by_cases hneg : value < 0
  · simp only [hneg, decide_True, if_true]; omega
  · simp only [hneg, decide_False, Bool.false_eq_true, if_false]; omega

/-- Claim C8: for a signed value of the width of `int`, `long` or
`long long` (1 to 8 bytes), the most negative one included, the magnitude
`0 - value` reduced modulo `2 ^ w` is the absolute value, and the output of
`%d`, `%ld`, `%lld` read back as a signed decimal numeral is the value. -/
theorem signed_roundtrip {F : Type} (P : Platform) (D : DoubleOps F) (value : Int)
    (hi : 0 < P.int_bytes ∧ P.int_bytes ≤ 8) (hl : 0 < P.long_bytes ∧ P.long_bytes ≤ 8)
    (hll : 0 < P.long_long_bytes ∧ P.long_long_bytes ≤ 8) :
    (inRange (8 * P.int_bytes) value →
      wrapU (8 * P.int_bytes) (if value > 0 then value else 0 - value) = value.natAbs ∧
      ∃ s, logicalOutput P D [37, 100] [Arg.int value] = some s ∧
        parseSigned s = some value) ∧
    (inRange (8 * P.long_bytes) value →
      wrapU (8 * P.long_bytes) (if value > 0 then value else 0 - value) = value.natAbs ∧
      ∃ s, logicalOutput P D [37, 108, 100] [Arg.int value] = some s ∧
        parseSigned s = some value) ∧
    (inRange (8 * P.long_long_bytes) value →
      wrapU (8 * P.long_long_bytes) (if value > 0 then value else 0 - value) = value.natAbs ∧
      ∃ s, logicalOutput P D [37, 108, 108, 100] [Arg.int value] = some s ∧
        parseSigned s = some value) := by
  refine ⟨fun hr => ⟨wrapU_abs _ (by omega) value hr, _, output_d P D value, ?_⟩,
    fun hr => ⟨wrapU_abs _ (by omega) value hr, _, output_ld P D value, ?_⟩,
    fun hr => ⟨wrapU_abs _ (by omega) value hr, _, output_lld P D value, ?_⟩⟩
  · apply convInt_signed P {} [Arg.int value] P.int_bytes hi.1 hi.2 value hr _ rfl rfl rfl rfl
      rfl rfl
    have hw := wrapS_inRange (8 * P.int_bytes) (by omega) value hr
    simp [intOperand, intFlags, argInt, hw]
  · apply convInt_signed P { long := true } [Arg.int value] P.long_bytes hl.1 hl.2 value hr _
      rfl rfl rfl rfl rfl rfl
    have hw := wrapS_inRange (8 * P.long_bytes) (by omega) value hr
    simp [intOperand, intFlags, argInt, hw]
  · apply convInt_signed P { long := true, long_long := true } [Arg.int value]
      P.long_long_bytes hll.1 hll.2 value hr _ rfl rfl rfl rfl rfl rfl
    have hw := wrapS_inRange (8 * P.long_long_bytes) (by omega) value hr
    simp [intOperand, intFlags, argInt, hw]

theorem signed_roundtrip_witness :
    (0 < mos.int_bytes ∧ mos.int_bytes ≤ 8) ∧ inRange (8 * mos.int_bytes) (-32768) ∧
      wrapU (8 * mos.int_bytes) (if (-32768 : Int) > 0 then -32768 else 0 - -32768) =
        (-32768 : Int).natAbs ∧
      ∃ s, logicalOutput mos noDouble [37, 100] [Arg.int (-32768)] = some s ∧
        parseSigned s = some (-32768) :=
  ⟨by decide, by unfold inRange; decide,
    (signed_roundtrip mos noDouble (-32768) (by decide) (by decide) (by decide)).1
      (by unfold inRange; decide)⟩

theorem evalLength_va {F : Type} (P : Platform) (d : Directive F) :
    (evalLength P d).va = d.va := by
  unfold evalLength
  simp only []
  split_ifs <;> rfl

theorem parseDirective_va {F : Type} (P : Platform) (format : List Nat) (va : List (Arg F)) :
    (parseDirective P format va).va =
      va.drop ((widthStar format).toNat + (precisionStar P format va).toNat) := by
  unfold parseDirective
  simp only [evalLength_va]
  unfold precisionStar widthStar
  simp only []
  generalize (evalFlags format {}).1 = f1
  generalize (evalFlags format {}).2 = fl
  unfold evalPrecision evalWidth
  simp only []
  by_cases h1 : _is_digit (f1.headD 0) = true
  · simp only [h1, if_true, Bool.not_true, Bool.false_and, Bool.toNat_false, Nat.zero_add]
    split_ifs <;> simp_all
  · simp only [h1, Bool.false_eq_true, if_false, Bool.not_false, Bool.true_and]
    by_cases h2 : f1.headD 0 = 42
    · simp only [h2, if_true, decide_True, Bool.toNat_true]
      have tt : ∀ l : List (Arg F), l.tail.tail = l.drop 2 := fun l => by
        cases l with
        | nil => rfl
        | cons a as => cases as <;> rfl
      split_ifs <;> simp_all
    · simp only [h2, if_false, decide_False, Bool.toNat_false, Nat.zero_add]
      split_ifs <;> simp_all

/-- Claim C10, amended: when the conversion letter of a directive is none of
`d i u x X o b f F e E g G c s p %`, whatever flags, width, precision and
length modifier precede it, the parser writes exactly that one character,
moves the cursor past it, and consumes no argument other than the one `int`
taken by a `*` width and the one taken by a `.*` precision. -/
theorem unknown_letter_literal {β F : Type} (P : Platform) (D : DoubleOps F)
    (out : out_fct_type β) (maxlen : Nat) (format : List Nat) (va : List (Arg F))
    (buffer : β) (idx : Nat)
    (hc : (parseDirective P format va).format.headD 0 ∉ conversionLetters) :
    evalSpecifier P D out maxlen (parseDirective P format va) buffer idx =
        some { buffer := out ((parseDirective P format va).format.headD 0) buffer idx maxlen,
               idx := idx + 1,
               format := (parseDirective P format va).format.tail,
               va := va.drop ((widthStar format).toNat + (precisionStar P format va).toNat) } ∧
      (widthStar format = false → precisionStar P format va = false →
        (parseDirective P format va).va = va) := by
  have hva := parseDirective_va P format va
  refine ⟨?_, fun h1 h2 => by rw [hva, h1, h2]; rfl⟩
  rw [← hva]
  unfold evalSpecifier
  simp only []
  generalize (parseDirective P format va).format.headD 0 = c at hc
  simp only [conversionLetters, List.mem_cons, List.mem_singleton, List.not_mem_nil, or_false,
    not_or] at hc
  obtain ⟨c1, c2, c3, c4, c5, c6, c7, c8, c9, c10, c11, c12, c13, c14, c15, c16, c17⟩ := hc
  have hint : isIntConv c = false := by simp [isIntConv, c1, c2, c3, c4, c5, c6, c7]
  simp only [hint, Bool.false_eq_true, if_false, c8, c9, c10, c11, c12, c13, c14, c15, c16, c17,
    or_self]

theorem unknown_letter_literal_witness :
    (parseDirective mos [45, 53, 107] ([] : List (Arg Unit))).format.headD 0 ∉
        conversionLetters ∧
      (evalSpecifier mos noDouble traceOut 0 (parseDirective mos [45, 53, 107] []) [] 0 =
        some { buffer := traceOut ((parseDirective mos [45, 53, 107]
                 ([] : List (Arg Unit))).format.headD 0) [] 0 0,
               idx := 0 + 1,
               format := (parseDirective mos [45, 53, 107] ([] : List (Arg Unit))).format.tail,
               va := ([] : List (Arg Unit)).drop ((widthStar [45, 53, 107]).toNat +
                 (precisionStar mos [45, 53, 107] ([] : List (Arg Unit))).toNat) } ∧
      (widthStar [45, 53, 107] = false →
        precisionStar mos [45, 53, 107] ([] : List (Arg Unit)) = false →
        (parseDirective mos [45, 53, 107] ([] : List (Arg Unit))).va = [])) :=
  ⟨by decide, unknown_letter_literal mos noDouble traceOut 0 [45, 53, 107] [] [] 0 (by decide)⟩

/-- Claim C10 as stated fails: in `%*k` the width `*` takes the argument
before the unknown letter `k` is written. -/
theorem unknown_letter_counterexample :
    (vsnprintfLoop mos noDouble traceOut 0 4
      { buffer := [], idx := 0, format := [37, 42, 107], va := [Arg.int 5] }).map
        (fun s => (s.buffer, s.va.length)) = some ([107], 0) := by
  decide

/-- Claim C9 fails on the code.  The parser does not stop at the terminator of
a format that ends in `%`:
with the bytes `A`, NUL after the string `%`, it writes the terminator and
the `A`, returns 2, and stops at the second NUL; the bytes after the string
change the output. -/
theorem trailing_percent_overrun :
    (vsnprintfLoop mos noDouble traceOut 0 5
      { buffer := [], idx := 0, format := [37, 0, 65, 0], va := [] }).map
        (fun s => (s.buffer, s.idx, s.format)) = some ([0, 65], 2, [0]) ∧
    logicalOutput mos noDouble [37, 0, 66, 0] [] = some [0, 66] := by
  decide

/-- Claim C2 fails on the code: `%#4x` of 0x1234 prints `0x34` and `%#05x`
prints `0x234`; digits of the value are given up for the `0x`. -/
theorem alternate_form_drops_digits :
    logicalOutput mos noDouble [37, 35, 52, 120] [Arg.int 4660] = some [48, 120, 51, 52] ∧
      logicalOutput mos noDouble [37, 35, 48, 53, 120] [Arg.int 4660] =
        some [48, 120, 50, 51, 52] ∧
      numeral 16 false 4660 = [49, 50, 51, 52] :=
  ⟨by decide, by decide, by simp [numeral, cellsOf, digitChar]⟩

theorem ftoaFracLoop_length (bits : Nat) : ∀ (room : Nat) (buf : List Nat) (frac count : Nat),
    (ftoaFracLoop bits room buf frac count).1.length ≤ buf.length + room := by
  intro room
  induction room with
  | zero => intro buf frac count; simp [ftoaFracLoop]
  | succ r ih =>
    intro buf frac count
    unfold ftoaFracLoop
    simp only []
    split_ifs
    · simp
    · refine le_trans (ih _ _ _) ?_
      simp; omega

theorem ftoaWholeLoop_length : ∀ (room : Nat) (buf : List Nat) (whole : Int),
    (ftoaWholeLoop room buf whole).length ≤ buf.length + room := by
  intro room
  induction room with
  | zero => intro buf whole; simp [ftoaWholeLoop]
  | succ r ih =>
    intro buf whole
    unfold ftoaWholeLoop
    simp only []
    split_ifs
    · simp
    · refine le_trans (ih _ _) ?_
      simp; omega

theorem ftoa_sign_step (buf : List Nat) (a b c : Bool)
    (h : buf.length ≤ PRINTF_FTOA_BUFFER_SIZE) :
    (if buf.length < PRINTF_FTOA_BUFFER_SIZE then
      if a then buf ++ [45] else if b then buf ++ [43] else if c then buf ++ [32] else buf
     else buf).length ≤ PRINTF_FTOA_BUFFER_SIZE := by
  unfold PRINTF_FTOA_BUFFER_SIZE at *
  split_ifs <;> first | omega | (simp only [List.length_append, List.length_singleton]; omega)

theorem ftoa_pad_step (buf : List Nat) (c : Bool) (w : Nat)
    (h : buf.length ≤ PRINTF_FTOA_BUFFER_SIZE) :
    (if c then buf ++ List.replicate (min w PRINTF_FTOA_BUFFER_SIZE - buf.length) 48
     else buf).length ≤ PRINTF_FTOA_BUFFER_SIZE := by
  split_ifs
  · simp only [List.length_append, List.length_replicate]
    have := Nat.min_le_right w PRINTF_FTOA_BUFFER_SIZE
    omega
  · exact h

theorem ftoaBuf_length {F : Type} (P : Platform) (D : DoubleOps F) (value : F)
    (prec width : Nat) (flags : Flags) :
    (ftoaBuf P D value prec width flags).1.length ≤ PRINTF_FTOA_BUFFER_SIZE := by
  unfold ftoaBuf
  lift_lets
  extract_lets ibits negative value1 prec1 k buf0 prec2 whole0 tmp frac0 diff frac1 fw frac
    whole1 diff2 r b1 bw buf2 width1 buf3 buf4
  show buf4.length ≤ PRINTF_FTOA_BUFFER_SIZE
  have h0 : buf0.length ≤ PRINTF_FTOA_BUFFER_SIZE := by
    simp only [buf0, k, List.length_replicate]; exact Nat.min_le_right _ _
  have hb1 : b1.length ≤ PRINTF_FTOA_BUFFER_SIZE := by
    simp only [b1, ftoaCountZeros, List.length_append, List.length_replicate]
    have h1 := ftoaFracLoop_length ibits (PRINTF_FTOA_BUFFER_SIZE - buf0.length) buf0 frac prec2
    have h2 := Nat.min_le_right r.2 (PRINTF_FTOA_BUFFER_SIZE - r.1.length)
    have h3 : r.1.length ≤ PRINTF_FTOA_BUFFER_SIZE := by simp only [r]; omega
    omega
  have hbw : bw.1.length ≤ PRINTF_FTOA_BUFFER_SIZE := by
    simp only [bw]
    split_ifs
    · exact h0
    · exact h0
    · simp only [List.length_append, List.length_singleton]; omega
    · exact hb1
  have h2 : buf2.length ≤ PRINTF_FTOA_BUFFER_SIZE := by
    simp only [buf2]
    refine le_trans (ftoaWholeLoop_length _ _ _) ?_
    omega
  have h3 : buf3.length ≤ PRINTF_FTOA_BUFFER_SIZE := by
    simp only [buf3]
    exact ftoa_pad_step buf2 _ _ h2
  simp only [buf4]
  exact ftoa_sign_step buf3 _ _ _ h3

theorem ntoaPad_bound (buf : List Nat) (negative : Bool) (prec width : Nat) (flags : Flags)
    (h : buf.length ≤ PRINTF_NTOA_BUFFER_SIZE) :
    (padZeros buf prec).length ≤ PRINTF_NTOA_BUFFER_SIZE ∧
      (ntoaPad buf negative prec width flags).length ≤ PRINTF_NTOA_BUFFER_SIZE := by
  unfold PRINTF_NTOA_BUFFER_SIZE at h
  have h1 : (padZeros buf prec).length ≤ 510 := by
    simp only [padZeros, PRINTF_NTOA_BUFFER_SIZE, List.length_append, List.length_replicate]
    have := Nat.min_le_right prec 510
    omega
  refine ⟨h1, ?_⟩
  rw [ntoaPad_length]
  have := Nat.min_le_right prec 510
  have := Nat.min_le_right (ntoaWidth negative width flags) 510
  unfold PRINTF_NTOA_BUFFER_SIZE
  split_ifs <;> omega

theorem ntoaHash_bound (buf : List Nat) (base prec width : Nat) (flags : Flags)
    (h : buf.length ≤ PRINTF_NTOA_BUFFER_SIZE) :
    (ntoaHash buf base prec width flags).length ≤ PRINTF_NTOA_BUFFER_SIZE := by
  unfold PRINTF_NTOA_BUFFER_SIZE at h
  unfold ntoaHash PRINTF_NTOA_BUFFER_SIZE
  simp only []
  split_ifs <;>
    simp only [List.length_append, List.length_singleton, List.length_dropLast,
      Bool.and_eq_true, decide_eq_true_eq] at * <;>
    omega

theorem ntoaSign_bound (buf : List Nat) (negative : Bool) (flags : Flags)
    (h : buf.length ≤ PRINTF_NTOA_BUFFER_SIZE) :
    (ntoaSign buf negative flags).length ≤ PRINTF_NTOA_BUFFER_SIZE := by
  rw [ntoaSign_length]
  unfold PRINTF_NTOA_BUFFER_SIZE at *
  split_ifs <;> omega

theorem ntoaBits_bound (base n v : Nat) (hb : GoodBase base) (hn : 0 < n)
    (hv : v < 2 ^ (8 * n)) (k : Nat) (hk : k < 8 * n) :
    (_bcd_shl (ntoaBits base k [0] (toBytes n v)) base).length ≤ 8 * n ∧
      (ntoaBits base (k + 1) [0] (toBytes n v)).length ≤ 8 * n := by
  obtain ⟨hl, hlt, hval⟩ := toBytes_spec n v
  have hne : toBytes n v ≠ [] := by
    intro h; rw [h] at hl; simp at hl; omega
  have h0 : cellsOf base 0 = [0] := by simp [cellsOf]
  have hs := ntoaBits_spec base hb k 0 (toBytes n v) hlt hne (by omega)
  have hs1 := ntoaBits_spec base hb (k + 1) 0 (toBytes n v) hlt hne (by omega)
  rw [h0] at hs hs1
  have hmod : v % 256 ^ n = v := by
    apply Nat.mod_eq_of_lt
    have : (256 : Nat) ^ n = 2 ^ (8 * n) := by
      rw [show (256 : Nat) = 2 ^ 8 by norm_num, ← pow_mul]
    omega
  rw [hval, hmod, hl] at hs hs1
  simp only [Nat.zero_mul, Nat.zero_add] at hs hs1
  have hq : ∀ j, v / 2 ^ j ≤ v := fun j => Nat.div_le_self _ _
  constructor
  · rw [hs, bcd_shl_cellsOf base _ hb]
    apply cellsOf_length_le base n _ hb hn
    have h1 : v / 2 ^ (8 * n - k) * 2 ^ (8 * n - k) ≤ v := Nat.div_mul_le_self _ _
    have h2 : (2 : Nat) ^ (8 * n - k) = 2 * 2 ^ (8 * n - k - 1) := by
      rw [← pow_succ']; congr 1; omega
    have h3 : 1 ≤ 2 ^ (8 * n - k - 1) := Nat.one_le_two_pow
    rw [h2] at h1
    have h4 : 2 * (v / (2 * 2 ^ (8 * n - k - 1))) ≤
        v / (2 * 2 ^ (8 * n - k - 1)) * (2 * 2 ^ (8 * n - k - 1)) := by
      rw [Nat.mul_comm 2 (v / (2 * 2 ^ (8 * n - k - 1)))]
      exact Nat.mul_le_mul_left _ (by omega)
    rw [h2]
    omega
  · rw [hs1]
    exact cellsOf_length_le base n _ hb hn (lt_of_le_of_lt (hq _) hv)

theorem ntoaDigits_bound (base n v : Nat) (hb : GoodBase base) (hb256 : base < 256)
    (hn : 0 < n) (hv : v < 2 ^ (8 * n)) (flags : Flags) :
    (ntoaDigits (toBytes n v) base flags).length ≤ 8 * n := by
  unfold ntoaDigits
  split_ifs
  · rw [List.length_map, Nat.mod_eq_of_lt hb256, ntoaBits_value base n v hb hn hv]
    exact cellsOf_length_le base n v hb hn hv
  · simp

/-- Claim C11: no store into the scratch buffer happens at an index of 510 or
more.  A store `buf[len++] = c` appends to the list that stands for the
buffer, at the index that is the length before it, so a bound on the length
after each block bounds the index of every store of the block.  For a base in
{2, 8, 10, 16} and a value of 1, 2, 4 or 8 bytes the accumulator of `_ntoa`
never has more than 64 cells, along the whole bit loop; the buffer of
`_ntoa_format` has at most 510 characters after the precision zeros, after
the width zeros, after the prefix and after the sign, which is the length
handed to `_out_rev`; and the buffer `_ftoa` hands to `_out_rev`, which only
ever grows, has at most 510 characters. -/
theorem scratch_within_capacity {F : Type} (P : Platform) (D : DoubleOps F) (b n v : Nat)
    (hb : b = 2 ∨ b = 8 ∨ b = 10 ∨ b = 16) (hn : n = 1 ∨ n = 2 ∨ n = 4 ∨ n = 8)
    (hv : v < 2 ^ (8 * n)) (negative : Bool) (prec width : Nat) (flags : Flags) (value : F) :
    (∀ k, k < 8 * n →
      (_bcd_shl (ntoaBits b k [0] (toBytes n v)) b).length ≤ 64 ∧
        (ntoaBits b (k + 1) [0] (toBytes n v)).length ≤ 64) ∧
    (ntoaDigits (toBytes n v) b flags).length ≤ 64 ∧
    (padZeros (ntoaDigits (toBytes n v) b flags) prec).length ≤ PRINTF_NTOA_BUFFER_SIZE ∧
    (ntoaPad (ntoaDigits (toBytes n v) b flags) negative prec width
      (ntoaFlags (toBytes n v) flags)).length ≤ PRINTF_NTOA_BUFFER_SIZE ∧
    (ntoaHash (ntoaPad (ntoaDigits (toBytes n v) b flags) negative prec width
        (ntoaFlags (toBytes n v) flags)) b prec
      (ntoaWidth negative width (ntoaFlags (toBytes n v) flags))
      (ntoaFlags (toBytes n v) flags)).length ≤ PRINTF_NTOA_BUFFER_SIZE ∧
    (ntoaFormatBuf (ntoaDigits (toBytes n v) b flags) negative b prec width
      (ntoaFlags (toBytes n v) flags)).length ≤ PRINTF_NTOA_BUFFER_SIZE ∧
    (ftoaBuf P D value prec width flags).1.length ≤ PRINTF_FTOA_BUFFER_SIZE := by
  have hg : GoodBase b := by
    unfold GoodBase; rcases hb with h | h | h | h <;> subst h <;> norm_num
  have h256 : b < 256 := by rcases hb with h | h | h | h <;> subst h <;> norm_num
  have hn0 : 0 < n := by rcases hn with h | h | h | h <;> subst h <;> norm_num
  have hn8 : 8 * n ≤ 64 := by rcases hn with h | h | h | h <;> subst h <;> norm_num
  have hd := ntoaDigits_bound b n v hg h256 hn0 hv flags
  have hd510 : (ntoaDigits (toBytes n v) b flags).length ≤ PRINTF_NTOA_BUFFER_SIZE := by
    unfold PRINTF_NTOA_BUFFER_SIZE; omega
  obtain ⟨hp1, hp2⟩ := ntoaPad_bound (ntoaDigits (toBytes n v) b flags) negative prec width
    (ntoaFlags (toBytes n v) flags) hd510
  have hh := ntoaHash_bound _ b prec (ntoaWidth negative width (ntoaFlags (toBytes n v) flags))
    (ntoaFlags (toBytes n v) flags) hp2
  refine ⟨fun k hk => ?_, by omega, hp1, hp2, hh, ?_, ftoaBuf_length P D value prec width flags⟩
  · obtain ⟨h1, h2⟩ := ntoaBits_bound b n v hg hn0 hv k hk
    exact ⟨by omega, by omega⟩
  · unfold ntoaFormatBuf
    exact ntoaSign_bound _ negative _ hh

theorem scratch_within_capacity_witness :
    (∀ k, k < 8 * 2 →
      (_bcd_shl (ntoaBits 16 k [0] (toBytes 2 4660)) 16).length ≤ 64 ∧
        (ntoaBits 16 (k + 1) [0] (toBytes 2 4660)).length ≤ 64) ∧
    (ntoaDigits (toBytes 2 4660) 16 { zeropad := true, hash := true }).length ≤ 64 ∧
    (padZeros (ntoaDigits (toBytes 2 4660) 16 { zeropad := true, hash := true }) 0).length ≤
      PRINTF_NTOA_BUFFER_SIZE ∧
    (ntoaPad (ntoaDigits (toBytes 2 4660) 16 { zeropad := true, hash := true }) false 0 600
      (ntoaFlags (toBytes 2 4660) { zeropad := true, hash := true })).length ≤
        PRINTF_NTOA_BUFFER_SIZE ∧
    (ntoaHash (ntoaPad (ntoaDigits (toBytes 2 4660) 16 { zeropad := true, hash := true })
        false 0 600 (ntoaFlags (toBytes 2 4660) { zeropad := true, hash := true })) 16 0
      (ntoaWidth false 600 (ntoaFlags (toBytes 2 4660) { zeropad := true, hash := true }))
      (ntoaFlags (toBytes 2 4660) { zeropad := true, hash := true })).length ≤
        PRINTF_NTOA_BUFFER_SIZE ∧
    (ntoaFormatBuf (ntoaDigits (toBytes 2 4660) 16 { zeropad := true, hash := true }) false 16
      0 600 (ntoaFlags (toBytes 2 4660) { zeropad := true, hash := true })).length ≤
        PRINTF_NTOA_BUFFER_SIZE ∧
    (ftoaBuf mos noDouble () 0 600 { zeropad := true, hash := true }).1.length ≤
      PRINTF_FTOA_BUFFER_SIZE :=
  scratch_within_capacity mos noDouble 16 2 4660 (by decide) (by decide) (by decide) false 0 600
    { zeropad := true, hash := true } ()

/-- Claim C12: `_out_rev` hands to the sink, in this order, `width - len`
spaces when neither left-align nor zero-pad is set, the `len` characters of
the buffer from the last to the first, and, when left-align is set, spaces
until `width` characters have been written; each goes to the next index from
`idx`.  It returns `idx + max(len, width)` when left-align is set or zero-pad
is clear, and `idx + len` otherwise. -/
theorem out_rev_order {β : Type} (out : out_fct_type β) (buffer : β) (idx maxlen : Nat)
    (buf : List Nat) (width : Nat) (flags : Flags) :
    _out_rev out buffer idx maxlen buf width flags =
        outList out maxlen
          (List.replicate
              (if flags.left = false ∧ flags.zeropad = false then width - buf.length else 0) 32 ++
            buf.reverse ++
            List.replicate (if flags.left = true then width - buf.length else 0) 32)
          (buffer, idx) ∧
      (_out_rev traceOut [] 0 maxlen buf width flags).1 =
        List.replicate
            (if flags.left = false ∧ flags.zeropad = false then width - buf.length else 0) 32 ++
          buf.reverse ++
          List.replicate (if flags.left = true then width - buf.length else 0) 32 ∧
      (_out_rev out buffer idx maxlen buf width flags).2 =
        if flags.left = true ∨ flags.zeropad = false then idx + max buf.length width
        else idx + buf.length := by
  have hc : outRevChars buf width flags =
      List.replicate
          (if flags.left = false ∧ flags.zeropad = false then width - buf.length else 0) 32 ++
        buf.reverse ++
        List.replicate (if flags.left = true then width - buf.length else 0) 32 := by
    rw [outRevChars_pads]
    cases flags.left <;> cases flags.zeropad <;> simp
  refine ⟨?_, ?_, ?_⟩
  · rw [out_rev_eq, hc]
  · rw [out_rev_eq, outList_traceOut, hc]; simp
  · rw [out_rev_eq, outList_idx, outRevChars_length]
    cases flags.left <;> cases flags.zeropad <;> simp

theorem bcdToAscii_zeropad (flags : Flags) (z : Bool) :
    bcdToAscii { flags with zeropad := z } = bcdToAscii flags := by
  funext cell; simp [bcdToAscii]

theorem ntoaFlags_with_zeropad (value : List Nat) (flags : Flags) (z : Bool) :
    ntoaFlags value { flags with zeropad := z } = { ntoaFlags value flags with zeropad := z } := by
  unfold ntoaFlags; split_ifs <;> rfl

theorem ntoaDigits_zeropad (value : List Nat) (base : Nat) (flags : Flags) (z : Bool) :
    ntoaDigits value base { flags with zeropad := z } = ntoaDigits value base flags := by
  unfold ntoaDigits
  rw [ntoaFlags_with_zeropad, bcdToAscii_zeropad]

theorem formatBuf_left_zeropad (buf : List Nat) (negative : Bool) (base prec width : Nat)
    (flags : Flags) (z : Bool) (hl : flags.left = true) :
    ntoaFormatBuf buf negative base prec width { flags with zeropad := z } = ntoaSign
        (ntoaHash buf base prec width flags) negative flags ∧
      ntoaWidth negative width { flags with zeropad := z } = width := by
  constructor
  · simp [ntoaFormatBuf, ntoaPad, ntoaWidth, ntoaHash, ntoaSign, hl]
  · simp [ntoaWidth, hl]

theorem ntoaOutput_left (value : List Nat) (negative : Bool) (base prec width : Nat)
    (flags : Flags) (z : Bool) (hl : flags.left = true) :
    ntoaOutput value negative base prec width { flags with zeropad := z } =
      (ntoaSign (ntoaHash (ntoaDigits value base flags) base prec width (ntoaFlags value flags))
        negative (ntoaFlags value flags)).reverse ++
      List.replicate (width - (ntoaSign (ntoaHash (ntoaDigits value base flags) base prec width
        (ntoaFlags value flags)) negative (ntoaFlags value flags)).length) 32 := by
  have hl1 : (ntoaFlags value flags).left = true := by
    unfold ntoaFlags; split_ifs <;> simp [hl]
  unfold ntoaOutput
  rw [ntoaDigits_zeropad, ntoaFlags_with_zeropad]
  obtain ⟨h1, h2⟩ := formatBuf_left_zeropad (ntoaDigits value base flags) negative base prec
    width (ntoaFlags value flags) z hl1
  rw [h1, h2, outRevChars_pads]
  simp [hl1]

theorem intFlags_with_zeropad (c : Nat) (f : Flags) (z : Bool) :
    intFlags c { f with zeropad := z } =
      { intFlags c { f with zeropad := false } with zeropad := z && !f.precision } := by
  unfold intFlags
  simp only []
  split_ifs <;> simp_all

theorem intFlags_zeropad_left (c : Nat) (f : Flags) (z : Bool) :
    (intFlags c { f with zeropad := z }).left = f.left := by
  unfold intFlags
  simp only []
  split_ifs <;> rfl

theorem intOperand_zeropad (P : Platform) (c : Nat) (f : Flags) (z : Bool) (a : Int) :
    intOperand P c { f with zeropad := z } a = intOperand P c f a := by
  unfold intOperand
  rfl

theorem convIntChars_left {F : Type} (P : Platform) (c : Nat) (d : Directive F) (z : Bool)
    (hl : d.flags.left = true) :
    convIntChars P c { d with flags := { d.flags with zeropad := z } } =
      unpaddedChars P c { d with flags := { d.flags with zeropad := false } } ++
        List.replicate (d.width -
          (unpaddedChars P c { d with flags := { d.flags with zeropad := false } }).length) 32 := by
  unfold convIntChars unpaddedChars
  simp only []
  rw [intFlags_with_zeropad, intOperand_zeropad]
  have hl1 : (intFlags c { d.flags with zeropad := false }).left = true := by
    rw [intFlags_zeropad_left]; exact hl
  rw [ntoaOutput_left _ _ _ _ _ _ _ hl1]
  simp

theorem ntoaHash_zeropad (buf : List Nat) (base prec width : Nat) (flags : Flags) (z : Bool) :
    ntoaHash buf base prec width { flags with zeropad := z } =
      ntoaHash buf base prec width flags := by
  simp [ntoaHash]

theorem ntoaSign_zeropad (buf : List Nat) (negative : Bool) (flags : Flags) (z : Bool) :
    ntoaSign buf negative { flags with zeropad := z } = ntoaSign buf negative flags := by
  simp [ntoaSign]

theorem unpaddedChars_zeropad {F : Type} (P : Platform) (c : Nat) (d : Directive F) (z : Bool) :
    unpaddedChars P c { d with flags := { d.flags with zeropad := z } } =
      unpaddedChars P c { d with flags := { d.flags with zeropad := false } } := by
  unfold unpaddedChars
  simp only []
  rw [intFlags_with_zeropad, intOperand_zeropad, ntoaDigits_zeropad, ntoaFlags_with_zeropad,
    ntoaHash_zeropad, ntoaSign_zeropad]

/-- Claim C13: in an integer conversion with the left-align flag, the zero
flag changes nothing: with and without it the sink receives the same
characters, which are the sign, prefix and digits without any padding zero,
followed by spaces up to the width. -/
theorem left_align_over_zero_pad {β F : Type} (P : Platform) (out : out_fct_type β)
    (maxlen c : Nat) (d : Directive F) (buffer : β) (idx : Nat)
    (hl : d.flags.left = true) :
    convInt P out maxlen c { d with flags := { d.flags with zeropad := true } } buffer idx =
        convInt P out maxlen c { d with flags := { d.flags with zeropad := false } } buffer idx ∧
      ∀ z : Bool,
        convInt P out maxlen c { d with flags := { d.flags with zeropad := z } } buffer idx =
          outList out maxlen
            (unpaddedChars P c d ++
              List.replicate (d.width - (unpaddedChars P c d).length) 32) (buffer, idx) := by
  have hd : unpaddedChars P c { d with flags := { d.flags with zeropad := false } } =
      unpaddedChars P c d := by
    rw [← unpaddedChars_zeropad P c d d.flags.zeropad]
  have h : ∀ z : Bool,
      convInt P out maxlen c { d with flags := { d.flags with zeropad := z } } buffer idx =
        outList out maxlen
          (unpaddedChars P c d ++
            List.replicate (d.width - (unpaddedChars P c d).length) 32) (buffer, idx) := by
    intro z
    rw [convInt_eq, convIntChars_left P c d z hl, hd]
  exact ⟨by rw [h true, h false], h⟩

theorem left_align_over_zero_pad_witness :
    convInt mos traceOut 0 100
        { flags := { ({ left := true } : Flags) with zeropad := true }, width := 5,
          precision := 0, format := [100], va := [(Arg.int (-42) : Arg Unit)] } [] 0 =
      convInt mos traceOut 0 100
        { flags := { ({ left := true } : Flags) with zeropad := false }, width := 5,
          precision := 0, format := [100], va := [(Arg.int (-42) : Arg Unit)] } [] 0 ∧
      ∀ z : Bool,
        convInt mos traceOut 0 100
            { flags := { ({ left := true } : Flags) with zeropad := z }, width := 5,
              precision := 0, format := [100], va := [(Arg.int (-42) : Arg Unit)] } [] 0 =
          outList traceOut 0
            (unpaddedChars mos 100
                ({ flags := { left := true }, width := 5, precision := 0, format := [100],
                   va := [Arg.int (-42)] } : Directive Unit) ++
              List.replicate (5 - (unpaddedChars mos 100
                ({ flags := { left := true }, width := 5, precision := 0, format := [100],
                   va := [Arg.int (-42)] } : Directive Unit)).length) 32) ([], 0) :=
  left_align_over_zero_pad mos traceOut 0 100
    ({ flags := { left := true }, width := 5, precision := 0, format := [100],
       va := [Arg.int (-42)] } : Directive Unit) [] 0 rfl

theorem foldl_digits_le : ∀ (ms : List Nat) (acc : Nat),
    acc ≤ ms.foldl (fun a d => a * 10 + d) acc := by
  intro ms
  induction ms with
  | nil => intro acc; simp
  | cons d ms ih =>
    intro acc
    simp only [List.foldl_cons]
    exact le_trans (by omega) (ih (acc * 10 + d))

theorem atoiLoop_rest (P : Platform) (rest : List Nat) (acc : Nat)
    (hrest : _is_digit (rest.headD 0) = false) : atoiLoop P rest acc = (acc, rest) := by
  cases rest with
  | nil => simp [atoiLoop]
  | cons c cs =>
    simp only [List.headD_cons] at hrest
    simp [atoiLoop, hrest]

theorem atoiLoop_digits (P : Platform) (rest : List Nat)
    (hrest : _is_digit (rest.headD 0) = false) :
    ∀ (ms : List Nat) (acc : Nat), (∀ d ∈ ms, d < 10) →
      ms.foldl (fun a d => a * 10 + d) acc < 2 ^ (8 * P.int_bytes) →
      atoiLoop P (ms.map (digitChar false) ++ rest) acc =
        (ms.foldl (fun a d => a * 10 + d) acc, rest) := by
  intro ms
  induction ms with
  | nil => intro acc _ _; simpa using atoiLoop_rest P rest acc hrest
  | cons d ms ih =>
    intro acc hd hlt
    have hd10 : d < 10 := hd d (List.mem_cons_self _ _)
    simp only [List.foldl_cons] at hlt ⊢
    have hle := foldl_digits_le ms (acc * 10 + d)
    have hc : digitChar false d = 48 + d := by simp [digitChar, hd10]
    have hdig : _is_digit (48 + d) = true := by simp [_is_digit]; omega
    simp only [List.map_cons, List.cons_append, atoiLoop, hc, hdig, if_true]
    rw [show 48 + d - 48 = d by omega, Nat.mod_eq_of_lt (by omega)]
    exact ih _ (fun x hx => hd x (List.mem_cons_of_mem _ hx)) hlt

theorem atoi_numeral (P : Platform) (v : Nat) (rest : List Nat)
    (hrest : _is_digit (rest.headD 0) = false) (hv : v < 2 ^ (8 * P.int_bytes)) :
    _atoi P (numeral 10 false v ++ rest) = (v, rest) := by
  have hg : GoodBase 10 := by unfold GoodBase; norm_num
  have hf : (cellsOf 10 v).reverse.foldl (fun a d => a * 10 + d) 0 = v := by
    rw [List.foldl_reverse]
    have := ofDigits_cellsOf 10 v
    rw [Nat.ofDigits_eq_foldr] at this
    simp only [Nat.cast_id] at this
    refine Eq.trans ?_ this
    congr 1
    funext x y
    ring
  unfold _atoi numeral
  rw [← List.map_reverse]
  rw [atoiLoop_digits P rest hrest _ 0 (fun d hd => cellsOf_lt 10 v hg d (List.mem_reverse.1 hd))
    (by rw [hf]; exact hv), hf]

theorem numeral_isDigit (v : Nat) (rest : List Nat) :
    _is_digit ((numeral 10 false v ++ rest).headD 0) = true := by
  have hg : GoodBase 10 := by unfold GoodBase; norm_num
  have hne : (cellsOf 10 v).reverse ≠ [] := by
    intro h
    have h1 : cellsOf 10 v = [] := by simpa using h
    unfold cellsOf at h1
    split_ifs at h1 with h0
    exact (Nat.digits_ne_nil_iff_ne_zero.2 h0) h1
  unfold numeral
  rw [← List.map_reverse]
  cases hr : (cellsOf 10 v).reverse with
  | nil => exact absurd hr hne
  | cons d ds =>
    have hd : d < 10 := cellsOf_lt 10 v hg d (List.mem_reverse.1 (by rw [hr]; simp))
    simp [digitChar, hd, _is_digit]
    omega

theorem wrapU_nonneg (bits : Nat) (hb : 0 < bits) (w : Int) (h : inRange bits w) (h0 : 0 ≤ w) :
    wrapU bits w = w.toNat := by
  unfold wrapU
  obtain ⟨_, h2⟩ := h
  have e := two_pow_bits bits hb
  have hp : (0 : Int) < 2 ^ (bits - 1) := by positivity
  rw [Int.emod_eq_of_lt h0 (by omega)]

theorem wrapU_neg (bits : Nat) (hb : 0 < bits) (w : Int) (h : inRange bits w) (h0 : w < 0) :
    wrapU bits (-w) = w.natAbs := by
  unfold wrapU
  obtain ⟨h1, _⟩ := h
  have e := two_pow_bits bits hb
  have hp : (0 : Int) < 2 ^ (bits - 1) := by positivity
  rw [Int.emod_eq_of_lt (by omega) (by omega)]
  omega

/-- Claim C14: the width field `*` takes one `int` argument `w` ahead of the
argument of the conversion.  For `w ≥ 0` the directive is left in the state
the width field written as the decimal numeral of `w` leaves it in, and for a
negative `w` other than the most negative `int` in the state the numeral of
`|w|` leaves it in when the left-align flag has been added.  What follows the
field (`rest`) does not start with a digit, so the numeral is the whole
width field. -/
theorem width_star {F : Type} (P : Platform) (hP : 0 < P.int_bytes) (w : Int)
    (hw : inRange (8 * P.int_bytes) w) (rest : List Nat)
    (hrest : _is_digit (rest.headD 0) = false) (va : List (Arg F)) (flags : Flags) :
    (0 ≤ w → evalWidth P (42 :: rest) (Arg.int w :: va) flags =
        evalWidth P (numeral 10 false w.toNat ++ rest) va flags) ∧
      (w < 0 → w ≠ -(2 ^ (8 * P.int_bytes - 1)) →
        evalWidth P (42 :: rest) (Arg.int w :: va) flags =
          evalWidth P (numeral 10 false w.natAbs ++ rest) va { flags with left := true }) ∧
      (evalWidth P (42 :: rest) (Arg.int w :: va) flags).va = va ∧
      (evalWidth P (42 :: rest) (Arg.int w :: va) flags).format = rest := by
  have hb : 0 < 8 * P.int_bytes := by omega
  have hws := wrapS_inRange (8 * P.int_bytes) hb w hw
  have hlt := natAbs_lt (8 * P.int_bytes) hb w hw
  have h42 : _is_digit 42 = false := by decide
  have hL : ∀ fl : Flags, ∀ v : Nat, v < 2 ^ (8 * P.int_bytes) →
      evalWidth P (numeral 10 false v ++ rest) va fl =
        { flags := fl, width := v, precision := 0, format := rest, va := va } := by
    intro fl v hv
    unfold evalWidth
    rw [if_pos (numeral_isDigit v rest), atoi_numeral P v rest hrest hv]
  refine ⟨fun h0 => ?_, fun h0 _ => ?_, ?_, ?_⟩
  · rw [hL flags w.toNat (by have := Int.toNat_of_nonneg h0; omega)]
    unfold evalWidth
    simp only [List.headD_cons, h42, Bool.false_eq_true, if_false, if_true, List.head?_cons,
      argInt, hws, List.tail_cons]
    rw [if_neg (by omega), wrapU_nonneg _ hb w hw h0]
  · rw [hL { flags with left := true } w.natAbs hlt]
    unfold evalWidth
    simp only [List.headD_cons, h42, Bool.false_eq_true, if_false, if_true, List.head?_cons,
      argInt, hws, List.tail_cons]
    rw [if_pos h0, wrapU_neg _ hb w hw h0]
  · unfold evalWidth
    simp only [List.headD_cons, h42, Bool.false_eq_true, if_false, if_true, List.head?_cons,
      argInt, List.tail_cons]
    split_ifs <;> rfl
  · unfold evalWidth
    simp only [List.headD_cons, h42, Bool.false_eq_true, if_false, if_true, List.head?_cons,
      argInt, List.tail_cons]
    split_ifs <;> rfl

theorem width_star_witness :
    inRange (8 * mos.int_bytes) (-5) ∧ _is_digit (([100] : List Nat).headD 0) = false ∧
      evalWidth mos (42 :: [100]) (Arg.int (-5) :: ([] : List (Arg Unit))) {} =
        evalWidth mos (numeral 10 false (-5 : Int).natAbs ++ [100]) [] { left := true } ∧
      (evalWidth mos (42 :: [100]) (Arg.int (-5) :: ([] : List (Arg Unit))) {}).va = [] :=
  ⟨by unfold inRange; decide, by decide,
    (width_star mos (by decide) (-5) (by unfold inRange; decide) [100] (by decide)
      ([] : List (Arg Unit)) {}).2.1 (by decide) (by decide),
    (width_star mos (by decide) (-5) (by unfold inRange; decide) [100] (by decide)
      ([] : List (Arg Unit)) {}).2.2.1⟩

/-- Claim C15: the precision field `.*` takes one `int` argument `p`.  For
`p > 0` the directive is left in the state the precision written as the
decimal numeral of `p` leaves it in; for `p ≤ 0`, negative values included, in
the state the literal precision `.0` leaves it in: precision 0 with the
precision flag set; and a `.` followed by neither a digit nor `*` gives
precision 0 with the flag set as well, and takes no argument.  The precision
is 0 when the field is reached (the source resets it), and what follows the
field (`rest`) does not start with a digit. -/
theorem precision_star {F : Type} (P : Platform) (hP : 0 < P.int_bytes) (p : Int)
    (hp : inRange (8 * P.int_bytes) p) (rest : List Nat)
    (hrest : _is_digit (rest.headD 0) = false) (d : Directive F) (hd : d.precision = 0) :
    (0 < p →
        evalPrecision P { d with format := 46 :: 42 :: rest, va := Arg.int p :: d.va } =
          evalPrecision P { d with format := 46 :: (numeral 10 false p.toNat ++ rest) }) ∧
      (p ≤ 0 →
        evalPrecision P { d with format := 46 :: 42 :: rest, va := Arg.int p :: d.va } =
            evalPrecision P { d with format := 46 :: (numeral 10 false 0 ++ rest) } ∧
          evalPrecision P { d with format := 46 :: 42 :: rest, va := Arg.int p :: d.va } =
            { d with flags := { d.flags with precision := true }, precision := 0,
                     format := rest }) ∧
      (rest.headD 0 ≠ 42 →
        evalPrecision P { d with format := 46 :: rest } =
          { d with flags := { d.flags with precision := true }, precision := 0,
                   format := rest }) := by
  have hb : 0 < 8 * P.int_bytes := by omega
  have hws := wrapS_inRange (8 * P.int_bytes) hb p hp
  have hlt := natAbs_lt (8 * P.int_bytes) hb p hp
  have h42 : _is_digit 42 = false := by decide
  have hpos : 0 < 2 ^ (8 * P.int_bytes) := Nat.pow_pos (by norm_num)
  have hL : ∀ v : Nat, v < 2 ^ (8 * P.int_bytes) →
      evalPrecision P { d with format := 46 :: (numeral 10 false v ++ rest) } =
        { d with flags := { d.flags with precision := true }, precision := v,
                 format := rest } := by
    intro v hv
    unfold evalPrecision
    simp only [List.headD_cons, if_true, List.tail_cons]
    rw [if_pos (numeral_isDigit v rest), atoi_numeral P v rest hrest hv]
  have hS : evalPrecision P { d with format := 46 :: 42 :: rest, va := Arg.int p :: d.va } =
      { d with flags := { d.flags with precision := true },
               precision := if p > 0 then wrapU (8 * P.int_bytes) p else 0,
               format := rest } := by
    unfold evalPrecision
    simp only [List.headD_cons, if_true, List.tail_cons, h42, Bool.false_eq_true, if_false,
      List.head?_cons, argInt, hws]
  refine ⟨fun h0 => ?_, fun h0 => ?_, fun h0 => ?_⟩
  · rw [hL p.toNat (by have := Int.toNat_of_nonneg (le_of_lt h0); omega), hS, if_pos h0,
      wrapU_nonneg _ hb p hp (le_of_lt h0)]
  · rw [hL 0 hpos, hS, if_neg (by omega)]
    exact ⟨rfl, rfl⟩
  · unfold evalPrecision
    simp only [List.headD_cons, if_true, List.tail_cons, hrest, Bool.false_eq_true, if_false,
      h0]
    rw [← hd]

theorem precision_star_witness :
    inRange (8 * mos.int_bytes) (-3) ∧
      evalPrecision mos
          ({ flags := {}, width := 0, precision := 0, format := 46 :: 42 :: [100],
             va := [Arg.int (-3), Arg.int 7] } : Directive Unit) =
        { flags := { precision := true }, width := 0, precision := 0, format := [100],
          va := [Arg.int 7] } :=
  ⟨by unfold inRange; decide,
    ((precision_star mos (by decide) (-3) (by unfold inRange; decide) [100] (by decide)
      ({ flags := {}, width := 0, precision := 0, format := [], va := [Arg.int 7] } :
        Directive Unit) rfl).2.1 (by decide)).2⟩

theorem intFlags_unsigned (c : Nat) (f : Flags) (pl sp : Bool)
    (hc : c = 117 ∨ c = 120 ∨ c = 88 ∨ c = 111 ∨ c = 98) :
    intFlags c { f with plus := pl, space := sp } = intFlags c f := by
  have h : c ≠ 105 ∧ c ≠ 100 := by
    rcases hc with h | h | h | h | h <;> subst h <;> decide
  unfold intFlags
  simp only []
  rw [if_pos h, if_pos h]
  split_ifs <;> rfl

theorem intFlags_precision_zeropad (c : Nat) (f : Flags) (z : Bool)
    (hp : f.precision = true) : intFlags c { f with zeropad := z } = intFlags c f := by
  cases f
  simp only at hp
  subst hp
  unfold intFlags
  simp only []
  split_ifs <;> simp_all

/-- Claim C16: the conversions `u x X o b` print the same with and without the
`+` and the space flag, and an integer conversion with an explicit precision
prints the same with and without the `0` flag: the sink is left in the same
state, for every value, width, precision and sink. -/
theorem flags_suppressed {β F : Type} (P : Platform) (out : out_fct_type β) (maxlen c : Nat)
    (d : Directive F) (buffer : β) (idx : Nat) :
    (c = 117 ∨ c = 120 ∨ c = 88 ∨ c = 111 ∨ c = 98 → ∀ pl sp : Bool,
        convInt P out maxlen c { d with flags := { d.flags with plus := pl, space := sp } }
            buffer idx =
          convInt P out maxlen c d buffer idx) ∧
      (d.flags.precision = true → ∀ z : Bool,
        convInt P out maxlen c { d with flags := { d.flags with zeropad := z } } buffer idx =
          convInt P out maxlen c d buffer idx) := by
  constructor
  · intro hc pl sp
    unfold convInt
    simp only []
    rw [intFlags_unsigned c d.flags pl sp hc]
  · intro hp z
    unfold convInt
    simp only []
    rw [intFlags_precision_zeropad c d.flags z hp]

theorem flags_suppressed_witness :
    (∀ pl sp : Bool,
        convInt mos traceOut 0 120
            { flags := { ({ hash := true } : Flags) with plus := pl, space := sp }, width := 6,
              precision := 0, format := [120], va := [(Arg.int 255 : Arg Unit)] } [] 0 =
          convInt mos traceOut 0 120
            { flags := { hash := true }, width := 6, precision := 0, format := [120],
              va := [(Arg.int 255 : Arg Unit)] } [] 0) ∧
      (∀ z : Bool,
        convInt mos traceOut 0 100
            { flags := { ({ precision := true } : Flags) with zeropad := z }, width := 6,
              precision := 3, format := [100], va := [(Arg.int 42 : Arg Unit)] } [] 0 =
          convInt mos traceOut 0 100
            { flags := { precision := true }, width := 6, precision := 3, format := [100],
              va := [(Arg.int 42 : Arg Unit)] } [] 0) :=
  ⟨(flags_suppressed mos traceOut 0 120
      ({ flags := { hash := true }, width := 6, precision := 0, format := [120],
         va := [Arg.int 255] } : Directive Unit) [] 0).1 (by decide),
    (flags_suppressed mos traceOut 0 100
      ({ flags := { precision := true }, width := 6, precision := 3, format := [100],
         va := [Arg.int 42] } : Directive Unit) [] 0).2 rfl⟩

theorem out_char_eq : _out_char = _out_fct (fun c a => a ++ [c]) := rfl

theorem outList_out_fct {α : Type} (fct : Nat → α → α) (maxlen : Nat) :
    ∀ (cs : List Nat) (s : α × Nat),
      outList (_out_fct fct) maxlen cs s =
        (deliver fct (cs.filter (fun c => c != 0)) s.1, s.2 + cs.length) := by
  intro cs
  induction cs with
  | nil => intro s; simp [outList, deliver]
  | cons c cs ih =>
    intro s
    rw [outList_cons, ih]
    by_cases hc : c = 0
    · subst hc
      simp [_out_fct, deliver]
      omega
    · simp [_out_fct, deliver, hc, List.filter_cons]
      omega

theorem deliver_append (cs : List Nat) (stream : List Nat) :
    deliver (fun c a => a ++ [c]) cs stream = stream ++ cs := by
  unfold deliver
  induction cs generalizing stream with
  | nil => simp
  | cons c cs ih => simp [ih]

theorem out_buffer_frame (c : Nat) (buf : List Nat) (i n : Nat) :
    (_out_buffer c buf i n).length = buf.length ∧
      ∀ j, n ≤ j → (_out_buffer c buf i n)[j]? = buf[j]? := by
  unfold _out_buffer
  split_ifs with h
  · refine ⟨by simp, fun j hj => ?_⟩
    rw [List.getElem?_set]
    rw [if_neg (by omega)]
  · exact ⟨rfl, fun _ _ => rfl⟩

theorem is_zero_toBytes (n : Nat) : _is_zero (toBytes n 0) = true := by
  rw [is_zero_spec, (toBytes_spec n 0).2.2]
  simp

theorem ntoaHash_nohash (buf : List Nat) (base prec width : Nat) (flags : Flags)
    (h : flags.hash = false) : ntoaHash buf base prec width flags = buf := by
  simp [ntoaHash, h]

/-- Claim C19, amended: for the magnitude zero, in each base and for every
flag, width and precision setting, `_ntoa` clears the alternate-form flag, so
the second block of `_ntoa_format` adds no prefix and the output consists of
spaces, a sign and zeros only.  The digits of the value, before any padding,
are the single digit `0` when no precision is given, and none at all when a
precision is given explicitly: the zeros of the output are then those of the
precision padding. -/
theorem zero_value_digits (b n : Nat) (hb : b = 2 ∨ b = 8 ∨ b = 10 ∨ b = 16)
    (hn : n = 1 ∨ n = 2 ∨ n = 4 ∨ n = 8) (negative : Bool) (prec width : Nat)
    (flags : Flags) :
    ntoaDigits (toBytes n 0) b flags = (if flags.precision = true then [] else [48]) ∧
      (ntoaFlags (toBytes n 0) flags).hash = false ∧
      (∀ (buf : List Nat) (w : Nat),
        ntoaHash buf b prec w (ntoaFlags (toBytes n 0) flags) = buf) ∧
      ∀ c ∈ ntoaChars (toBytes n 0) negative b prec width flags,
        c = 32 ∨ c = 48 ∨ c = 45 ∨ c = 43 := by
  have hg : GoodBase b := by
    unfold GoodBase; rcases hb with h | h | h | h <;> subst h <;> norm_num
  have h16 : b ≤ 16 := by rcases hb with h | h | h | h <;> subst h <;> norm_num
  have hn0 : 0 < n := by rcases hn with h | h | h | h <;> subst h <;> norm_num
  have hz := is_zero_toBytes n
  have hh : (ntoaFlags (toBytes n 0) flags).hash = false := by
    unfold ntoaFlags; rw [if_pos hz]
  have hd : ntoaDigits (toBytes n 0) b flags = (if flags.precision = true then [] else [48]) := by
    split_ifs with hp
    · exact ntoaDigits_zero b n flags hp
    · rw [ntoaDigits_value b n 0 hg h16 hn0 (Nat.pow_pos (by norm_num)) flags
        (Or.inl (by simpa using hp))]
      simp [cellsOf, digitChar]
  refine ⟨hd, hh, fun buf w => ntoaHash_nohash buf b prec w _ hh, ?_⟩
  intro c hc
  rw [ntoaChars_eq] at hc
  unfold ntoaOutput at hc
  rw [outRevChars_pads] at hc
  unfold ntoaFormatBuf at hc
  rw [ntoaHash_nohash _ _ _ _ _ hh] at hc
  obtain ⟨sx, hsx, hsc⟩ := ntoaSign_ext
    (ntoaPad (ntoaDigits (toBytes n 0) b flags) negative prec width
      (ntoaFlags (toBytes n 0) flags)) negative (ntoaFlags (toBytes n 0) flags)
  rw [hsx] at hc
  have hpad : ∀ x ∈ ntoaPad (ntoaDigits (toBytes n 0) b flags) negative prec width
      (ntoaFlags (toBytes n 0) flags), x = 48 := by
    intro x hx
    rw [hd] at hx
    unfold ntoaPad padZeros at hx
    split_ifs at hx <;>
      simp only [List.mem_append, List.mem_replicate, List.mem_singleton,
        List.not_mem_nil, false_or, or_false] at hx <;>
      omega
  simp only [List.mem_append, List.mem_replicate, List.mem_reverse] at hc
  rcases hc with ((⟨_, h⟩ | h | h) | ⟨_, h⟩)
  · exact Or.inl h
  · exact Or.inr (Or.inl (hpad c h))
  · rcases hsc c h with h | h | h
    · exact Or.inr (Or.inr (Or.inl h))
    · exact Or.inr (Or.inr (Or.inr h))
    · exact Or.inl h
  · exact Or.inl h

theorem zero_value_digits_witness :
    ntoaDigits (toBytes 2 0) 16 { hash := true } =
        (if ({ hash := true } : Flags).precision = true then [] else [48]) ∧
      (ntoaFlags (toBytes 2 0) { hash := true }).hash = false ∧
      (∀ (buf : List Nat) (w : Nat),
        ntoaHash buf 16 0 w (ntoaFlags (toBytes 2 0) { hash := true }) = buf) ∧
      ∀ c ∈ ntoaChars (toBytes 2 0) false 16 0 6 { hash := true },
        c = 32 ∨ c = 48 ∨ c = 45 ∨ c = 43 :=
  zero_value_digits 16 2 (by decide) (by decide) false 0 6 { hash := true }

/-- Claim C19 as stated fails: with an explicit precision the value zero
leaves no digit in the scratch buffer, and `%.0d` of 0 prints nothing. -/
theorem zero_value_counterexample :
    ntoaDigits (toBytes 2 0) 10 { precision := true } = [] ∧
      logicalOutput mos noDouble [37, 46, 48, 100] [Arg.int 0] = some [] := by
  decide

/-- Claim C20 fails on the code.  In exact arithmetic `%.1f` of 0.95 has the
scaled fraction 9.5: the remainder is exactly one half, the branch for the
halfway case adds one to the odd 9 and does not test for the rollover, so the
fraction becomes 10 and is written with two digits; the digit count wraps
below zero and zeros fill the scratch buffer, which leaves no room for the
decimal point and the whole part.  For 0.96 the branch `diff > 0.5` carries
into the whole part and the output is `1.0`. -/
theorem ftoa_tie_without_carry :
    logicalOutput mos exactOps [37, 46, 49, 102] [Arg.dbl (19 / 20)] =
        some (List.replicate 508 48 ++ [49, 48]) ∧
      logicalOutput mos exactOps [37, 46, 49, 102] [Arg.dbl (24 / 25)] = some [49, 46, 48] := by
  decide!

theorem exact_toInt (r : ℚ) (h : 0 ≤ r) : exactOps.toInt r = ⌊r⌋ := by
  show Int.tdiv r.num r.den = ⌊r⌋
  rw [Rat.floor_def, Int.tdiv_eq_ediv (Rat.num_nonneg.2 h) (by positivity)]

theorem ftoaFracLoop_digits (bits : Nat) : ∀ (room : Nat) (buf : List Nat) (frac count m : Nat),
    frac < 10 ^ m → 1 ≤ m → m ≤ count → count < 2 ^ bits → m ≤ room →
    ∃ ds : List Nat, ftoaFracLoop bits room buf frac count = (buf ++ ds, count - ds.length) ∧
      1 ≤ ds.length ∧ ds.length ≤ m ∧ ∀ c ∈ ds, 48 ≤ c ∧ c ≤ 57 := by
  intro room
  induction room with
  | zero => intro buf frac count m _ h1 _ _ h2; omega
  | succ r ih =>
    intro buf frac count m hf h1 hmc hcb hmr
    have hc1 : (count + 2 ^ bits - 1) % 2 ^ bits = count - 1 := by
      rw [show count + 2 ^ bits - 1 = (count - 1) + 2 ^ bits by omega, Nat.add_mod_right]
      exact Nat.mod_eq_of_lt (by omega)
    have hch : (48 + frac % 10) % 256 = 48 + frac % 10 := Nat.mod_eq_of_lt (by omega)
    unfold ftoaFracLoop
    simp only [hc1, hch]
    split_ifs with h0
    · exact ⟨[48 + frac % 10], rfl, by simp, by simpa using h1, by
        intro c hc; simp at hc; omega⟩
    · have hm2 : 2 ≤ m := by
        by_contra hlt
        have : m = 1 := by omega
        subst this
        simp at hf
        omega
      have hf2 : frac / 10 < 10 ^ (m - 1) := by
        apply Nat.div_lt_of_lt_mul
        rw [← pow_succ']
        rwa [show m - 1 + 1 = m by omega]
      obtain ⟨ds, hds, hl1, hl2, hdig⟩ := ih (buf ++ [48 + frac % 10]) (frac / 10) (count - 1)
        (m - 1) hf2 (by omega) (by omega) (by omega) (by omega)
      refine ⟨(48 + frac % 10) :: ds, ?_, by simp, by simp; omega, ?_⟩
      · rw [hds]; simp; omega
      · intro c hc
        simp only [List.mem_cons] at hc
        rcases hc with h | h
        · omega
        · exact hdig c h

theorem ftoaWholeLoop_digits : ∀ (room : Nat) (buf : List Nat) (whole : Int), 0 ≤ whole →
    ∃ ws : List Nat, ftoaWholeLoop room buf whole = buf ++ ws ∧ ∀ c ∈ ws, 48 ≤ c ∧ c ≤ 57 := by
  intro room
  induction room with
  | zero => intro buf whole _; exact ⟨[], by simp [ftoaWholeLoop], by simp⟩
  | succ r ih =>
    intro buf whole hw
    have hmod : wrapU 8 (48 + Int.tmod whole 10) = 48 + (whole % 10).toNat := by
      unfold wrapU
      rw [Int.tmod_eq_emod hw (by norm_num)]
      have h1 : 0 ≤ whole % 10 := Int.emod_nonneg _ (by norm_num)
      have h2 : whole % 10 < 10 := Int.emod_lt_of_pos _ (by norm_num)
      rw [Int.emod_eq_of_lt (by omega) (by norm_num; omega)]
      omega
    have h1 : 0 ≤ whole % 10 := Int.emod_nonneg _ (by norm_num)
    have h2 : whole % 10 < 10 := Int.emod_lt_of_pos _ (by norm_num)
    unfold ftoaWholeLoop
    simp only [hmod]
    split_ifs with h0
    · exact ⟨[48 + (whole % 10).toNat], rfl, by intro c hc; simp at hc; omega⟩
    · obtain ⟨ws, hws, hdig⟩ := ih (buf ++ [48 + (whole % 10).toNat]) (Int.tdiv whole 10)
        (by rw [Int.tdiv_eq_ediv hw (by norm_num)]; omega)
      refine ⟨(48 + (whole % 10).toNat) :: ws, by rw [hws]; simp, ?_⟩
      intro c hc
      simp only [List.mem_cons] at hc
      rcases hc with h | h
      · omega
      · exact hdig c h

theorem ftoaBuf_exact (P : Platform) (q : ℚ) (p width : Nat) (flags : Flags)
    (hp : flags.precision = true) (hp1 : 1 ≤ p) (hp2 : p ≤ 490)
    (hint : |q| + 1 < 2 ^ (8 * P.int_bytes - 1)) (hib : 1 ≤ P.int_bytes)
    (hlong : 4 ≤ P.long_bytes)
    (hno : (|q| - ⌊|q|⌋) * 10 ^ (min p 9) ≠ 10 ^ (min p 9) - 1 / 2) :
    ∃ fs ts : List Nat, (ftoaBuf P exactOps q p width flags).1 = fs ++ [46] ++ ts ∧
      fs.length = p ∧ (∀ c ∈ fs, 48 ≤ c ∧ c ≤ 57) ∧ 46 ∉ ts := by
  unfold ftoaBuf
  lift_lets
  extract_lets ibits negative value1 prec1 k buf0 prec2 whole0 tmp frac0 diff frac1 fw frac
    whole1 diff2 r b1 bw buf2 width1 buf3 buf4
  show ∃ fs ts : List Nat, buf4 = fs ++ [46] ++ ts ∧ _
  have hv : value1 = |q| := by
    simp only [value1, negative, exactOps, decide_eq_true_eq]
    split_ifs with h
    · simp only [Int.cast_zero] at h ⊢
      rw [abs_of_neg h]; ring
    · simp only [Int.cast_zero, not_lt] at h
      rw [abs_of_nonneg h]
  have hv0 : (0 : ℚ) ≤ value1 := by rw [hv]; exact abs_nonneg q
  have hprec1 : prec1 = p := by simp [prec1, hp]
  have hk : k = p - 9 := by
    simp only [k, hprec1, PRINTF_FTOA_BUFFER_SIZE]; omega
  have hprec2 : prec2 = min p 9 := by
    simp only [prec2, hprec1, hk]; omega
  have hprec9 : prec2 ≤ 9 := by omega
  have hprec0 : 1 ≤ prec2 := by omega
  have hibits : 8 ≤ ibits := by simp only [ibits]; omega
  have hfl0 : 0 ≤ ⌊value1⌋ := Int.floor_nonneg.2 hv0
  have hflq : ((⌊value1⌋ : ℤ) : ℚ) + 1 < 2 ^ (ibits - 1) := by
    have := Int.floor_le value1
    rw [hv] at this ⊢
    simp only [ibits]
    linarith
  have hfl1 : ⌊value1⌋ + 1 < 2 ^ (ibits - 1) := by exact_mod_cast hflq
  have hpos : (0 : ℤ) < 2 ^ (ibits - 1) := by positivity
  have hw0 : whole0 = ⌊value1⌋ := by
    simp only [whole0]
    rw [exact_toInt value1 hv0]
    exact wrapS_inRange ibits (by omega) _ ⟨by omega, by omega⟩
  have hpow : pow10 exactOps prec2 = (10 : ℚ) ^ prec2 := by
    unfold pow10
    rw [if_pos hprec9]
    show ((10 ^ prec2 : ℤ) : ℚ) = _
    push_cast
    rfl
  have htmp : tmp = Int.fract value1 * 10 ^ prec2 := by
    simp only [tmp, hpow, hw0]
    rfl
  have hten : (0 : ℚ) < 10 ^ prec2 := by positivity
  have htmp0 : 0 ≤ tmp := by
    rw [htmp]; exact mul_nonneg (Int.fract_nonneg _) (le_of_lt hten)
  have htmp1 : tmp < 10 ^ prec2 := by
    rw [htmp]
    calc Int.fract value1 * 10 ^ prec2 < 1 * 10 ^ prec2 :=
          mul_lt_mul_of_pos_right (Int.fract_lt_one _) hten
      _ = 10 ^ prec2 := one_mul _
  have hft0 : 0 ≤ ⌊tmp⌋ := Int.floor_nonneg.2 htmp0
  have hft1 : ⌊tmp⌋ < 10 ^ prec2 := by
    have h1 := Int.floor_le tmp
    have h2 : ((⌊tmp⌋ : ℤ) : ℚ) < ((10 ^ prec2 : ℤ) : ℚ) := by push_cast; linarith
    exact_mod_cast h2
  have h109 : (10 : ℤ) ^ prec2 ≤ 10 ^ 9 := pow_le_pow_right₀ (by norm_num) hprec9
  have hlb : (2 : ℤ) ^ 32 ≤ 2 ^ (8 * P.long_bytes) :=
    pow_le_pow_right₀ (by norm_num) (by omega)
  have hfrac0 : (frac0 : ℤ) = ⌊tmp⌋ := by
    simp only [frac0, wrapU]
    rw [exact_toInt tmp htmp0, Int.emod_eq_of_lt hft0 (by norm_num at hlb h109 ⊢; omega)]
    exact Int.toNat_of_nonneg hft0
  have hdiff : diff = Int.fract tmp := by
    simp only [diff]
    show tmp - ((frac0 : ℤ) : ℚ) = _
    rw [hfrac0]; rfl
  have hfracN : frac0 < 10 ^ prec2 := by
    have h : (frac0 : ℤ) < 10 ^ prec2 := by rw [hfrac0]; exact hft1
    exact_mod_cast h
  have h109N : 10 ^ prec2 ≤ 10 ^ 9 := Nat.pow_le_pow_right (by norm_num) hprec9
  have hlbN : 2 ^ 32 ≤ 2 ^ (8 * P.long_bytes) := Nat.pow_le_pow_right (by norm_num) (by omega)
  have hmod1 : (frac0 + 1) % 2 ^ (8 * P.long_bytes) = frac0 + 1 :=
    Nat.mod_eq_of_lt (by norm_num at hlbN h109N ⊢; omega)
  have hws1 : wrapS ibits (whole0 + 1) = whole0 + 1 := by
    rw [hw0]
    exact wrapS_inRange ibits (by omega) _ ⟨by omega, by omega⟩
  have hfw : fw.1 < 10 ^ prec2 ∧ 0 ≤ fw.2 := by
    simp only [fw, frac1, hmod1, hws1]
    split_ifs with h1 h2 h3 h4
    · exact ⟨Nat.pow_pos (by norm_num), by rw [hw0]; omega⟩
    · refine ⟨?_, by rw [hw0]; exact hfl0⟩
      rw [hpow] at h2
      simp only [exactOps, decide_eq_true_eq, not_le] at h2
      have h2b : (((frac0 + 1 : ℕ) : ℤ) : ℚ) < (((10 ^ prec2 : ℕ) : ℤ) : ℚ) := by
        push_cast at h2 ⊢; exact h2
      exact_mod_cast h2b
    · exact ⟨hfracN, by rw [hw0]; exact hfl0⟩
    · refine ⟨?_, by rw [hw0]; exact hfl0⟩
      simp only [exactOps, decide_eq_true_eq, not_lt] at h1 h3
      have hd : diff = 1 / 2 := by
        have e : (0.5 : ℚ) = 1 / 2 := by norm_num
        rw [e] at h1 h3
        exact le_antisymm h1 h3
      have hne : frac0 + 1 ≠ 10 ^ prec2 := by
        intro hcon
        apply hno
        rw [← hprec2, ← hv, Int.self_sub_floor, ← htmp]
        have e1 : tmp = ((frac0 : ℤ) : ℚ) + 1 / 2 := by
          have := Int.floor_add_fract tmp
          rw [← hdiff, hd, ← hfrac0] at this
          exact this.symm
        have e2 : ((10 : ℚ) ^ prec2) = ((frac0 : ℤ) : ℚ) + 1 := by
          have : (((frac0 + 1 : ℕ) : ℤ) : ℚ) = (((10 ^ prec2 : ℕ) : ℤ) : ℚ) := by rw [hcon]
          push_cast at this
          exact this.symm
        rw [e1, e2]; ring
      omega
    · exact ⟨hfracN, by rw [hw0]; exact hfl0⟩
  have hb0 : buf0.length = p - 9 := by simp only [buf0, List.length_replicate, hk]
  have hbits : prec2 < 2 ^ ibits := by
    have : 2 ^ 8 ≤ 2 ^ ibits := Nat.pow_le_pow_right (by norm_num) hibits
    norm_num at this
    omega
  obtain ⟨ds, hr, hl1, hl2, hdig⟩ := ftoaFracLoop_digits ibits
    (PRINTF_FTOA_BUFFER_SIZE - buf0.length) buf0 frac prec2 prec2 hfw.1 hprec0 le_rfl hbits
    (by rw [hb0]; unfold PRINTF_FTOA_BUFFER_SIZE; omega)
  have hb1 : b1 = buf0 ++ ds ++ List.replicate (prec2 - ds.length) 48 := by
    simp only [b1, r, hr, ftoaCountZeros]
    congr 2
    simp only [List.length_append, hb0, PRINTF_FTOA_BUFFER_SIZE]
    omega
  have hb1len : b1.length = p := by
    rw [hb1]
    simp only [List.length_append, List.length_replicate, hb0]
    omega
  have hb1dig : ∀ c ∈ b1, 48 ≤ c ∧ c ≤ 57 := by
    intro c hc
    rw [hb1] at hc
    simp only [List.mem_append, List.mem_replicate, buf0] at hc
    rcases hc with (⟨_, h⟩ | h) | ⟨_, h⟩
    · omega
    · exact hdig c h
    · omega
  have hbw : bw = (b1 ++ [46], whole1) := by
    simp only [bw]
    rw [if_neg (by omega), if_pos (by rw [hb1len]; unfold PRINTF_FTOA_BUFFER_SIZE; omega)]
  obtain ⟨ws, hws, hwdig⟩ := ftoaWholeLoop_digits (PRINTF_FTOA_BUFFER_SIZE - bw.1.length) bw.1
    bw.2 (by rw [hbw]; exact hfw.2)
  have hbuf2 : buf2 = b1 ++ [46] ++ ws := by
    simp only [buf2]
    rw [hws, hbw]
  have hbuf3 : ∃ zs : List Nat, buf3 = b1 ++ [46] ++ zs ∧ 46 ∉ zs := by
    simp only [buf3, hbuf2]
    split_ifs
    · refine ⟨ws ++ List.replicate
        (min width1 PRINTF_FTOA_BUFFER_SIZE - (b1 ++ [46] ++ ws).length) 48, by simp, ?_⟩
      intro h
      simp only [List.mem_append, List.mem_replicate] at h
      rcases h with h | ⟨_, h⟩
      · have := hwdig 46 h; omega
      · omega
    · exact ⟨ws, rfl, fun h => by have := hwdig 46 h; omega⟩
  obtain ⟨zs, hzs, hz46⟩ := hbuf3
  have hsg : ∀ x : Nat, x ≠ 46 → 46 ∉ zs ++ [x] := by
    intro x hx h
    simp only [List.mem_append, List.mem_singleton] at h
    rcases h with h | h
    · exact hz46 h
    · exact hx h.symm
  simp only [buf4, hzs]
  split_ifs
  · exact ⟨b1, zs ++ [45], by simp, hb1len, hb1dig, hsg 45 (by norm_num)⟩
  · exact ⟨b1, zs ++ [43], by simp, hb1len, hb1dig, hsg 43 (by norm_num)⟩
  · exact ⟨b1, zs ++ [32], by simp, hb1len, hb1dig, hsg 32 (by norm_num)⟩
  · exact ⟨b1, zs, rfl, hb1len, hb1dig, hz46⟩
  · exact ⟨b1, zs, rfl, hb1len, hb1dig, hz46⟩

theorem exact_not_special (q : ℚ) (hq : |q| ≤ 10 ^ 9) :
    exactOps.ne q q = false ∧ exactOps.lt q (exactOps.neg exactOps.dblMax) = false ∧
      exactOps.lt exactOps.dblMax q = false ∧ ftoaIsLarge exactOps q = false := by
  have h1 := (abs_le.1 hq).1
  have h2 := (abs_le.1 hq).2
  have hm : (10 : ℚ) ^ 9 < (2 ^ 53 - 1) * 2 ^ 971 := by norm_num
  refine ⟨by simp [exactOps], ?_, ?_, ?_⟩
  · simp only [exactOps, decide_eq_false_iff_not, not_lt]; linarith
  · simp only [exactOps, decide_eq_false_iff_not, not_lt]; linarith
  · simp only [ftoaIsLarge, PRINTF_MAX_FLOAT, exactOps, Bool.or_eq_false_iff,
      decide_eq_false_iff_not, not_lt]
    constructor <;> linarith

/-- Where `_ftoa` is right (the double arithmetic carried out exactly): for a
value of magnitude at most 1e9 whose whole part, with room for a carry, fits
`int`, an explicit precision `p` from 1 to 490 and any width and flags, the
output has exactly one decimal point, followed by exactly `p` digits and then
only spaces, unless the fraction scaled by ten to the `min p 9` is one half
below that power: the halfway case in which all the decimals are 9. -/
theorem ftoa_fixed_form {β : Type} (P : Platform) (q : ℚ) (p width : Nat) (flags : Flags)
    (hp : flags.precision = true) (hp1 : 1 ≤ p) (hp2 : p ≤ 490) (hq : |q| ≤ 10 ^ 9)
    (hint : |q| + 1 < 2 ^ (8 * P.int_bytes - 1)) (hib : 1 ≤ P.int_bytes)
    (hlong : 4 ≤ P.long_bytes)
    (hno : (|q| - ⌊|q|⌋) * 10 ^ (min p 9) ≠ 10 ^ (min p 9) - 1 / 2)
    (out : out_fct_type β) (buffer : β) (idx maxlen : Nat) :
    ∃ pre digs post : List Nat,
      _ftoa P exactOps out maxlen FLOAT_DEPTH buffer idx q p width flags =
          some (outList out maxlen (pre ++ [46] ++ digs ++ post) (buffer, idx)) ∧
        digs.length = p ∧ (∀ c ∈ digs, 48 ≤ c ∧ c ≤ 57) ∧ 46 ∉ pre ∧ ∀ c ∈ post, c = 32 := by
  obtain ⟨h1, h2, h3, h4⟩ := exact_not_special q hq
  obtain ⟨fs, ts, hbuf, hlen, hdig, h46⟩ :=
    ftoaBuf_exact P q p width flags hp hp1 hp2 hint hib hlong hno
  refine ⟨List.replicate (if !flags.left && !flags.zeropad then
      (ftoaBuf P exactOps q p width flags).2 - (fs ++ [46] ++ ts).length else 0) 32 ++
      ts.reverse, fs.reverse,
    List.replicate (if flags.left then
      (ftoaBuf P exactOps q p width flags).2 - (fs ++ [46] ++ ts).length else 0) 32,
    ?_, by simpa using hlen, ?_, ?_, ?_⟩
  · unfold FLOAT_DEPTH _ftoa
    rw [if_neg (by simp [h1]), if_neg (by simp [h2]), if_neg (by simp [h3]),
      if_neg (by simp [h4]), out_rev_eq, outRevChars_pads, hbuf]
    simp
  · intro c hc
    exact hdig c (List.mem_reverse.1 hc)
  · intro h
    simp only [List.mem_append, List.mem_replicate, List.mem_reverse] at h
    rcases h with ⟨_, h⟩ | h
    · omega
    · exact h46 h
  · intro c hc
    exact (List.mem_replicate.1 hc).2

theorem ftoa_fixed_form_witness :
    ∃ pre digs post : List Nat,
      _ftoa mos exactOps traceOut 0 FLOAT_DEPTH [] 0 (5 / 4) 1 0 { precision := true } =
          some (outList traceOut 0 (pre ++ [46] ++ digs ++ post) ([], 0)) ∧
        digs.length = 1 ∧ (∀ c ∈ digs, 48 ≤ c ∧ c ≤ 57) ∧ 46 ∉ pre ∧ ∀ c ∈ post, c = 32 :=
  ftoa_fixed_form mos (5 / 4) 1 0 { precision := true } rfl (by decide) (by decide)
    (by rw [abs_of_nonneg (by norm_num : (0 : ℚ) ≤ 5 / 4)]; norm_num)
    (by rw [abs_of_nonneg (by norm_num : (0 : ℚ) ≤ 5 / 4)]; norm_num [mos])
    (by decide) (by decide)
    (by
      rw [abs_of_nonneg (by norm_num : (0 : ℚ) ≤ 5 / 4),
        show ⌊(5 / 4 : ℚ)⌋ = 1 from Int.floor_eq_iff.2 ⟨by norm_num, by norm_num⟩]
      norm_num)
    traceOut [] 0 0

theorem cellsOf_noLeadingZero (base N : Nat) : NoLeadingZero (cellsOf base N) := by
  by_cases hN : N = 0
  · left; simp [cellsOf, hN]
  · right; exact cellsOf_last base N hN

theorem accumulator_eq_cellsOf (base : Nat) (hb : GoodBase base) (cells : List Nat)
    (hne : cells ≠ []) (hlt : ∀ x ∈ cells, x < base) (hlast : NoLeadingZero cells) :
    cells = cellsOf base (Nat.ofDigits base cells) := by
  rcases hlast with h | h
  · subst h; simp [cellsOf]
  · exact eq_cellsOf base hb cells hne hlt h

theorem bcd_shl_length (base : Nat) (hb : GoodBase base) (cells : List Nat)
    (hlt : ∀ x ∈ cells, x < base) :
    cells.length ≤ (_bcd_shl cells base).length ∧
      (_bcd_shl cells base).length ≤ cells.length + 1 := by
  have h := (bcdShlLoop_spec base hb cells false hlt).1
  unfold _bcd_shl
  simp only []
  split_ifs <;> simp [h]

theorem bcd_inc_length (base : Nat) (hb : GoodBase base) (cells : List Nat)
    (hlt : ∀ x ∈ cells, x < base) :
    cells.length ≤ (_bcd_inc cells base).length ∧
      (_bcd_inc cells base).length ≤ cells.length + 1 := by
  have h := (bcdIncLoop_spec base hb cells true hlt).1
  unfold _bcd_inc
  simp only []
  split_ifs <;> simp [h]

/-- Claim C24: for a base in {2, 8, 10, 16} and an accumulator whose cells
are all below the base and which holds the number `N`, lowest digit first,
without a leading zero cell (the single cell of zero apart), `_bcd_shl`
leaves an accumulator that holds `2 * N` and `_bcd_inc` one that holds
`N + 1`; in both the cells are below the base again, there is no leading zero
cell, and the size has grown by at most one. -/
theorem accumulator_step (base : Nat) (hb : base = 2 ∨ base = 8 ∨ base = 10 ∨ base = 16)
    (cells : List Nat) (hne : cells ≠ []) (hlt : ∀ x ∈ cells, x < base)
    (hlast : NoLeadingZero cells) :
    (Nat.ofDigits base (_bcd_shl cells base) = 2 * Nat.ofDigits base cells ∧
        (∀ x ∈ _bcd_shl cells base, x < base) ∧ NoLeadingZero (_bcd_shl cells base) ∧
        cells.length ≤ (_bcd_shl cells base).length ∧
        (_bcd_shl cells base).length ≤ cells.length + 1) ∧
      (Nat.ofDigits base (_bcd_inc cells base) = Nat.ofDigits base cells + 1 ∧
        (∀ x ∈ _bcd_inc cells base, x < base) ∧ NoLeadingZero (_bcd_inc cells base) ∧
        cells.length ≤ (_bcd_inc cells base).length ∧
        (_bcd_inc cells base).length ≤ cells.length + 1) := by
  have hg : GoodBase base := by
    unfold GoodBase; rcases hb with h | h | h | h <;> subst h <;> norm_num
  have hc := accumulator_eq_cellsOf base hg cells hne hlt hlast
  have hs : _bcd_shl cells base = cellsOf base (2 * Nat.ofDigits base cells) := by
    conv_lhs => rw [hc]
    exact bcd_shl_cellsOf base _ hg
  have hi : _bcd_inc cells base = cellsOf base (Nat.ofDigits base cells + 1) := by
    conv_lhs => rw [hc]
    exact bcd_inc_cellsOf base _ hg
  obtain ⟨hs1, hs2⟩ := bcd_shl_length base hg cells hlt
  obtain ⟨hi1, hi2⟩ := bcd_inc_length base hg cells hlt
  refine ⟨⟨?_, ?_, ?_, hs1, hs2⟩, ?_, ?_, ?_, hi1, hi2⟩
  · rw [hs, ofDigits_cellsOf]
  · rw [hs]; exact cellsOf_lt base _ hg
  · rw [hs]; exact cellsOf_noLeadingZero base _
  · rw [hi, ofDigits_cellsOf]
  · rw [hi]; exact cellsOf_lt base _ hg
  · rw [hi]; exact cellsOf_noLeadingZero base _

theorem accumulator_step_witness :
    (Nat.ofDigits 10 (_bcd_shl [9, 9] 10) = 2 * Nat.ofDigits 10 [9, 9] ∧
        (∀ x ∈ _bcd_shl [9, 9] 10, x < 10) ∧ NoLeadingZero (_bcd_shl [9, 9] 10) ∧
        [9, 9].length ≤ (_bcd_shl [9, 9] 10).length ∧
        (_bcd_shl [9, 9] 10).length ≤ [9, 9].length + 1) ∧
      (Nat.ofDigits 10 (_bcd_inc [9, 9] 10) = Nat.ofDigits 10 [9, 9] + 1 ∧
        (∀ x ∈ _bcd_inc [9, 9] 10, x < 10) ∧ NoLeadingZero (_bcd_inc [9, 9] 10) ∧
        [9, 9].length ≤ (_bcd_inc [9, 9] 10).length ∧
        (_bcd_inc [9, 9] 10).length ≤ [9, 9].length + 1) :=
  accumulator_step 10 (by decide) [9, 9] (by decide) (by decide)
    (Or.inr (by decide))

theorem strnlenLoop_terminated (s junk : List Nat) (hs : ∀ c ∈ s, c ≠ 0) :
    ∀ (maxsize n : Nat), strnlenLoop (s ++ 0 :: junk) maxsize n = n + min s.length maxsize := by
  induction s with
  | nil => intro maxsize n; simp [strnlenLoop]
  | cons c cs ih =>
    intro maxsize n
    have hc : c ≠ 0 := hs c (List.mem_cons_self _ _)
    have hcs : ∀ x ∈ cs, x ≠ 0 := fun x hx => hs x (List.mem_cons_of_mem _ hx)
    rw [List.cons_append, strnlenLoop]
    by_cases hm : maxsize = 0
    · subst hm; simp
    · rw [if_pos (by simp [hc, hm]), ih hcs]
      simp only [List.length_cons]
      omega

theorem strChars_terminated (fp : Bool) (s junk : List Nat) (hs : ∀ c ∈ s, c ≠ 0) :
    ∀ (precision : Nat), strChars fp (s ++ 0 :: junk) precision = strEmitted fp precision s := by
  induction s with
  | nil => intro precision; cases fp <;> simp [strChars, strEmitted]
  | cons c cs ih =>
    intro precision
    have hc : c ≠ 0 := hs c (List.mem_cons_self _ _)
    have hcs : ∀ x ∈ cs, x ≠ 0 := fun x hx => hs x (List.mem_cons_of_mem _ hx)
    simp only [List.cons_append, strChars]
    cases fp
    · simp [hc, ih hcs, strEmitted]
    · by_cases hp : precision = 0
      · subst hp; simp [strEmitted]
      · obtain ⟨k, rfl⟩ : ∃ k, precision = k + 1 := ⟨precision - 1, by omega⟩
        simp [hc, ih hcs, strEmitted]

theorem strnlen_terminated (P : Platform) (s junk : List Nat) (hs : ∀ c ∈ s, c ≠ 0)
    (hint : s.length < 2 ^ (8 * P.int_bytes)) (maxsize : Nat) :
    _strnlen_s P (s ++ 0 :: junk) maxsize = min s.length maxsize := by
  unfold _strnlen_s
  rw [strnlenLoop_terminated s junk hs, Nat.zero_add]
  exact Nat.mod_eq_of_lt (lt_of_le_of_lt (Nat.min_le_left _ _) hint)

/-- Claim C27: for a terminated string `s` the case `s` hands to the sink all
of `s`, or with an explicit precision `p` (0 included) its first
`min(p, |s|)` characters, with spaces before them, or after them when
left-align is set, up to `max(w, emitted length)` characters in all; the
padding is spaces whatever the zero flag.  The length of the string fits
`size_t` and `unsigned int`, and the precision is 0 unless it is explicit, as
the parser leaves it. -/
theorem string_conversion {β F : Type} (P : Platform) (out : out_fct_type β) (maxlen : Nat)
    (d : Directive F) (buffer : β) (idx : Nat) (addr : Nat) (s junk : List Nat)
    (hva : d.va.head? = some (Arg.ptr addr (s ++ 0 :: junk))) (hs : ∀ c ∈ s, c ≠ 0)
    (hsz : s.length < 2 ^ (8 * P.size_bytes)) (hint : s.length < 2 ^ (8 * P.int_bytes))
    (hpf : d.flags.precision = false → d.precision = 0) :
    convStr P out maxlen d buffer idx =
        outList out maxlen
          ((if d.flags.left then []
              else List.replicate
                (d.width - (strEmitted d.flags.precision d.precision s).length) 32) ++
            strEmitted d.flags.precision d.precision s ++
            (if d.flags.left then
                List.replicate (d.width - (strEmitted d.flags.precision d.precision s).length) 32
              else [])) (buffer, idx) ∧
      (convStr P out maxlen d buffer idx).2 =
        idx + max d.width (strEmitted d.flags.precision d.precision s).length ∧
      (strEmitted d.flags.precision d.precision s).length =
        (if d.flags.precision then min d.precision s.length else s.length) := by
  have hl : (if d.flags.precision = true then
        (if _strnlen_s P (s ++ 0 :: junk)
            (if (d.precision != 0) = true then d.precision else 2 ^ (8 * P.size_bytes) - 1) <
            d.precision then
          _strnlen_s P (s ++ 0 :: junk)
            (if (d.precision != 0) = true then d.precision else 2 ^ (8 * P.size_bytes) - 1)
        else d.precision)
      else _strnlen_s P (s ++ 0 :: junk)
        (if (d.precision != 0) = true then d.precision else 2 ^ (8 * P.size_bytes) - 1)) =
      (strEmitted d.flags.precision d.precision s).length := by
    rw [strnlen_terminated P s junk hs hint]
    unfold strEmitted
    cases hfp : d.flags.precision
    · have h0 := hpf hfp
      simp only [h0, Bool.false_eq_true, if_false, bne_self_eq_false]
      omega
    · simp only [if_true, List.length_take]
      by_cases hp : d.precision = 0
      · simp [hp]
      · have : (d.precision != 0) = true := by simpa using hp
        simp only [this, if_true]
        split_ifs <;> omega
  have hchars : convStrChars P d =
      (if d.flags.left then []
          else List.replicate
            (d.width - (strEmitted d.flags.precision d.precision s).length) 32) ++
        strEmitted d.flags.precision d.precision s ++
        (if d.flags.left then
            List.replicate (d.width - (strEmitted d.flags.precision d.precision s).length) 32
          else []) := by
    unfold convStrChars
    simp only [hva, argStr]
    rw [hl, strChars_terminated _ s junk hs]
    cases d.flags.left <;> simp
  refine ⟨by rw [convStr_eq, hchars], ?_, ?_⟩
  · rw [convStr_eq, outList_idx, hchars]
    cases d.flags.left <;> simp <;> omega
  · unfold strEmitted
    cases d.flags.precision <;> simp

theorem string_conversion_witness :
    (convStr mos traceOut 0
        ({ flags := { left := true, precision := true }, width := 6, precision := 2,
           format := [115], va := [Arg.ptr 0 ([104, 105, 33] ++ 0 :: [])] } : Directive Unit)
        [] 0).2 = 0 + max 6 (strEmitted true 2 [104, 105, 33]).length ∧
      (strEmitted true 2 [104, 105, 33]).length =
        (if true then min 2 ([104, 105, 33] : List Nat).length
          else ([104, 105, 33] : List Nat).length) :=
  (string_conversion mos traceOut 0
    ({ flags := { left := true, precision := true }, width := 6, precision := 2,
       format := [115], va := [Arg.ptr 0 ([104, 105, 33] ++ 0 :: [])] } : Directive Unit)
    [] 0 0 [104, 105, 33] [] rfl (by decide) (by decide) (by decide) (by decide)).2

theorem sameNtoaFlags_length (f : Flags) (c s l ll : Bool) :
    SameNtoaFlags { f with char := c, short := s, long := l, long_long := ll } f :=
  ⟨rfl, rfl, rfl, rfl, rfl, rfl, rfl⟩

theorem cellsOf10_length_le (m k : Nat) (hk : 1 ≤ k) (hm : m < 10 ^ k) :
    (cellsOf 10 m).length ≤ k := by
  unfold cellsOf
  split_ifs with h0
  · simpa using hk
  · have h1 := Nat.base_pow_length_digits_le 10 m (by norm_num) h0
    have h2 : 10 ^ (Nat.digits 10 m).length < 10 ^ (k + 1) := by
      calc 10 ^ (Nat.digits 10 m).length ≤ 10 * m := h1
        _ < 10 * 10 ^ k := by omega
        _ = 10 ^ (k + 1) := by rw [pow_succ]; ring
    have := (Nat.pow_lt_pow_iff_right (by norm_num : 1 < 10)).1 h2
    omega

theorem cellsOf10_length_ge (m k : Nat) (hm : 10 ^ k ≤ m) : k + 1 ≤ (cellsOf 10 m).length := by
  have hpos : 0 < 10 ^ k := Nat.pow_pos (by norm_num)
  unfold cellsOf
  rw [if_neg (by omega)]
  have h1 := @Nat.lt_base_pow_length_digits 10 m (by norm_num)
  have h2 : 10 ^ k < 10 ^ (Nat.digits 10 m).length := lt_of_le_of_lt hm h1
  have := (Nat.pow_lt_pow_iff_right (by norm_num : 1 < 10)).1 h2
  omega

/-- The output of the call of `_ntoa` that prints the exponent of `_etoa`:
magnitude `m`, base 10, precision 0, width `w` of 3 or 4, zero flag and plus
flag. -/
theorem ntoa_exponent (n m w : Nat) (hn : 0 < n) (hn8 : n ≤ 8) (hm : m < 2 ^ (8 * n))
    (hw : 1 ≤ w) (hw2 : w ≤ 500) (negative : Bool) :
    ntoaOutput (toBytes n m) negative 10 0 w { zeropad := true, plus := true } =
      (if negative then 45 else 43) ::
        (List.replicate (w - 1 - (numeral 10 false m).length) 48 ++ numeral 10 false m) := by
  have hg : GoodBase 10 := by unfold GoodBase; norm_num
  have hfl : ntoaFlags (toBytes n m) { zeropad := true, plus := true } =
      { zeropad := true, plus := true } := by
    unfold ntoaFlags; split_ifs <;> rfl
  have hd := ntoaDigits_value 10 n m hg (by norm_num) hn hm { zeropad := true, plus := true }
    (Or.inl rfl)
  have hlen : ((cellsOf 10 m).map (digitChar false)).length ≤ 64 := by
    rw [List.length_map]
    have := cellsOf_length_le 10 n m hg hn hm
    omega
  have hnum : (numeral 10 false m).length = ((cellsOf 10 m).map (digitChar false)).length := by
    simp [numeral]
  have hwd : ntoaWidth negative w { zeropad := true, plus := true } = w - 1 := by
    have : (w != 0) = true := by simpa using (by omega : w ≠ 0)
    simp [ntoaWidth, this]
  unfold ntoaOutput ntoaFormatBuf
  rw [hfl, hd, hwd]
  generalize hX : (cellsOf 10 m).map (digitChar false) = X at hlen hnum
  have hpad : ntoaPad X negative 0 w { zeropad := true, plus := true } =
      X ++ List.replicate (w - 1 - X.length) 48 := by
    simp only [ntoaPad, padZeros, hwd, PRINTF_NTOA_BUFFER_SIZE]
    simp only [Bool.not_false, if_true, Nat.zero_min, Nat.zero_sub, List.replicate_zero,
      List.append_nil]
    congr 2
    omega
  rw [hpad, ntoaHash_nohash _ _ _ _ _ rfl]
  have hroom : (X ++ List.replicate (w - 1 - X.length) 48).length < PRINTF_NTOA_BUFFER_SIZE := by
    simp only [List.length_append, List.length_replicate, PRINTF_NTOA_BUFFER_SIZE]
    omega
  have hnumX : numeral 10 false m = X.reverse := by rw [← hX]; rfl
  rw [hnum, hnumX]
  have hroom2 : X.length + (w - 1 - X.length) < PRINTF_NTOA_BUFFER_SIZE := by
    simpa using hroom
  cases negative <;>
    simp [ntoaSign, hroom2, outRevChars]

theorem numeral10_digits (m : Nat) : ∀ c ∈ numeral 10 false m, 48 ≤ c ∧ c ≤ 57 := by
  have hg : GoodBase 10 := by unfold GoodBase; norm_num
  intro c hc
  unfold numeral at hc
  simp only [List.mem_reverse, List.mem_map] at hc
  obtain ⟨d, hd, rfl⟩ := hc
  have := cellsOf_lt 10 m hg d hd
  simp only [digitChar, this, if_true]
  omega

/-- Claim C22, amended: a special value (a NaN, a value below `-DBL_MAX` or
above `DBL_MAX`) bypasses the digit conversion in `_ftoa` and in `_etoa`: the
sink receives the token `nan`, `-inf`, or `+inf` with the plus flag and `inf`
without, through `_out_rev`, which pads it with spaces to the width, before
the token or after it with left-align, and adds no padding when the zero flag
is set without left-align. -/
theorem special_values {β F : Type} (P : Platform) (D : DoubleOps F) (out : out_fct_type β)
    (maxlen : Nat) (buffer : β) (idx : Nat) (value : F) (prec width : Nat) (flags : Flags)
    (hs : isSpecial D value = true) :
    _ftoa P D out maxlen FLOAT_DEPTH buffer idx value prec width flags =
        some (outList out maxlen
          (List.replicate (if flags.left = false ∧ flags.zeropad = false then
              width - (specialToken D value flags).length else 0) 32 ++
            specialToken D value flags ++
            List.replicate (if flags.left = true then
              width - (specialToken D value flags).length else 0) 32) (buffer, idx)) ∧
      _etoa P D out maxlen FLOAT_DEPTH buffer idx value prec width flags =
        _ftoa P D out maxlen FLOAT_DEPTH buffer idx value prec width flags := by
  have hpads : ∀ tok : List Nat, outRevChars tok.reverse width flags =
      List.replicate (if flags.left = false ∧ flags.zeropad = false then
          width - tok.length else 0) 32 ++ tok ++
        List.replicate (if flags.left = true then width - tok.length else 0) 32 := by
    intro tok
    rw [outRevChars_pads]
    cases flags.left <;> cases flags.zeropad <;> simp
  constructor
  · unfold FLOAT_DEPTH _ftoa specialToken
    by_cases h1 : D.ne value value = true
    · rw [if_pos h1, if_pos h1, out_rev_eq]
      exact congrArg some (congrArg (fun cs => outList out maxlen cs (buffer, idx))
        (hpads [110, 97, 110]))
    · rw [if_neg h1, if_neg h1]
      by_cases h2 : D.lt value (D.neg D.dblMax) = true
      · rw [if_pos h2, if_pos h2, out_rev_eq]
        exact congrArg some (congrArg (fun cs => outList out maxlen cs (buffer, idx))
          (hpads [45, 105, 110, 102]))
      · rw [if_neg h2, if_neg h2]
        have h3 : D.lt D.dblMax value = true := by
          unfold isSpecial at hs
          simp only [Bool.or_eq_true] at hs
          rcases hs with (h | h) | h
          · exact absurd h h1
          · exact h
          · exact absurd h h2
        rw [if_pos h3, out_rev_eq]
        by_cases hp : flags.plus = true
        · rw [if_pos hp, if_pos hp]
          exact congrArg some (congrArg (fun cs => outList out maxlen cs (buffer, idx))
            (hpads [43, 105, 110, 102]))
        · rw [if_neg hp, if_neg hp]
          exact congrArg some (congrArg (fun cs => outList out maxlen cs (buffer, idx))
            (hpads [105, 110, 102]))
  · unfold _etoa etoaWith
    rw [if_pos hs]

theorem special_values_witness :
    isSpecial exactOps (2 ^ 1024) = true ∧
      _ftoa mos exactOps traceOut 0 FLOAT_DEPTH [] 0 (2 ^ 1024) 6 8 { plus := true } =
        some (outList traceOut 0
          (List.replicate (if ({ plus := true } : Flags).left = false ∧
                ({ plus := true } : Flags).zeropad = false then
              8 - (specialToken exactOps (2 ^ 1024) { plus := true }).length else 0) 32 ++
            specialToken exactOps (2 ^ 1024) { plus := true } ++
            List.replicate (if ({ plus := true } : Flags).left = true then
              8 - (specialToken exactOps (2 ^ 1024) { plus := true }).length else 0) 32)
          ([], 0)) :=
  ⟨by norm_num [isSpecial, exactOps],
    (special_values mos exactOps traceOut 0 [] 0 (2 ^ 1024) 6 8 { plus := true }
      (by norm_num [isSpecial, exactOps])).1⟩

/-- Claim C22 as stated fails: with the zero flag and width 8 a value above
`DBL_MAX` is printed as `inf` without any padding, by `%e` as by `%f`; without
the zero flag it is padded to the 8 characters. -/
theorem special_values_counterexample :
    logicalOutput mos exactOps [37, 48, 56, 102] [Arg.dbl (2 ^ 1024)] = some [105, 110, 102] ∧
      logicalOutput mos exactOps [37, 48, 56, 101] [Arg.dbl (2 ^ 1024)] =
        some [105, 110, 102] ∧
      logicalOutput mos exactOps [37, 56, 102] [Arg.dbl (2 ^ 1024)] =
        some [32, 32, 32, 32, 32, 105, 110, 102] := by
  decide!

theorem ftoaFracLoop_chars (bits : Nat) : ∀ (room : Nat) (buf : List Nat) (frac count : Nat),
    (∀ c ∈ buf, c ≤ 57) → ∀ c ∈ (ftoaFracLoop bits room buf frac count).1, c ≤ 57 := by
  intro room
  induction room with
  | zero => intro buf frac count hb; simpa [ftoaFracLoop] using hb
  | succ r ih =>
    intro buf frac count hb
    have hch : (48 + frac % 10) % 256 = 48 + frac % 10 := Nat.mod_eq_of_lt (by omega)
    have hb1 : ∀ c ∈ buf ++ [(48 + frac % 10) % 256], c ≤ 57 := by
      intro c hc
      simp only [List.mem_append, List.mem_singleton] at hc
      rcases hc with h | h
      · exact hb c h
      · omega
    unfold ftoaFracLoop
    simp only []
    split_ifs
    · exact hb1
    · exact ih _ _ _ hb1

theorem ftoaWholeLoop_chars : ∀ (room : Nat) (buf : List Nat) (whole : Int),
    (∀ c ∈ buf, c ≤ 57) → ∀ c ∈ ftoaWholeLoop room buf whole, c ≤ 57 := by
  intro room
  induction room with
  | zero => intro buf whole hb; simpa [ftoaWholeLoop] using hb
  | succ r ih =>
    intro buf whole hb
    have h1 : Int.tmod whole 10 < 10 := by
      have := Int.tmod_lt_of_pos whole (by norm_num : (0 : Int) < 10)
      exact this
    have h2 : -10 < Int.tmod whole 10 := by
      cases whole with
      | ofNat n =>
        have h0 : 0 ≤ Int.tmod (Int.ofNat n) 10 := Int.tmod_nonneg 10 (Int.ofNat_nonneg n)
        omega
      | negSucc n =>
        show -10 < -(((n.succ % 10 : Nat)) : Int)
        omega
    have hch : wrapU 8 (48 + Int.tmod whole 10) ≤ 57 := by
      unfold wrapU
      rw [Int.emod_eq_of_lt (by omega) (by norm_num; omega)]
      omega
    have hb1 : ∀ c ∈ buf ++ [wrapU 8 (48 + Int.tmod whole 10)], c ≤ 57 := by
      intro c hc
      simp only [List.mem_append, List.mem_singleton] at hc
      rcases hc with h | h
      · exact hb c h
      · omega
    unfold ftoaWholeLoop
    simp only []
    split_ifs
    · exact hb1
    · exact ih _ _ hb1

theorem ftoaBuf_chars {F : Type} (P : Platform) (D : DoubleOps F) (value : F)
    (prec width : Nat) (flags : Flags) :
    ∀ c ∈ (ftoaBuf P D value prec width flags).1, c ≤ 57 := by
  unfold ftoaBuf
  lift_lets
  extract_lets ibits negative value1 prec1 k buf0 prec2 whole0 tmp frac0 diff frac1 fw frac
    whole1 diff2 r b1 bw buf2 width1 buf3 buf4
  show ∀ c ∈ buf4, c ≤ 57
  have happ : ∀ (xs ys : List Nat), (∀ c ∈ xs, c ≤ 57) → (∀ c ∈ ys, c ≤ 57) →
      ∀ c ∈ xs ++ ys, c ≤ 57 := by
    intro xs ys hx hy c hc
    rcases List.mem_append.1 hc with h | h
    · exact hx c h
    · exact hy c h
  have hrep : ∀ n : Nat, ∀ c ∈ List.replicate n 48, c ≤ 57 := by
    intro n c hc
    have := (List.mem_replicate.1 hc).2
    omega
  have hone : ∀ x : Nat, x ≤ 57 → ∀ c ∈ [x], c ≤ 57 := by
    intro x hx c hc
    simp only [List.mem_singleton] at hc
    omega
  have h0 : ∀ c ∈ buf0, c ≤ 57 := hrep k
  have hr : ∀ c ∈ r.1, c ≤ 57 := ftoaFracLoop_chars ibits _ buf0 frac prec2 h0
  have hb1 : ∀ c ∈ b1, c ≤ 57 := by
    simp only [b1, ftoaCountZeros]
    exact happ _ _ hr (hrep _)
  have hbw : ∀ c ∈ bw.1, c ≤ 57 := by
    simp only [bw]
    split_ifs
    · exact h0
    · exact h0
    · exact happ _ _ hb1 (hone 46 (by norm_num))
    · exact hb1
  have h2 : ∀ c ∈ buf2, c ≤ 57 := ftoaWholeLoop_chars _ bw.1 bw.2 hbw
  have h3 : ∀ c ∈ buf3, c ≤ 57 := by
    simp only [buf3]
    split_ifs
    · exact happ _ _ h2 (hrep _)
    · exact h2
  simp only [buf4]
  split_ifs
  · exact happ _ _ h3 (hone 45 (by norm_num))
  · exact happ _ _ h3 (hone 43 (by norm_num))
  · exact happ _ _ h3 (hone 32 (by norm_num))
  · exact h3
  · exact h3

/-- The characters of `_ftoa` for a value that it prints itself: a special
value or one within `PRINTF_MAX_FLOAT`.  None of them is `e` or `E`. -/
theorem ftoa_no_exponent {F : Type} (P : Platform) (D : DoubleOps F) (depth : Nat) (value : F)
    (prec width : Nat) (flags : Flags)
    (h : (isSpecial D value || !ftoaIsLarge D value) = true) :
    ∃ cs : List Nat,
      (∀ (β : Type) (out : out_fct_type β) (maxlen : Nat) (b : β) (i : Nat),
        _ftoa P D out maxlen (depth + 1) b i value prec width flags =
          some (outList out maxlen cs (b, i))) ∧
        101 ∉ cs ∧ 69 ∉ cs := by
  have hrev : ∀ (buf : List Nat) (w : Nat), (101 ∉ buf ∧ 69 ∉ buf) →
      101 ∉ outRevChars buf w flags ∧ 69 ∉ outRevChars buf w flags := by
    intro buf w hb
    rw [outRevChars_pads]
    simp only [List.mem_append, List.mem_replicate, List.mem_reverse, not_or, not_and]
    exact ⟨⟨⟨fun _ => by norm_num, hb.1⟩, fun _ => by norm_num⟩,
      ⟨⟨fun _ => by norm_num, hb.2⟩, fun _ => by norm_num⟩⟩
  by_cases h1 : D.ne value value = true
  · refine ⟨outRevChars [110, 97, 110] width flags, fun β out maxlen b i => ?_,
      hrev _ _ (by decide)⟩
    unfold _ftoa
    rw [if_pos h1, out_rev_eq]
  by_cases h2 : D.lt value (D.neg D.dblMax) = true
  · refine ⟨outRevChars [102, 110, 105, 45] width flags, fun β out maxlen b i => ?_,
      hrev _ _ (by decide)⟩
    unfold _ftoa
    rw [if_neg h1, if_pos h2, out_rev_eq]
  by_cases h3 : D.lt D.dblMax value = true
  · refine ⟨outRevChars (if flags.plus then [102, 110, 105, 43] else [102, 110, 105]) width
      flags, fun β out maxlen b i => ?_, hrev _ _ (by split_ifs <;> decide)⟩
    unfold _ftoa
    rw [if_neg h1, if_neg h2, if_pos h3, out_rev_eq]
  have hnl : ftoaIsLarge D value = false := by
    have hsp : isSpecial D value = false := by
      unfold isSpecial
      simp only [Bool.not_eq_true] at h1 h2 h3
      simp [h1, h2, h3]
    rw [hsp] at h
    simpa using h
  have hc := ftoaBuf_chars P D value prec width flags
  refine ⟨outRevChars (ftoaBuf P D value prec width flags).1
    (ftoaBuf P D value prec width flags).2 flags, fun β out maxlen b i => ?_,
    hrev _ _ ⟨fun hh => by have := hc 101 hh; omega, fun hh => by have := hc 69 hh; omega⟩⟩
  unfold _ftoa
  rw [if_neg h1, if_neg h2, if_neg h3, if_neg (by simp [hnl]), out_rev_eq]

theorem etoaScale_value {F : Type} (P : Platform) (D : DoubleOps F) (value : F) :
    (etoaScale P D value).value = magnitude D value ∧
      (etoaScale P D value).negative = D.lt value (D.ofInt 0) := by
  unfold etoaScale magnitude
  simp only []
  split_ifs <;> exact ⟨rfl, rfl⟩

theorem etoaPlan_adaptive {F : Type} (P : Platform) (D : DoubleOps F) (value : F)
    (prec width : Nat) (flags : Flags) (hg : flags.adapt_exp = true) :
    (inAdaptiveRange D value = true →
        (etoaPlan P D value prec width flags).minwidth = 0 ∧
          (etoaPlan P D value prec width flags).value =
            (if D.lt value (D.ofInt 0) then D.neg (magnitude D value)
              else magnitude D value)) ∧
      (inAdaptiveRange D value = false →
        (etoaPlan P D value prec width flags).minwidth ≠ 0) := by
  obtain ⟨hv, hn⟩ := etoaScale_value P D value
  unfold inAdaptiveRange
  rw [← hv, ← hn]
  constructor
  · intro h
    unfold etoaPlan
    simp only [hg, h, Bool.and_self, if_true, bne_self_eq_false, Bool.false_eq_true, if_false]
    exact ⟨trivial, trivial⟩
  · intro h
    unfold etoaPlan
    simp only [hg, h, Bool.and_false, Bool.false_eq_true, if_false]
    split_ifs <;> decide

theorem exactOps_ceilingCovers : CeilingCovers exactOps := by
  intro v h1 h2
  have h1q : (0.0001 : ℚ) ≤ v := by simpa [exactOps] using h1
  have h2q : v < (1000000 : ℚ) := by simpa [exactOps] using h2
  have e1 : (0.0001 : ℚ) = 1 / 10000 := by norm_num
  rw [e1] at h1q
  have h0 : (0 : ℚ) < 1 / 10000 := by norm_num
  unfold ftoaIsLarge PRINTF_MAX_FLOAT
  simp only [exactOps, Bool.or_eq_false_iff, decide_eq_false_iff_not, not_lt]
  refine ⟨⟨?_, ?_⟩, ?_, ?_⟩ <;> linarith

theorem etoaTailChars_symbol {F : Type} (P : Platform) (width : Nat) (flags : Flags)
    (pl : EtoaPlan F) (n : Nat) (hm : pl.minwidth ≠ 0) :
    (if flags.uppercase then 69 else 101) ∈ etoaTailChars P width flags pl n := by
  unfold etoaTailChars
  simp only [bne_iff_ne, ne_eq, hm, not_false_eq_true, if_true]
  exact List.mem_cons_self _ _

/-- Claim C23, amended: in adaptive mode, for a value that is not special (no
NaN, within `-DBL_MAX` and `DBL_MAX`): when its magnitude lies in
`[1e-4, 1e6)` the characters `_etoa` hands to the sink hold neither `e` nor
`E`; when it lies outside, they hold the exponent symbol, `E` with the
uppercase flag and `e` without. -/
theorem adaptive_mode {F : Type} (P : Platform) (D : DoubleOps F) (value : F)
    (prec width : Nat) (flags : Flags)
    (hg : flags.adapt_exp = true) (hs : isSpecial D value = false) :
    (inAdaptiveRange D value = true → CeilingCovers D →
        ∃ cs : List Nat,
          (∀ (β : Type) (out : out_fct_type β) (maxlen : Nat) (b : β) (i : Nat),
            _etoa P D out maxlen FLOAT_DEPTH b i value prec width flags =
              some (outList out maxlen cs (b, i))) ∧
            101 ∉ cs ∧ 69 ∉ cs) ∧
      (inAdaptiveRange D value = false → MantissaInRange P D →
        ∃ cs : List Nat,
          (∀ (β : Type) (out : out_fct_type β) (maxlen : Nat) (b : β) (i : Nat),
            _etoa P D out maxlen FLOAT_DEPTH b i value prec width flags =
              some (outList out maxlen cs (b, i))) ∧
            (if flags.uppercase then 69 else 101) ∈ cs) := by
  have hs2 : ¬ isSpecial D value = true := by simp [hs]
  obtain ⟨hin, hout⟩ := etoaPlan_adaptive P D value prec width flags hg
  constructor
  · intro hr hc
    obtain ⟨hm, hv⟩ := hin hr
    have hcov := hc (magnitude D value)
      (by unfold inAdaptiveRange at hr; simp only [Bool.and_eq_true] at hr; exact hr.1)
      (by unfold inAdaptiveRange at hr; simp only [Bool.and_eq_true] at hr; exact hr.2)
    have hsmall : ftoaIsLarge D (etoaPlan P D value prec width flags).value = false := by
      rw [hv]
      split_ifs
      · exact hcov.2
      · exact hcov.1
    obtain ⟨cs, hcs, h1, h2⟩ := ftoa_no_exponent P D 1
      (etoaPlan P D value prec width flags).value (etoaPlan P D value prec width flags).prec
      (etoaPlan P D value prec width flags).fwidth (etoaPlan P D value prec width flags).flags
      (by simp [hsmall])
    refine ⟨cs, fun β out maxlen b i => ?_, h1, h2⟩
    unfold _etoa etoaWith FLOAT_DEPTH
    rw [if_neg hs2]
    simp only []
    rw [hcs β out maxlen b i, Option.map_some', etoaTail_eq]
    unfold etoaTailChars
    simp [hm]
  · intro hr hD
    have hm := hout hr
    obtain ⟨r, hrr⟩ := ftoa_traced P D FLOAT_DEPTH
      (etoaPlan P D value prec width flags).value (etoaPlan P D value prec width flags).prec
      (etoaPlan P D value prec width flags).fwidth (etoaPlan P D value prec width flags).flags
    have hsome := ftoa_some P D hD traceOut 0 0 [] 0
      (etoaPlan P D value prec width flags).value (etoaPlan P D value prec width flags).prec
      (etoaPlan P D value prec width flags).fwidth (etoaPlan P D value prec width flags).flags
    have e : (0 + 2 : Nat) = FLOAT_DEPTH := rfl
    rw [e, hrr] at hsome
    cases r with
    | none => simp at hsome
    | some cs =>
      refine ⟨cs ++ etoaTailChars P width flags (etoaPlan P D value prec width flags) cs.length,
        fun β out maxlen b i => ?_,
        List.mem_append_right _ (etoaTailChars_symbol P width flags _ _ hm)⟩
      unfold _etoa etoaWith
      rw [if_neg hs2]
      simp only []
      rw [hrr β out maxlen b i, Option.map_some', Option.map_some', etoaTail_eq]

theorem adaptive_mode_witness :
    ((({ adapt_exp := true } : Flags).adapt_exp = true ∧
        isSpecial exactOps (5 / 2) = false ∧ inAdaptiveRange exactOps (5 / 2) = true) ∧
      (∃ cs : List Nat,
        (∀ (β : Type) (out : out_fct_type β) (maxlen : Nat) (b : β) (i : Nat),
          _etoa mos exactOps out maxlen FLOAT_DEPTH b i (5 / 2) 0 0 { adapt_exp := true } =
            some (outList out maxlen cs (b, i))) ∧
          101 ∉ cs ∧ 69 ∉ cs)) ∧
      (isSpecial noDouble () = false ∧ inAdaptiveRange noDouble () = false) ∧
      ∃ cs : List Nat,
        (∀ (β : Type) (out : out_fct_type β) (maxlen : Nat) (b : β) (i : Nat),
          _etoa mos noDouble out maxlen FLOAT_DEPTH b i () 0 0 { adapt_exp := true } =
            some (outList out maxlen cs (b, i))) ∧
          101 ∈ cs :=
  ⟨⟨⟨rfl, by norm_num [isSpecial, exactOps], by norm_num [inAdaptiveRange, magnitude, exactOps]⟩,
    (adaptive_mode mos exactOps (5 / 2) 0 0 { adapt_exp := true } rfl
      (by norm_num [isSpecial, exactOps])).1
      (by norm_num [inAdaptiveRange, magnitude, exactOps]) exactOps_ceilingCovers⟩,
    ⟨rfl, rfl⟩,
    (adaptive_mode mos noDouble () 0 0 { adapt_exp := true } rfl rfl).2 rfl
      (mantissaInRange_noDouble mos)⟩

theorem adaptive_mode_counterexample :
    inAdaptiveRange exactOps (2 ^ 1024) = false ∧
      logicalOutput mos exactOps [37, 103] [Arg.dbl (2 ^ 1024)] = some [105, 110, 102] ∧
      logicalOutput mos exactOps [37, 71] [Arg.dbl (2 ^ 1024)] = some [105, 110, 102] := by
  decide!

theorem ftoaWholeLoop_exact : ∀ (room : Nat) (buf : List Nat) (n : Nat),
    (cellsOf 10 n).length ≤ room →
      ftoaWholeLoop room buf (n : Int) = buf ++ (cellsOf 10 n).map (digitChar false) := by
  intro room
  induction room with
  | zero =>
    intro buf n h
    exfalso
    unfold cellsOf at h
    split_ifs at h with h0
    · simp at h
    · have hne : Nat.digits 10 n ≠ [] := Nat.digits_ne_nil_iff_ne_zero.2 h0
      exact hne (List.length_eq_zero.1 (by omega))
  | succ r ih =>
    intro buf n h
    have hmod : wrapU 8 (48 + Int.tmod (n : Int) 10) = 48 + n % 10 := by
      unfold wrapU
      rw [Int.tmod_eq_emod (Int.ofNat_nonneg n) (by norm_num)]
      have h2 : n % 10 < 10 := Nat.mod_lt _ (by norm_num)
      rw [Int.emod_eq_of_lt (by omega) (by norm_num; omega)]
      omega
    have hdiv : Int.tdiv (n : Int) 10 = ((n / 10 : Nat) : Int) := by
      rw [Int.tdiv_eq_ediv (Int.ofNat_nonneg n) (by norm_num)]
      norm_cast
    have hdc : digitChar false (n % 10) = 48 + n % 10 := by
      unfold digitChar
      rw [if_pos (Nat.mod_lt _ (by norm_num))]
    unfold ftoaWholeLoop
    simp only [hmod, hdiv]
    by_cases h0 : n / 10 = 0
    · rw [if_pos (by exact_mod_cast h0)]
      have hlt : n < 10 := by omega
      have hc : cellsOf 10 n = [n % 10] := by
        unfold cellsOf
        split_ifs with hz
        · subst hz; rfl
        · rw [Nat.digits_of_lt 10 n hz hlt, Nat.mod_eq_of_lt hlt]
      rw [hc, List.map_singleton, hdc]
    · rw [if_neg (by exact_mod_cast h0)]
      have hn0 : n ≠ 0 := by rintro rfl; simp at h0
      have hc : cellsOf 10 n = (n % 10) :: cellsOf 10 (n / 10) := by
        unfold cellsOf
        rw [if_neg hn0, if_neg h0]
        exact Nat.digits_def' (by norm_num) (Nat.pos_of_ne_zero hn0)
      rw [hc] at h ⊢
      rw [ih _ _ (by simpa using h), List.map_cons, hdc]
      simp

theorem ftoaBuf_round (P : Platform) (q : ℚ) (flags : Flags)
    (hp : flags.precision = true) (h0 : 0 ≤ q) (hq : q ≤ 10 ^ 9)
    (hint : q + 1 < 2 ^ (8 * P.int_bytes - 1)) (hib : 1 ≤ P.int_bytes)
    (hlong : 1 ≤ P.long_bytes) :
    ∃ n : Nat, ftoaBuf P exactOps q 0 0 flags =
        ((cellsOf 10 n).map (digitChar false) ++ signChars false flags, 0) ∧
      |q - (n : ℚ)| ≤ 1 / 2 ∧ (|q - (n : ℚ)| = 1 / 2 → n % 2 = 0) := by
  unfold ftoaBuf
  lift_lets
  extract_lets ibits negative value1 prec1 k buf0 prec2 whole0 tmp frac0 diff frac1 fw frac
    whole1 diff2 r b1 bw buf2 width1 buf3 buf4
  show ∃ n : Nat, (buf4, width1) = _ ∧ _
  have hneg : negative = false := by
    simp only [negative, exactOps, decide_eq_false_iff_not, not_lt, Int.cast_zero]
    exact h0
  have hv : value1 = q := by simp only [value1, hneg, Bool.false_eq_true, if_false]
  have hprec1 : prec1 = 0 := by simp [prec1, hp]
  have hk : k = 0 := by simp [k, hprec1]
  have hbuf0 : buf0 = [] := by simp [buf0, hk]
  have hprec2 : prec2 = 0 := by simp [prec2, hprec1, hk]
  have hibits : 8 ≤ ibits := by simp only [ibits]; omega
  have hfl0 : 0 ≤ ⌊q⌋ := Int.floor_nonneg.2 h0
  have hflq : ((⌊q⌋ : ℤ) : ℚ) + 1 < 2 ^ (ibits - 1) := by
    have := Int.floor_le q
    simp only [ibits]
    linarith
  have hfl1 : ⌊q⌋ + 1 < 2 ^ (ibits - 1) := by exact_mod_cast hflq
  have hfl9 : ⌊q⌋ ≤ 10 ^ 9 := by
    have h1 := Int.floor_le q
    have h2 : ((⌊q⌋ : ℤ) : ℚ) ≤ ((10 ^ 9 : ℤ) : ℚ) := by push_cast; linarith
    exact_mod_cast h2
  have hpos : (0 : ℤ) < 2 ^ (ibits - 1) := by positivity
  have hw0 : whole0 = ⌊q⌋ := by
    simp only [whole0, hv]
    rw [exact_toInt q h0]
    exact wrapS_inRange ibits (by omega) _ ⟨by omega, by omega⟩
  have hpow : pow10 exactOps prec2 = (1 : ℚ) := by
    rw [hprec2]
    unfold pow10
    rw [if_pos (by norm_num)]
    show ((10 ^ 0 : ℤ) : ℚ) = _
    norm_num
  have htmp : tmp = Int.fract q := by
    simp only [tmp, hpow, hw0, hv]
    show (q - ((⌊q⌋ : ℤ) : ℚ)) * 1 = _
    rw [mul_one]; rfl
  have hf0 : 0 ≤ Int.fract q := Int.fract_nonneg q
  have hf1 : Int.fract q < 1 := Int.fract_lt_one q
  have hfloor : ⌊Int.fract q⌋ = 0 := Int.floor_eq_iff.2 ⟨by simp, by simp [hf1]⟩
  have hfrac0 : frac0 = 0 := by
    simp only [frac0, wrapU]
    rw [exact_toInt tmp (by rw [htmp]; exact hf0), htmp, hfloor]
    simp
  have hdiff : diff = Int.fract q := by
    simp only [diff, hfrac0, htmp]
    show Int.fract q - (((0 : ℕ) : ℤ) : ℚ) = _
    simp
  have hlb : 2 ^ 8 ≤ 2 ^ (8 * P.long_bytes) := Nat.pow_le_pow_right (by norm_num) (by omega)
  have hmod1 : (frac0 + 1) % 2 ^ (8 * P.long_bytes) = 1 := by
    rw [hfrac0]
    exact Nat.mod_eq_of_lt (by norm_num at hlb ⊢; omega)
  have hws1 : wrapS ibits (whole0 + 1) = whole0 + 1 := by
    rw [hw0]
    exact wrapS_inRange ibits (by omega) _ ⟨by omega, by omega⟩
  obtain ⟨m, hm⟩ := Int.eq_ofNat_of_zero_le hfl0
  have hqm : q = (m : ℚ) + Int.fract q := by
    have := Int.floor_add_fract q
    rw [hm] at this
    simpa using this.symm
  have hm9 : m ≤ 10 ^ 9 := by rw [hm] at hfl9; exact_mod_cast hfl9
  have ehalf : (0.5 : ℚ) = 1 / 2 := by norm_num
  have hbw : ∃ n : Nat, bw = (buf0, (n : ℤ)) ∧ n ≤ 10 ^ 9 + 1 ∧
      |q - (n : ℚ)| ≤ 1 / 2 ∧ (|q - (n : ℚ)| = 1 / 2 → n % 2 = 0) := by
    rcases lt_trichotomy (Int.fract q) (1 / 2) with hlt | heq | hgt
    · refine ⟨m, ?_, by omega, ?_, ?_⟩
      · have hA : exactOps.lt (exactOps.ofRat 0.5) diff = false := by
          rw [hdiff]
          simp only [exactOps, decide_eq_false_iff_not, not_lt, ehalf]
          exact le_of_lt hlt
        have hB : exactOps.lt diff (exactOps.ofRat 0.5) = true := by
          rw [hdiff]
          simp only [exactOps, decide_eq_true_eq, ehalf]
          exact hlt
        have hfw : fw = (frac0, whole0) := by
          simp only [fw, hA, hB, Bool.false_eq_true, if_false, if_true]
        have hd2 : diff2 = Int.fract q := by
          simp only [diff2, whole1, hfw, hv, hw0]
          rfl
        have hC : exactOps.lt diff2 (exactOps.ofRat 0.5) = true := by
          rw [hd2]
          simp only [exactOps, decide_eq_true_eq, ehalf]
          exact hlt
        have hD : exactOps.lt (exactOps.ofRat 0.5) diff2 = false := by
          rw [hd2]
          simp only [exactOps, decide_eq_false_iff_not, not_lt, ehalf]
          exact le_of_lt hlt
        simp only [bw, hprec2, if_true, hC, hD, Bool.not_true, Bool.or_false, Bool.false_and,
          Bool.false_eq_true, if_false, whole1, hfw, hw0, hm]
      · rw [hqm]
        rw [show (m : ℚ) + Int.fract q - (m : ℚ) = Int.fract q by ring, abs_of_nonneg hf0]
        exact le_of_lt hlt
      · intro h
        rw [hqm, show (m : ℚ) + Int.fract q - (m : ℚ) = Int.fract q by ring,
          abs_of_nonneg hf0] at h
        linarith
    · have hA : exactOps.lt (exactOps.ofRat 0.5) diff = false := by
        rw [hdiff]
        simp only [exactOps, decide_eq_false_iff_not, not_lt, ehalf]
        exact le_of_eq heq
      have hB : exactOps.lt diff (exactOps.ofRat 0.5) = false := by
        rw [hdiff]
        simp only [exactOps, decide_eq_false_iff_not, not_lt, ehalf]
        exact le_of_eq heq.symm
      have hfw : fw = ((frac0 + 1) % 2 ^ (8 * P.long_bytes), whole0) := by
        simp only [fw, hA, hB, Bool.false_eq_true, if_false, hfrac0, true_or, if_true]
      have hd2 : diff2 = Int.fract q := by
        simp only [diff2, whole1, hfw, hv, hw0]
        rfl
      have hC : exactOps.lt diff2 (exactOps.ofRat 0.5) = false := by
        rw [hd2]
        simp only [exactOps, decide_eq_false_iff_not, not_lt, ehalf]
        exact le_of_eq heq.symm
      by_cases hodd : m % 2 = 1
      · refine ⟨m + 1, ?_, by omega, ?_, ?_⟩
        · have hE : ((m : ℤ) % 2 != 0) = true := by
            simp only [bne_iff_ne, ne_eq]
            omega
          simp only [bw, hprec2, if_true, hC, Bool.not_false, Bool.true_or, Bool.true_and,
            whole1, hfw, hw0, hm, hE]
          rw [← hm, ← hw0, hws1, hw0, hm]
          norm_cast
        · rw [hqm, heq]
          push_cast
          rw [show (m : ℚ) + 1 / 2 - ((m : ℚ) + 1) = -(1 / 2) by ring, abs_neg,
            abs_of_nonneg (by norm_num)]
        · intro _
          omega
      · refine ⟨m, ?_, by omega, ?_, ?_⟩
        · have hE : ((m : ℤ) % 2 != 0) = false := by
            simp only [bne_eq_false_iff_eq]
            omega
          simp only [bw, hprec2, if_true, hC, Bool.not_false, Bool.true_or, Bool.true_and,
            whole1, hfw, hw0, hm, hE, Bool.false_eq_true, if_false]
        · rw [hqm, heq]
          rw [show (m : ℚ) + 1 / 2 - (m : ℚ) = 1 / 2 by ring, abs_of_nonneg (by norm_num)]
        · intro _
          omega
    · refine ⟨m + 1, ?_, by omega, ?_, ?_⟩
      · have hA : exactOps.lt (exactOps.ofRat 0.5) diff = true := by
          rw [hdiff]
          simp only [exactOps, decide_eq_true_eq, ehalf]
          exact hgt
        have hL : exactOps.le (pow10 exactOps prec2)
            (exactOps.ofInt (((frac0 + 1) % 2 ^ (8 * P.long_bytes) : ℕ) : ℤ)) = true := by
          rw [hpow, hmod1]
          simp [exactOps]
        have hfw : fw = (0, whole0 + 1) := by
          simp only [fw, frac1, hA, if_true, hL, hws1]
        have hd2 : diff2 = Int.fract q - 1 := by
          simp only [diff2, whole1, hfw, hv, hw0]
          show q - (((⌊q⌋ + 1 : ℤ)) : ℚ) = _
          push_cast
          rw [← Int.self_sub_floor]
          ring
        have hC : exactOps.lt diff2 (exactOps.ofRat 0.5) = true := by
          rw [hd2]
          simp only [exactOps, decide_eq_true_eq, ehalf]
          linarith
        have hD : exactOps.lt (exactOps.ofRat 0.5) diff2 = false := by
          rw [hd2]
          simp only [exactOps, decide_eq_false_iff_not, not_lt, ehalf]
          linarith
        simp only [bw, hprec2, if_true, hC, hD, Bool.not_true, Bool.or_false, Bool.false_and,
          Bool.false_eq_true, if_false, whole1, hfw, hw0, hm]
        norm_cast
      · rw [hqm]
        push_cast
        rw [show (m : ℚ) + Int.fract q - ((m : ℚ) + 1) = -(1 - Int.fract q) by ring, abs_neg,
          abs_of_nonneg (by linarith)]
        linarith
      · intro h
        exfalso
        rw [hqm] at h
        push_cast at h
        rw [show (m : ℚ) + Int.fract q - ((m : ℚ) + 1) = -(1 - Int.fract q) by ring, abs_neg,
          abs_of_nonneg (by linarith)] at h
        linarith
  obtain ⟨n, hbwn, hn9, habs, heven⟩ := hbw
  refine ⟨n, ?_, habs, heven⟩
  have hlen : (cellsOf 10 n).length ≤ 10 := cellsOf10_length_le n 10 (by norm_num) (by omega)
  have hbuf2 : buf2 = (cellsOf 10 n).map (digitChar false) := by
    simp only [buf2, hbwn, hbuf0]
    rw [ftoaWholeLoop_exact _ _ _ (by simp only [List.length_nil, PRINTF_FTOA_BUFFER_SIZE]; omega)]
    rfl
  have hwidth : width1 = 0 := by
    simp only [width1]
    split_ifs <;> rfl
  have hbuf3 : buf3 = buf2 := by
    simp only [buf3, hwidth]
    split_ifs
    · simp
    · rfl
  have hl3 : buf3.length < PRINTF_FTOA_BUFFER_SIZE := by
    rw [hbuf3, hbuf2, List.length_map]
    unfold PRINTF_FTOA_BUFFER_SIZE
    omega
  have hbuf4 : buf4 = buf3 ++ signChars false flags := by
    simp only [buf4, if_pos hl3, hneg, signChars, Bool.false_eq_true, if_false]
    split_ifs <;> simp
  rw [hbuf4, hbuf3, hbuf2, hwidth]

/-- Where the whole-number rounding of `_ftoa` is right (the double arithmetic
carried out exactly): for a non-negative value of at most 1e9 whose whole
part, with room for a carry, fits `int`, printed with the explicit precision
0 and no width, the output is the sign character of the flags and the
numeral of a number `n` that is nearest to the value, and even when the value
lies halfway between two integers; there is no decimal point. -/
theorem ftoa_round_half_even {β : Type} (P : Platform) (q : ℚ) (flags : Flags)
    (hp : flags.precision = true) (h0 : 0 ≤ q) (hq : q ≤ 10 ^ 9)
    (hint : q + 1 < 2 ^ (8 * P.int_bytes - 1)) (hib : 1 ≤ P.int_bytes)
    (hlong : 1 ≤ P.long_bytes) (out : out_fct_type β) (buffer : β) (idx maxlen : Nat) :
    ∃ n : Nat,
      _ftoa P exactOps out maxlen FLOAT_DEPTH buffer idx q 0 0 flags =
          some (outList out maxlen (signChars false flags ++ numeral 10 false n) (buffer, idx)) ∧
        |q - (n : ℚ)| ≤ 1 / 2 ∧ (|q - (n : ℚ)| = 1 / 2 → n % 2 = 0) ∧
        46 ∉ numeral 10 false n := by
  obtain ⟨h1, h2, h3, h4⟩ := exact_not_special q (by rw [abs_of_nonneg h0]; exact hq)
  obtain ⟨n, hbuf, habs, heven⟩ := ftoaBuf_round P q flags hp h0 hq hint hib hlong
  refine ⟨n, ?_, habs, heven, ?_⟩
  · unfold FLOAT_DEPTH _ftoa
    rw [if_neg (by simp [h1]), if_neg (by simp [h2]), if_neg (by simp [h3]),
      if_neg (by simp [h4]), out_rev_eq, outRevChars_pads, hbuf]
    have hs : (signChars false flags).reverse = signChars false flags := by
      unfold signChars
      split_ifs <;> rfl
    simp [numeral, hs]
  · intro h
    unfold numeral at h
    simp only [List.mem_reverse, List.mem_map] at h
    obtain ⟨d, hd, h46⟩ := h
    have hd10 : d < 10 := by
      unfold cellsOf at hd
      split_ifs at hd
      · simp only [List.mem_singleton] at hd; omega
      · exact Nat.digits_lt_base (by norm_num) hd
    unfold digitChar at h46
    rw [if_pos hd10] at h46
    omega

theorem ftoa_round_half_even_witness :
    ∃ n : Nat,
      _ftoa mos exactOps traceOut 0 FLOAT_DEPTH [] 0 (5 / 2) 0 0 { precision := true } =
          some (outList traceOut 0
            (signChars false { precision := true } ++ numeral 10 false n) ([], 0)) ∧
        |(5 / 2 : ℚ) - (n : ℚ)| ≤ 1 / 2 ∧ (|(5 / 2 : ℚ) - (n : ℚ)| = 1 / 2 → n % 2 = 0) ∧
        46 ∉ numeral 10 false n :=
  ftoa_round_half_even mos (5 / 2) { precision := true } rfl (by norm_num) (by norm_num)
    (by norm_num [mos]) (by decide) (by decide) traceOut [] 0 0

/-- Claim C21, where the code departs from it: on the MOS target `int` has 16
bits and `int whole = (int)value` cannot hold the whole part of 40000, a
value within the ceiling `PRINTF_MAX_FLOAT`.  With the conversion wrapping
around, `%.0f` of 40000 gives the five characters `.++-*` and `%.0f` of 32768
gives `-.)*(`, where the numerals `40000` and `32768` are due; the values 2.5,
1.5 and 3.5 give `2`, `2` and `4`. -/
theorem ftoa_whole_out_of_int :
    isSpecial exactOps 40000 = false ∧ ftoaIsLarge exactOps 40000 = false ∧
      logicalOutput mos exactOps [37, 46, 48, 102] [Arg.dbl 40000] =
        some [46, 43, 43, 45, 42] ∧
      numeral 10 false 40000 = [52, 48, 48, 48, 48] ∧
      logicalOutput mos exactOps [37, 46, 48, 102] [Arg.dbl 32768] =
        some [45, 46, 41, 42, 40] ∧
      logicalOutput mos exactOps [37, 46, 48, 102] [Arg.dbl (5 / 2)] = some [50] ∧
      logicalOutput mos exactOps [37, 46, 48, 102] [Arg.dbl (3 / 2)] = some [50] ∧
      logicalOutput mos exactOps [37, 46, 48, 102] [Arg.dbl (7 / 2)] = some [52] := by
  refine ⟨by decide!, by decide!, by decide!, ?_, by decide!, by decide!, by decide!,
    by decide!⟩
  norm_num [numeral, cellsOf, digitChar]

/-- Handing the sink the count of characters modulo `2 ^ bits` is the run of
`out(c, buffer, idx++, maxlen)` on a `size_t idx`: the sink ends in the same
state, and the `size_t` is the count modulo `2 ^ bits`. -/
theorem sizeIdx_wraps {β : Type} (P : Platform) (out : out_fct_type β) (maxlen : Nat) :
    ∀ (cs : List Nat) (b : β) (i : Nat),
      (outList (sizeIdx P out) maxlen cs (b, i)).1 =
          (outListSize (8 * P.size_bytes) out maxlen cs (b, i % 2 ^ (8 * P.size_bytes))).1 ∧
        (outList (sizeIdx P out) maxlen cs (b, i)).2 % 2 ^ (8 * P.size_bytes) =
          (outListSize (8 * P.size_bytes) out maxlen cs (b, i % 2 ^ (8 * P.size_bytes))).2 := by
  intro cs
  induction cs with
  | nil => intro b i; exact ⟨rfl, rfl⟩
  | cons c cs ih =>
    intro b i
    rw [outList_cons]
    simp only [outListSize]
    have e : (i % 2 ^ (8 * P.size_bytes) + 1) % 2 ^ (8 * P.size_bytes) =
        (i + 1) % 2 ^ (8 * P.size_bytes) := by
      rw [Nat.add_mod, Nat.mod_mod, ← Nat.add_mod]
    rw [e]
    exact ih (sizeIdx P out c b i maxlen) (i + 1)

theorem outList_sizeIdx_short {β : Type} (P : Platform) (out : out_fct_type β) (maxlen : Nat) :
    ∀ (cs : List Nat) (b : β) (i : Nat), i + cs.length ≤ 2 ^ (8 * P.size_bytes) →
      outList (sizeIdx P out) maxlen cs (b, i) = outList out maxlen cs (b, i) := by
  intro cs
  induction cs with
  | nil => intro b i _; rfl
  | cons c cs ih =>
    intro b i h
    simp only [List.length_cons] at h
    rw [outList_cons, outList_cons]
    have e : sizeIdx P out c b i maxlen = out c b i maxlen := by
      unfold sizeIdx
      rw [Nat.mod_eq_of_lt (by omega)]
    simp only [e]
    exact ih _ _ (by omega)

theorem sizeIdx_out_fct {α : Type} (P : Platform) (fct : Nat → α → α) :
    sizeIdx P (_out_fct fct) = _out_fct fct := rfl

theorem outList_sizeIdx_frame (P : Platform) (n : Nat) :
    ∀ (cs : List Nat) (buf : List Nat) (i : Nat),
      (outList (sizeIdx P _out_buffer) n cs (buf, i)).1.length = buf.length ∧
        ∀ j, n ≤ j → (outList (sizeIdx P _out_buffer) n cs (buf, i)).1[j]? = buf[j]? := by
  intro cs
  induction cs with
  | nil => intro buf i; exact ⟨rfl, fun _ _ => rfl⟩
  | cons c cs ih =>
    intro buf i
    rw [outList_cons]
    obtain ⟨h1, h2⟩ := ih (sizeIdx P _out_buffer c buf i n) (i + 1)
    obtain ⟨h3, h4⟩ := out_buffer_frame c buf (i % 2 ^ (8 * P.size_bytes)) n
    exact ⟨h1.trans h3, fun j hj => (h2 j hj).trans (h4 j hj)⟩

theorem vsnprintf_run {F : Type} (P : Platform) (D : DoubleOps F) (format : List Nat)
    (va : List (Arg F)) (s : List Nat) (hs : logicalOutput P D format va = some s) :
    (∀ (β : Type) (out : out_fct_type β) (b : β) (maxlen : Nat),
        _vsnprintf P D out (some b) maxlen format va =
          some (some (out 0 (outList (sizeIdx P out) maxlen s (b, 0)).1
              (terminatorIndex P (s.length % 2 ^ (8 * P.size_bytes)) maxlen) maxlen),
            wrapS (8 * P.int_bytes) ((s.length % 2 ^ (8 * P.size_bytes) : Nat) : Int))) ∧
      (∀ (β : Type) (out : out_fct_type β) (maxlen : Nat),
        _vsnprintf P D out (none : Option β) maxlen format va =
          some (none,
            wrapS (8 * P.int_bytes) ((s.length % 2 ^ (8 * P.size_bytes) : Nat) : Int))) := by
  obtain ⟨fmt, va1, h⟩ := loop_emit P D format va s hs
  constructor
  · intro β out b maxlen
    simp only [_vsnprintf, h, Option.map_some', emit, outList_idx, Nat.zero_add]
  · intro β out maxlen
    simp only [_vsnprintf, h, Option.map_some', emit, outList_idx, Nat.zero_add]

theorem wrapS_count (P : Platform) (n : Nat) (hi : 0 < P.int_bytes)
    (hsi : P.int_bytes ≤ P.size_bytes) (hn : n < 2 ^ (8 * P.int_bytes - 1)) :
    wrapS (8 * P.int_bytes) ((n % 2 ^ (8 * P.size_bytes) : Nat) : Int) = (n : Int) := by
  have h1 : 2 ^ (8 * P.int_bytes - 1) ≤ 2 ^ (8 * P.size_bytes) :=
    Nat.pow_le_pow_right (by norm_num) (by omega)
  rw [Nat.mod_eq_of_lt (by omega)]
  apply wrapS_inRange (8 * P.int_bytes) (by omega)
  refine ⟨?_, by exact_mod_cast hn⟩
  have : (0 : Int) < 2 ^ (8 * P.int_bytes - 1) := by positivity
  omega

theorem wide_chars (w : Nat) (lits : List Nat) : convIntChars mos 100
    ({ flags := {}, width := w, precision := 0, format := 100 :: lits,
       va := [Arg.int 1] } : Directive Unit) = List.replicate (w - 1) 32 ++ [49] := by
  unfold convIntChars ntoaOutput
  rw [outRevChars_pads]
  have hd : ntoaDigits (intOperand mos 100 (intFlags 100 {})
      (argInt (some (Arg.int 1 : Arg Unit)))).1 (intBase 100) (intFlags 100 {}) = [49] := by
    decide
  have hn : (intOperand mos 100 (intFlags 100 {}) (argInt (some (Arg.int 1 : Arg Unit)))).2 =
      false := by decide
  have hf : ntoaFlags (intOperand mos 100 (intFlags 100 {})
      (argInt (some (Arg.int 1 : Arg Unit)))).1 (intFlags 100 {}) = {} := by decide
  simp only [List.head?_cons, hd, hn, hf]
  simp [ntoaFormatBuf, ntoaPad, ntoaHash, ntoaSign, ntoaWidth, padZeros,
    PRINTF_NTOA_BUFFER_SIZE]

theorem literal_run {β F : Type} (P : Platform) (D : DoubleOps F) (out : out_fct_type β)
    (maxlen : Nat) (va : List (Arg F)) :
    ∀ (lits : List Nat), (∀ c ∈ lits, c ≠ 0 ∧ c ≠ 37) → ∀ (fuel : Nat) (b : β) (i : Nat),
      lits.length < fuel →
        vsnprintfLoop P D out maxlen fuel { buffer := b, idx := i, format := lits, va := va } =
          some (emit out maxlen b i (lits, [], va)) := by
  intro lits
  induction lits with
  | nil =>
    intro _ fuel b i hf
    obtain ⟨k, rfl⟩ : ∃ k, fuel = k + 1 := ⟨fuel - 1, by simp at hf; omega⟩
    rw [vsnprintfLoop]
    simp [emit, outList_nil]
  | cons c cs ih =>
    intro h fuel b i hf
    obtain ⟨k, rfl⟩ : ∃ k, fuel = k + 1 := ⟨fuel - 1, by simp at hf; omega⟩
    have hc := h c (List.mem_cons_self _ _)
    rw [vsnprintfLoop]
    simp only [List.headD_cons, List.tail_cons]
    rw [if_neg hc.1, if_pos hc.2,
      ih (fun x hx => h x (List.mem_cons_of_mem _ hx)) k _ _ (by simp at hf; omega)]
    simp only [emit, outList_cons]

theorem wide_run {β : Type} (out : out_fct_type β) (maxlen : Nat) (b : β)
    (fmt lits : List Nat) (w fuel : Nat)
    (hp : parseDirective mos fmt [(Arg.int 1 : Arg Unit)] =
      { flags := {}, width := w, precision := 0, format := 100 :: lits, va := [Arg.int 1] })
    (hl : ∀ c ∈ lits, c ≠ 0 ∧ c ≠ 37) (hf : lits.length + 1 < fuel) :
    vsnprintfLoop mos noDouble out maxlen fuel
        { buffer := b, idx := 0, format := 37 :: fmt, va := [Arg.int 1] } =
      some (emit out maxlen b 0 (List.replicate (w - 1) 32 ++ [49] ++ lits, [], [])) := by
  obtain ⟨k, rfl⟩ : ∃ k, fuel = k + 1 := ⟨fuel - 1, by omega⟩
  have he : evalSpecifier mos noDouble out maxlen
      ({ flags := {}, width := w, precision := 0, format := 100 :: lits,
         va := [Arg.int 1] } : Directive Unit) b 0 =
      some (emit out maxlen b 0 (List.replicate (w - 1) 32 ++ [49], lits, [])) := by
    have hi : isIntConv 100 = true := by decide
    simp only [evalSpecifier, List.headD_cons, hi, if_true, convInt_eq, wide_chars, emit,
      List.tail_cons]
  rw [vsnprintfLoop]
  simp only [List.headD_cons, List.tail_cons]
  rw [if_neg (by decide), if_neg (by decide)]
  simp only [hp, he, Option.some_bind]
  have := literal_run mos noDouble out maxlen ([] : List (Arg Unit)) lits hl k
    (emit out maxlen b 0 (List.replicate (w - 1) 32 ++ [49], lits, ([] : List (Arg Unit)))).buffer
    (emit out maxlen b 0 (List.replicate (w - 1) 32 ++ [49], lits, ([] : List (Arg Unit)))).idx
    (by omega)
  simp only [emit] at this ⊢
  rw [this]
  simp only [emit, outList_append]

/-- Claim C4, amended: the value `_vsnprintf` returns is the same for every
sink, every capacity `maxlen` (0 included) and for the null buffer that
selects the discarding sink, whether or not the destination kept the
characters: it is the length of the logical output reduced to `size_t` and
converted to `int`, which is that length whenever it is at most `INT_MAX`
and `int` is no wider than `size_t`.  The arithmetic of the target is assumed
to scale the mantissa of `_etoa` into the range `_ftoa` prints
(`MantissaInRange`). -/
theorem vsnprintf_returns_length {F : Type} (P : Platform) (D : DoubleOps F)
    (hD : MantissaInRange P D) (format : List Nat) (va : List (Arg F)) :
    ∃ s : List Nat, logicalOutput P D format va = some s ∧
      ∀ (β : Type) (out : out_fct_type β) (buffer : Option β) (maxlen : Nat),
        (_vsnprintf P D out buffer maxlen format va).map Prod.snd =
            some (wrapS (8 * P.int_bytes) ((s.length % 2 ^ (8 * P.size_bytes) : Nat) : Int)) ∧
          (0 < P.int_bytes → P.int_bytes ≤ P.size_bytes →
            s.length < 2 ^ (8 * P.int_bytes - 1) →
              (_vsnprintf P D out buffer maxlen format va).map Prod.snd =
                some (s.length : Int)) := by
  obtain ⟨s, hs⟩ := logicalOutput_some P D hD format va
  obtain ⟨h1, h2⟩ := vsnprintf_run P D format va s hs
  refine ⟨s, hs, fun β out buffer maxlen => ?_⟩
  have hr : (_vsnprintf P D out buffer maxlen format va).map Prod.snd =
      some (wrapS (8 * P.int_bytes) ((s.length % 2 ^ (8 * P.size_bytes) : Nat) : Int)) := by
    cases buffer with
    | none => rw [h2]; rfl
    | some b => rw [h1]; rfl
  refine ⟨hr, fun hi hsi hn => ?_⟩
  rw [hr, wrapS_count P s.length hi hsi hn]

theorem vsnprintf_returns_length_witness :
    MantissaInRange mos noDouble ∧
    ∃ s : List Nat, logicalOutput mos noDouble [104, 105, 37, 100, 33] [Arg.int (-42)] = some s ∧
      ∀ (β : Type) (out : out_fct_type β) (buffer : Option β) (maxlen : Nat),
        (_vsnprintf mos noDouble out buffer maxlen [104, 105, 37, 100, 33]
            [Arg.int (-42)]).map Prod.snd =
            some (wrapS (8 * mos.int_bytes)
              ((s.length % 2 ^ (8 * mos.size_bytes) : Nat) : Int)) ∧
          (0 < mos.int_bytes → mos.int_bytes ≤ mos.size_bytes →
            s.length < 2 ^ (8 * mos.int_bytes - 1) →
              (_vsnprintf mos noDouble out buffer maxlen [104, 105, 37, 100, 33]
                [Arg.int (-42)]).map Prod.snd = some (s.length : Int)) :=
  ⟨mantissaInRange_noDouble mos,
    vsnprintf_returns_length mos noDouble (mantissaInRange_noDouble mos) _ _⟩

/-- Claim C4 as stated fails: the logical output of `%40000d` has 40000
characters, but with the 16-bit `int` of the target the value returned is
-25536, for every sink and capacity. -/
theorem vsnprintf_returns_counterexample :
    logicalOutput mos noDouble [37, 52, 48, 48, 48, 48, 100] [Arg.int 1] =
        some (List.replicate 39999 32 ++ [49]) ∧
      (List.replicate 39999 32 ++ [49]).length = 40000 ∧
      ∀ (β : Type) (out : out_fct_type β) (buffer : Option β) (maxlen : Nat),
        (_vsnprintf mos noDouble out buffer maxlen [37, 52, 48, 48, 48, 48, 100]
          [Arg.int 1]).map Prod.snd = some (-25536) := by
  have hp : parseDirective mos [52, 48, 48, 48, 48, 100] [(Arg.int 1 : Arg Unit)] =
      { flags := {}, width := 40000, precision := 0, format := 100 :: [],
        va := [Arg.int 1] } := by rfl
  have hlen : (List.replicate 39999 32 ++ [49]).length = 40000 := by
    rw [List.length_append, List.length_replicate]; rfl
  have hs : logicalOutput mos noDouble [37, 52, 48, 48, 48, 48, 100] [Arg.int 1] =
      some (List.replicate 39999 32 ++ [49]) := by
    unfold logicalOutput
    have h := wide_run traceOut 0 [] [52, 48, 48, 48, 48, 100] [] 40000 8 hp
      (by simp) (by simp)
    have e : 40000 - 1 = 39999 := by norm_num
    rw [e, List.append_nil] at h
    show Option.map _ (vsnprintfLoop mos noDouble traceOut 0 8 _) = _
    rw [h]
    simp only [Option.map_some', emit, outList_traceOut, List.nil_append]
  obtain ⟨h1, h2⟩ := vsnprintf_run mos noDouble _ _ _ hs
  refine ⟨hs, hlen, fun β out buffer maxlen => ?_⟩
  have hv : wrapS (8 * mos.int_bytes)
      (((List.replicate 39999 32 ++ [49]).length % 2 ^ (8 * mos.size_bytes) : Nat) : Int) =
      -25536 := by
    rw [hlen]; decide
  cases buffer with
  | none => rw [h2, hv]; rfl
  | some b => rw [h1, hv]; rfl

/-- Claim C5, amended: when the logical output of a format and its arguments
is `s`, of at most `SIZE_MAX` characters, formatting into a buffer of
capacity `n ≥ 1` leaves in the buffer the first `min(|s|, n - 1)` characters
of `s` followed by a zero terminator, and returns `|s|` converted to `int`,
which is `|s|` when it is at most `INT_MAX`. -/
theorem snprintf_truncates {F : Type} (P : Platform) (D : DoubleOps F) (format : List Nat)
    (va : List (Arg F)) (s : List Nat) (hs : logicalOutput P D format va = some s)
    (n : Nat) (hn : 1 ≤ n) (hsz : n < 2 ^ (8 * P.size_bytes)) (buffer : List Nat)
    (hbuf : n ≤ buffer.length) (hlen : s.length < 2 ^ (8 * P.size_bytes)) :
    ∃ buf : List Nat,
      snprintf P D buffer n format va =
          some (some buf, wrapS (8 * P.int_bytes) (s.length : Int)) ∧
        buf.take (min s.length (n - 1) + 1) = s.take (n - 1) ++ [0] ∧
        (0 < P.int_bytes → s.length < 2 ^ (8 * P.int_bytes - 1) →
          snprintf P D buffer n format va = some (some buf, (s.length : Int))) := by
  obtain ⟨h1, _⟩ := vsnprintf_run P D format va s hs
  have hrun : snprintf P D buffer n format va =
      some (some (_out_buffer 0 (outList _out_buffer n s (buffer, 0)).1
        (min s.length (n - 1)) n), wrapS (8 * P.int_bytes) (s.length : Int)) := by
    unfold snprintf
    rw [h1, outList_sizeIdx_short P _out_buffer n s buffer 0 (by omega),
      Nat.mod_eq_of_lt hlen, terminatorIndex_eq P _ n hn hsz]
  refine ⟨_out_buffer 0 (outList _out_buffer n s (buffer, 0)).1 (min s.length (n - 1)) n,
    hrun, ?_, ?_⟩
  · have ht : min s.length (n - 1) < n := by omega
    simp only [_out_buffer, ht, if_true]
    apply List.ext_getElem?
    intro j
    rw [List.getElem?_take, List.getElem?_append, List.getElem?_set, List.length_take,
      outList_buffer_length, outList_buffer_get]
    by_cases h1 : j < min s.length (n - 1)
    · rw [if_pos (by omega), if_neg (by omega), if_pos (by omega), if_pos (by omega)]
      rw [List.getElem?_take_of_lt (by omega)]
      simp
    · by_cases h2 : j = min s.length (n - 1)
      · rw [if_pos (by omega), if_pos (by omega), if_pos (by omega), if_neg (by omega)]
        have : j - min (n - 1) s.length = 0 := by omega
        rw [this]; rfl
      · rw [if_neg (by omega), if_neg (by omega)]
        rw [List.getElem?_eq_none (by simp; omega)]
  · intro hi hl
    rw [hrun]
    have hw : wrapS (8 * P.int_bytes) (s.length : Int) = (s.length : Int) := by
      apply wrapS_inRange (8 * P.int_bytes) (by omega)
      refine ⟨?_, by exact_mod_cast hl⟩
      have : (0 : Int) < 2 ^ (8 * P.int_bytes - 1) := by positivity
      omega
    rw [hw]

theorem snprintf_truncates_witness :
    logicalOutput mos noDouble [104, 101, 108, 108, 111] [] = some [104, 101, 108, 108, 111] ∧
    ∃ buf : List Nat,
      snprintf mos noDouble [1, 1, 1, 1, 1, 1] 4 [104, 101, 108, 108, 111] [] =
          some (some buf, wrapS (8 * mos.int_bytes)
            ([104, 101, 108, 108, 111].length : Int)) ∧
        buf.take (min [104, 101, 108, 108, 111].length (4 - 1) + 1) =
          [104, 101, 108, 108, 111].take (4 - 1) ++ [0] ∧
        (0 < mos.int_bytes → [104, 101, 108, 108, 111].length < 2 ^ (8 * mos.int_bytes - 1) →
          snprintf mos noDouble [1, 1, 1, 1, 1, 1] 4 [104, 101, 108, 108, 111] [] =
            some (some buf, ([104, 101, 108, 108, 111].length : Int))) :=
  ⟨by decide,
    snprintf_truncates mos noDouble [104, 101, 108, 108, 111] [] [104, 101, 108, 108, 111]
      (by decide) 4 (by decide) (by decide) [1, 1, 1, 1, 1, 1] (by decide) (by decide)⟩

theorem buffer_fill (c k n : Nat) (rest buf : List Nat) (hk : n ≤ k) (hb : buf.length = n) :
    (outList _out_buffer n (List.replicate k c ++ rest) (buf, 0)).1 = List.replicate n c := by
  apply List.ext_getElem?
  intro j
  rw [outList_buffer_get]
  by_cases hj : j < n
  · rw [if_pos (by simp; omega), Nat.sub_zero,
      List.getElem?_append_left (by simp; omega)]
    simp [List.getElem?_replicate, hj]
    omega
  · rw [if_neg (by omega), List.getElem?_eq_none (by omega),
      List.getElem?_eq_none (by simp; omega)]

/-- Claim C5 as stated fails: the logical output of `%65535dabc` has 65538
characters, the first 65534 of them spaces; with the 16-bit `size_t` of the
target the index wraps, a buffer of capacity 4 ends up holding `b`, `c` and
the terminator, and 2 is returned. -/
theorem snprintf_truncates_counterexample :
    logicalOutput mos noDouble [37, 54, 53, 53, 51, 53, 100, 97, 98, 99] [Arg.int 1] =
        some (List.replicate 65534 32 ++ [49, 97, 98, 99]) ∧
      snprintf mos noDouble [1, 1, 1, 1] 4 [37, 54, 53, 53, 51, 53, 100, 97, 98, 99]
        [Arg.int 1] = some (some [98, 99, 0, 32], 2) := by
  have hp : parseDirective mos [54, 53, 53, 51, 53, 100, 97, 98, 99] [(Arg.int 1 : Arg Unit)] =
      { flags := {}, width := 65535, precision := 0, format := 100 :: [97, 98, 99],
        va := [Arg.int 1] } := by rfl
  have e : 65535 - 1 = 65534 := by norm_num
  have hs : logicalOutput mos noDouble [37, 54, 53, 53, 51, 53, 100, 97, 98, 99] [Arg.int 1] =
      some (List.replicate 65534 32 ++ [49, 97, 98, 99]) := by
    unfold logicalOutput
    have h := wide_run traceOut 0 [] [54, 53, 53, 51, 53, 100, 97, 98, 99] [97, 98, 99] 65535 11
      hp (by decide) (by decide)
    rw [e] at h
    show Option.map _ (vsnprintfLoop mos noDouble traceOut 0 11 _) = _
    rw [h]
    simp only [Option.map_some', emit, outList_traceOut, List.nil_append, List.append_assoc,
      List.singleton_append]
  refine ⟨hs, ?_⟩
  obtain ⟨h1, _⟩ := vsnprintf_run mos noDouble _ _ _ hs
  unfold snprintf
  rw [h1]
  have hsplit : List.replicate 65534 32 ++ [49, 97, 98, 99] =
      (List.replicate 65534 32 ++ [49, 97]) ++ [98, 99] :=
    (List.append_assoc (List.replicate 65534 32) [49, 97] [98, 99]).symm
  have hl1 : (List.replicate 65534 32 ++ [49, 97]).length = 65536 := by
    rw [List.length_append, List.length_replicate]; rfl
  have hl : (List.replicate 65534 32 ++ [49, 97, 98, 99]).length = 65538 := by
    rw [List.length_append, List.length_replicate]; rfl
  have hA : outList (sizeIdx mos _out_buffer) 4 (List.replicate 65534 32 ++ [49, 97])
      ([1, 1, 1, 1], 0) = ([32, 32, 32, 32], 65536) := by
    rw [outList_sizeIdx_short mos _out_buffer 4 _ _ 0 (by rw [hl1]; decide)]
    apply Prod.ext
    · rw [buffer_fill 32 65534 4 [49, 97] [1, 1, 1, 1] (by decide) rfl]
      rfl
    · rw [outList_idx, hl1]
  rw [hl, hsplit, outList_append, hA]
  decide

/-- Claim C17, amended: the callback sinks `_out_char` and `_out_fct` invoke
the consumer once for every character other than 0 passed to them, whatever
the index and the capacity, and not at all for the character 0.  So when the
logical output of a format is `s`, the consumer receives `s` without its zero
characters, in order, and the terminating write delivers nothing; the value
returned is the length of `s`, zero characters included, reduced to `size_t`
and converted to `int`, which is that length when it is at most `INT_MAX`
and `int` is no wider than `size_t`. -/
theorem callback_sinks_skip_zero {α F : Type} (P : Platform) (D : DoubleOps F)
    (format : List Nat) (va : List (Arg F)) (s : List Nat)
    (hs : logicalOutput P D format va = some s) (fct : Nat → α → α) (arg : α)
    (stream : List Nat) (maxlen : Nat) :
    (∀ (c idx cap : Nat), _out_fct fct c arg idx cap = if c = 0 then arg else fct c arg) ∧
      (∀ (c idx cap : Nat),
        _out_char c stream idx cap = if c = 0 then stream else stream ++ [c]) ∧
      _vsnprintf P D (_out_fct fct) (some arg) maxlen format va =
        some (some (deliver fct (s.filter (fun c => c != 0)) arg),
          wrapS (8 * P.int_bytes) ((s.length % 2 ^ (8 * P.size_bytes) : Nat) : Int)) ∧
      printf P D stream format va =
        some (some (stream ++ s.filter (fun c => c != 0)),
          wrapS (8 * P.int_bytes) ((s.length % 2 ^ (8 * P.size_bytes) : Nat) : Int)) ∧
      (0 < P.int_bytes → P.int_bytes ≤ P.size_bytes → s.length < 2 ^ (8 * P.int_bytes - 1) →
        _vsnprintf P D (_out_fct fct) (some arg) maxlen format va =
            some (some (deliver fct (s.filter (fun c => c != 0)) arg), (s.length : Int)) ∧
          printf P D stream format va =
            some (some (stream ++ s.filter (fun c => c != 0)), (s.length : Int))) := by
  obtain ⟨h1, _⟩ := vsnprintf_run P D format va s hs
  have hv : ∀ (β : Type) (f : Nat → β → β) (a : β) (n : Nat),
      _vsnprintf P D (_out_fct f) (some a) n format va =
        some (some (deliver f (s.filter (fun c => c != 0)) a),
          wrapS (8 * P.int_bytes) ((s.length % 2 ^ (8 * P.size_bytes) : Nat) : Int)) := by
    intro β f a n
    rw [h1, sizeIdx_out_fct, outList_out_fct]
    simp [_out_fct]
  have hp : printf P D stream format va =
      some (some (stream ++ s.filter (fun c => c != 0)),
        wrapS (8 * P.int_bytes) ((s.length % 2 ^ (8 * P.size_bytes) : Nat) : Int)) := by
    unfold printf
    rw [out_char_eq, hv, deliver_append]
  refine ⟨fun c idx cap => ?_, fun c idx cap => ?_, hv α fct arg maxlen, hp, ?_⟩
  · by_cases hc : c = 0 <;> simp [_out_fct, hc]
  · by_cases hc : c = 0 <;> simp [_out_char, hc]
  · intro hi hsi hn
    rw [hv, hp, wrapS_count P s.length hi hsi hn]
    exact ⟨rfl, rfl⟩

theorem callback_sinks_skip_zero_witness :
    logicalOutput mos noDouble [65, 37, 99, 66] [Arg.int 0] = some [65, 0, 66] ∧
      printf mos noDouble [] [65, 37, 99, 66] [Arg.int 0] = some (some [65, 66], 3) :=
  ⟨by decide,
    ((callback_sinks_skip_zero mos noDouble [65, 37, 99, 66] [Arg.int 0] [65, 0, 66]
      (by decide) (fun c (a : List Nat) => a ++ [c]) [] [] 0).2.2.2.2
        (by decide) (by decide) (by decide)).2⟩

/-- Claim C17 as stated fails: for `%c` with the argument 0 the logical output
is the one character 0 and 1 is returned, but `__putchar` is not called. -/
theorem callback_sinks_counterexample :
    logicalOutput mos noDouble [37, 99] [Arg.int 0] = some [0] ∧
      printf mos noDouble [] [37, 99] [Arg.int 0] = some (some [], 1) ∧
      _out_char 0 [] 0 1 = [] := by
  decide

/-- Claim C18: formatting through `_out_buffer` with capacity `n` changes the
destination only at positions below `n`: the call returns, the destination
keeps its length, every cell at a position `≥ n` holds what it held before,
the terminating write included, and with `n = 0` the destination is left as
it was. -/
theorem buffer_frame {F : Type} (P : Platform) (D : DoubleOps F) (hD : MantissaInRange P D)
    (format : List Nat) (va : List (Arg F)) (buffer : List Nat) (n : Nat) :
    ∃ (buf : List Nat) (r : Int),
      snprintf P D buffer n format va = some (some buf, r) ∧
        buf.length = buffer.length ∧
        (∀ j, n ≤ j → buf[j]? = buffer[j]?) ∧
        (n = 0 → buf = buffer) := by
  obtain ⟨s, hs⟩ := logicalOutput_some P D hD format va
  obtain ⟨h1, _⟩ := vsnprintf_run P D format va s hs
  obtain ⟨hlen, hget⟩ := outList_sizeIdx_frame P n s buffer 0
  obtain ⟨hl2, hg2⟩ := out_buffer_frame 0 (outList (sizeIdx P _out_buffer) n s (buffer, 0)).1
    (terminatorIndex P (s.length % 2 ^ (8 * P.size_bytes)) n) n
  have hfr : ∀ j, n ≤ j →
      (_out_buffer 0 (outList (sizeIdx P _out_buffer) n s (buffer, 0)).1
        (terminatorIndex P (s.length % 2 ^ (8 * P.size_bytes)) n) n)[j]? = buffer[j]? := by
    intro j hj
    rw [hg2 j hj, hget j hj]
  refine ⟨_, wrapS (8 * P.int_bytes) ((s.length % 2 ^ (8 * P.size_bytes) : Nat) : Int),
    ?_, ?_, hfr, ?_⟩
  · unfold snprintf
    rw [h1]
  · rw [hl2, hlen]
  · intro hn
    apply List.ext_getElem?
    intro j
    exact hfr j (by omega)

theorem buffer_frame_witness :
    MantissaInRange mos noDouble ∧
      ∃ (buf : List Nat) (r : Int),
        snprintf mos noDouble [1, 2, 3, 4, 5, 6] 4 [104, 101, 108, 108, 111] [] =
            some (some buf, r) ∧
          buf.length = [1, 2, 3, 4, 5, 6].length ∧
          (∀ j, 4 ≤ j → buf[j]? = [1, 2, 3, 4, 5, 6][j]?) ∧
          (4 = 0 → buf = [1, 2, 3, 4, 5, 6]) :=
  ⟨mantissaInRange_noDouble mos,
    buffer_frame mos noDouble (mantissaInRange_noDouble mos) [104, 101, 108, 108, 111] []
      [1, 2, 3, 4, 5, 6] 4⟩

theorem ntoaHash_hashLen (buf : List Nat) (base prec width : Nat) (flags : Flags) :
    (ntoaHash buf base prec width flags).length = hashLen buf.length base prec width flags := by
  unfold ntoaHash hashLen PRINTF_NTOA_BUFFER_SIZE
  by_cases hh : flags.hash = true
  · simp only [hh, if_true]
    have hb1 : ((if (!flags.precision && buf.length != 0 &&
          (buf.length == prec || buf.length == width)) = true then
        (if (buf.dropLast.length != 0 && base == 16) = true then buf.dropLast.dropLast
          else buf.dropLast)
        else buf) : List Nat).length =
        (if flags.precision = false ∧ buf.length ≠ 0 ∧ (buf.length = prec ∨ buf.length = width)
          then (if buf.length - 1 ≠ 0 ∧ base = 16 then buf.length - 2 else buf.length - 1)
          else buf.length) := by
      cases hp : flags.precision
      · by_cases h0 : buf.length = 0
        · simp [h0]
        · by_cases h1 : buf.length = prec ∨ buf.length = width
          · have hc : (buf.length == prec || buf.length == width) = true := by
              simpa using h1
            simp only [Bool.not_false, Bool.true_and, bne_iff_ne, ne_eq, h0, not_false_eq_true,
              decide_True, hc, Bool.and_self, if_true, List.length_dropLast, true_and, h1,
              and_self, beq_iff_eq, Bool.and_eq_true, decide_eq_true_eq]
            split_ifs <;> simp [List.length_dropLast] <;> omega
          · have hc : (buf.length == prec || buf.length == width) = false := by
              simpa using h1
            simp [hc, h1]
      · simp
    generalize hX : ((if (!flags.precision && buf.length != 0 &&
          (buf.length == prec || buf.length == width)) = true then
        (if (buf.dropLast.length != 0 && base == 16) = true then buf.dropLast.dropLast
          else buf.dropLast)
        else buf) : List Nat) = X at hb1 ⊢
    rw [← hb1]
    by_cases h16 : base = 16
    · subst h16
      cases flags.uppercase <;> simp <;> split_ifs <;> simp at * <;> omega
    · by_cases h2 : base = 2
      · subst h2
        simp; split_ifs <;> simp at * <;> omega
      · simp [h16, h2]; split_ifs <;> simp
  · simp [hh]

theorem hashLen_16 (p prec w : Nat) (flags : Flags) (hh : flags.hash = true)
    (hp : p ≤ 510) :
    hashLen p 16 prec w flags =
      if flags.precision = false ∧ p ≠ 0 ∧ (p = prec ∨ p = w) then (if p = 1 then 2 else p)
      else min (p + 2) 510 := by
  unfold hashLen
  simp only [hh, if_true, and_true, true_or, true_and]
  split_ifs <;> omega

theorem hashLen_8 (p prec w : Nat) (flags : Flags) (hh : flags.hash = true)
    (hp : p ≤ 510) :
    hashLen p 8 prec w flags =
      if flags.precision = false ∧ p ≠ 0 ∧ (p = prec ∨ p = w) then p
      else min (p + 1) 510 := by
  unfold hashLen
  simp only [hh, if_true, and_false, Nat.reduceEqDiff, or_self, false_and, if_false]
  split_ifs <;> omega

theorem hashLen_2 (p prec w : Nat) (flags : Flags) (hh : flags.hash = true)
    (hp : p ≤ 510) :
    hashLen p 2 prec w flags =
      if flags.precision = false ∧ p ≠ 0 ∧ (p = prec ∨ p = w) then
        (if p < 510 then p + 1 else p)
      else min (p + 2) 510 := by
  unfold hashLen
  simp only [hh, if_true, and_false, Nat.reduceEqDiff, or_true, true_and, false_or, if_false]
  split_ifs <;> omega

theorem altLen_iff_16 (L prec width : Nat) (flags : Flags) (hh : flags.hash = true)
    (hL : 1 ≤ L) (hL64 : L ≤ 64) (hzp : flags.zeropad = true → flags.precision = false)
    (hp0 : flags.precision = false → prec = 0) :
    (if flags.zeropad = true ∧ flags.left = false then
        hashLen (padLen L prec width flags) 16 prec width flags
      else max (hashLen (padLen L prec width flags) 16 prec width flags) width) =
      max width
        (if flags.zeropad = true ∧ flags.left = false then
          hashLen (padLen L prec 0 flags) 16 prec 0 flags
        else max (hashLen (padLen L prec 0 flags) 16 prec 0 flags) 0) ↔
      ((flags.zeropad = true → flags.left = false → width ≤ 510) ∧
        (flags.precision = false →
          AltWidthFits 16 L width (flags.zeropad && !flags.left))) := by
  have hpw510 : padLen L prec width flags ≤ 510 := by unfold padLen; split_ifs <;> omega
  have hp0510 : padLen L prec 0 flags ≤ 510 := by unfold padLen; split_ifs <;> omega
  rw [hashLen_16 _ prec width flags hh hpw510, hashLen_16 _ prec 0 flags hh hp0510]
  unfold AltWidthFits
  cases hp : flags.precision
  · have hpc := hp0 hp
    subst hpc
    by_cases hzl : flags.zeropad = true ∧ flags.left = false
    · obtain ⟨hz, hl⟩ := hzl
      have e0 : padLen L 0 0 flags = L := by simp [padLen, hl, hz]
      have ew : padLen L 0 width flags = max L (min width 510) := by simp [padLen, hl, hz]
      rw [e0]
      simp only [hz, hl, and_self, if_true, true_implies, Bool.not_false, Bool.and_self,
        true_and]
      rw [if_neg (by omega : ¬ (L ≠ 0 ∧ (L = 0 ∨ L = 0)))]
      rcases Nat.lt_or_ge width L with h1 | h1
      · have e : padLen L 0 width flags = L := by rw [ew]; omega
        rw [e, if_neg (by omega)]
        omega
      · rcases Nat.lt_or_ge 510 width with h2 | h2
        · have e : padLen L 0 width flags = 510 := by rw [ew]; omega
          rw [e, if_neg (by omega)]
          omega
        · have e : padLen L 0 width flags = width := by rw [ew]; omega
          rw [e, if_pos (by omega)]
          split_ifs <;> omega
    · have e0 : padLen L 0 0 flags = L := by
        unfold padLen
        cases hl : flags.left <;> cases hz : flags.zeropad <;> simp [hl, hz] at hzl ⊢
      have ew : padLen L 0 width flags = L := by
        unfold padLen
        cases hl : flags.left <;> cases hz : flags.zeropad <;> simp [hl, hz] at hzl ⊢
      have hb : (flags.zeropad && !flags.left) = false := by
        cases hl : flags.left <;> cases hz : flags.zeropad <;> simp [hl, hz] at hzl ⊢
      have h1 : (flags.zeropad = true → flags.left = false → width ≤ 510) := by
        intro a b
        exact absurd ⟨a, b⟩ hzl
      rw [e0, ew, if_neg hzl, if_neg hzl, hb, and_iff_right h1]
      simp only [Bool.false_eq_true, if_false, true_implies, true_and]
      rw [if_neg (by omega : ¬ (L ≠ 0 ∧ (L = 0 ∨ L = 0)))]
      by_cases h : L = width
      · rw [if_pos (by omega)]
        split_ifs <;> omega
      · rw [if_neg (by omega)]
        omega
  · have hz : flags.zeropad = false := by
      cases hzz : flags.zeropad
      · rfl
      · have := hzp hzz
        rw [hp] at this
        exact absurd this (by decide)
    have e : padLen L prec width flags = padLen L prec 0 flags := by simp [padLen, hz]
    rw [e]
    simp only [hz, Bool.false_eq_true, false_and, if_false, false_implies, implies_true,
      and_self, iff_true, Bool.true_eq_false]
    omega

theorem altLen_iff_8 (L prec width : Nat) (flags : Flags) (hh : flags.hash = true)
    (hL : 1 ≤ L) (hL64 : L ≤ 64) (hzp : flags.zeropad = true → flags.precision = false)
    (hp0 : flags.precision = false → prec = 0) :
    (if flags.zeropad = true ∧ flags.left = false then
        hashLen (padLen L prec width flags) 8 prec width flags
      else max (hashLen (padLen L prec width flags) 8 prec width flags) width) =
      max width
        (if flags.zeropad = true ∧ flags.left = false then
          hashLen (padLen L prec 0 flags) 8 prec 0 flags
        else max (hashLen (padLen L prec 0 flags) 8 prec 0 flags) 0) ↔
      ((flags.zeropad = true → flags.left = false → width ≤ 510) ∧
        (flags.precision = false →
          AltWidthFits 8 L width (flags.zeropad && !flags.left))) := by
  have hpw510 : padLen L prec width flags ≤ 510 := by unfold padLen; split_ifs <;> omega
  have hp0510 : padLen L prec 0 flags ≤ 510 := by unfold padLen; split_ifs <;> omega
  rw [hashLen_8 _ prec width flags hh hpw510, hashLen_8 _ prec 0 flags hh hp0510]
  unfold AltWidthFits
  cases hp : flags.precision
  · have hpc := hp0 hp
    subst hpc
    by_cases hzl : flags.zeropad = true ∧ flags.left = false
    · obtain ⟨hz, hl⟩ := hzl
      have e0 : padLen L 0 0 flags = L := by simp [padLen, hl, hz]
      have ew : padLen L 0 width flags = max L (min width 510) := by simp [padLen, hl, hz]
      rw [e0]
      simp only [hz, hl, and_self, if_true, true_implies, Bool.not_false, Bool.and_self,
        true_and]
      rw [if_neg (by omega : ¬ (L ≠ 0 ∧ (L = 0 ∨ L = 0)))]
      rcases Nat.lt_or_ge width L with h1 | h1
      · have e : padLen L 0 width flags = L := by rw [ew]; omega
        rw [e, if_neg (by omega)]
        omega
      · rcases Nat.lt_or_ge 510 width with h2 | h2
        · have e : padLen L 0 width flags = 510 := by rw [ew]; omega
          rw [e, if_neg (by omega)]
          omega
        · have e : padLen L 0 width flags = width := by rw [ew]; omega
          rw [e, if_pos (by omega)]
          omega
    · have e0 : padLen L 0 0 flags = L := by
        unfold padLen
        cases hl : flags.left <;> cases hz : flags.zeropad <;> simp [hl, hz] at hzl ⊢
      have ew : padLen L 0 width flags = L := by
        unfold padLen
        cases hl : flags.left <;> cases hz : flags.zeropad <;> simp [hl, hz] at hzl ⊢
      have hb : (flags.zeropad && !flags.left) = false := by
        cases hl : flags.left <;> cases hz : flags.zeropad <;> simp [hl, hz] at hzl ⊢
      have h1 : (flags.zeropad = true → flags.left = false → width ≤ 510) := by
        intro a b
        exact absurd ⟨a, b⟩ hzl
      rw [e0, ew, if_neg hzl, if_neg hzl, hb, and_iff_right h1]
      simp only [Bool.false_eq_true, if_false, true_implies, true_and]
      rw [if_neg (by omega : ¬ (L ≠ 0 ∧ (L = 0 ∨ L = 0)))]
      by_cases h : L = width
      · rw [if_pos (by omega)]
        omega
      · rw [if_neg (by omega)]
        omega
  · have hz : flags.zeropad = false := by
      cases hzz : flags.zeropad
      · rfl
      · have := hzp hzz
        rw [hp] at this
        exact absurd this (by decide)
    have e : padLen L prec width flags = padLen L prec 0 flags := by simp [padLen, hz]
    rw [e]
    simp only [hz, Bool.false_eq_true, false_and, if_false, false_implies, implies_true,
      and_self, iff_true, Bool.true_eq_false]
    omega

theorem altLen_iff_2 (L prec width : Nat) (flags : Flags) (hh : flags.hash = true)
    (hL : 1 ≤ L) (hL64 : L ≤ 64) (hzp : flags.zeropad = true → flags.precision = false)
    (hp0 : flags.precision = false → prec = 0) :
    (if flags.zeropad = true ∧ flags.left = false then
        hashLen (padLen L prec width flags) 2 prec width flags
      else max (hashLen (padLen L prec width flags) 2 prec width flags) width) =
      max width
        (if flags.zeropad = true ∧ flags.left = false then
          hashLen (padLen L prec 0 flags) 2 prec 0 flags
        else max (hashLen (padLen L prec 0 flags) 2 prec 0 flags) 0) ↔
      ((flags.zeropad = true → flags.left = false → width ≤ 510) ∧
        (flags.precision = false →
          AltWidthFits 2 L width (flags.zeropad && !flags.left))) := by
  have hpw510 : padLen L prec width flags ≤ 510 := by unfold padLen; split_ifs <;> omega
  have hp0510 : padLen L prec 0 flags ≤ 510 := by unfold padLen; split_ifs <;> omega
  rw [hashLen_2 _ prec width flags hh hpw510, hashLen_2 _ prec 0 flags hh hp0510]
  unfold AltWidthFits
  cases hp : flags.precision
  · have hpc := hp0 hp
    subst hpc
    by_cases hzl : flags.zeropad = true ∧ flags.left = false
    · obtain ⟨hz, hl⟩ := hzl
      have e0 : padLen L 0 0 flags = L := by simp [padLen, hl, hz]
      have ew : padLen L 0 width flags = max L (min width 510) := by simp [padLen, hl, hz]
      rw [e0]
      simp only [hz, hl, and_self, if_true, true_implies, Bool.not_false, Bool.and_self,
        true_and]
      rw [if_neg (by omega : ¬ (L ≠ 0 ∧ (L = 0 ∨ L = 0)))]
      rcases Nat.lt_or_ge width L with h1 | h1
      · have e : padLen L 0 width flags = L := by rw [ew]; omega
        rw [e, if_neg (by omega)]
        omega
      · rcases Nat.lt_or_ge 510 width with h2 | h2
        · have e : padLen L 0 width flags = 510 := by rw [ew]; omega
          rw [e, if_neg (by omega)]
          omega
        · have e : padLen L 0 width flags = width := by rw [ew]; omega
          rw [e, if_pos (by omega)]
          split_ifs <;> omega
    · have e0 : padLen L 0 0 flags = L := by
        unfold padLen
        cases hl : flags.left <;> cases hz : flags.zeropad <;> simp [hl, hz] at hzl ⊢
      have ew : padLen L 0 width flags = L := by
        unfold padLen
        cases hl : flags.left <;> cases hz : flags.zeropad <;> simp [hl, hz] at hzl ⊢
      have hb : (flags.zeropad && !flags.left) = false := by
        cases hl : flags.left <;> cases hz : flags.zeropad <;> simp [hl, hz] at hzl ⊢
      have h1 : (flags.zeropad = true → flags.left = false → width ≤ 510) := by
        intro a b
        exact absurd ⟨a, b⟩ hzl
      rw [e0, ew, if_neg hzl, if_neg hzl, hb, and_iff_right h1]
      simp only [Bool.false_eq_true, if_false, true_implies, true_and]
      rw [if_neg (by omega : ¬ (L ≠ 0 ∧ (L = 0 ∨ L = 0)))]
      by_cases h : L = width
      · rw [if_pos (by omega)]
        split_ifs <;> omega
      · rw [if_neg (by omega)]
        omega
  · have hz : flags.zeropad = false := by
      cases hzz : flags.zeropad
      · rfl
      · have := hzp hzz
        rw [hp] at this
        exact absurd this (by decide)
    have e : padLen L prec width flags = padLen L prec 0 flags := by simp [padLen, hz]
    rw [e]
    simp only [hz, Bool.false_eq_true, false_and, if_false, false_implies, implies_true,
      and_self, iff_true, Bool.true_eq_false]
    omega

theorem wrapU_lt (bits : Nat) (x : Int) : wrapU bits x < 2 ^ bits := by
  unfold wrapU
  have hp : (0 : Int) < 2 ^ bits := by positivity
  have h1 := Int.emod_nonneg x (ne_of_gt hp)
  have h2 := Int.emod_lt_of_pos x hp
  have h3 : ((x % 2 ^ bits).toNat : Int) < ((2 ^ bits : Nat) : Int) := by
    rw [Int.toNat_of_nonneg h1]; push_cast; exact h2
  exact_mod_cast h3

theorem intOperand_form (P : Platform) (c : Nat) (fl : Flags) (a : Int) :
    ∃ n v : Nat, (intOperand P c fl a).1 = toBytes n v ∧ v < 2 ^ (8 * n) ∧
      (n = P.int_bytes ∨ n = P.long_bytes ∨ n = P.long_long_bytes) := by
  have hm : ∀ (v k : Nat), v < 2 ^ (8 * P.int_bytes) → v % 2 ^ k < 2 ^ (8 * P.int_bytes) :=
    fun v k hv => lt_of_le_of_lt (Nat.mod_le _ _) hv
  unfold intOperand
  split_ifs
  · exact ⟨_, _, rfl, wrapU_lt _ _, Or.inr (Or.inr rfl)⟩
  · exact ⟨_, _, rfl, wrapU_lt _ _, Or.inr (Or.inl rfl)⟩
  · exact ⟨_, _, rfl, wrapU_lt _ _, Or.inl rfl⟩
  · exact ⟨_, _, rfl, wrapU_lt _ _, Or.inl rfl⟩
  · exact ⟨_, _, rfl, wrapU_lt _ _, Or.inl rfl⟩
  · exact ⟨_, _, rfl, wrapU_lt _ _, Or.inr (Or.inr rfl)⟩
  · exact ⟨_, _, rfl, wrapU_lt _ _, Or.inr (Or.inl rfl)⟩
  · exact ⟨_, _, rfl, hm _ _ (wrapU_lt _ _), Or.inl rfl⟩
  · exact ⟨_, _, rfl, hm _ _ (wrapU_lt _ _), Or.inl rfl⟩
  · exact ⟨_, _, rfl, wrapU_lt _ _, Or.inl rfl⟩

theorem intBase_good (c : Nat) : GoodBase (intBase c) ∧ intBase c ≤ 16 := by
  unfold intBase GoodBase
  split_ifs <;> omega

theorem intDigits_le (P : Platform) (c : Nat) (fl fl2 : Flags) (a : Int)
    (hP8 : P.int_bytes ≤ 8 ∧ P.long_bytes ≤ 8 ∧ P.long_long_bytes ≤ 8) :
    (ntoaDigits (intOperand P c fl a).1 (intBase c) fl2).length ≤ 64 := by
  obtain ⟨n, v, hop, hv, hn⟩ := intOperand_form P c fl a
  obtain ⟨hg, h16⟩ := intBase_good c
  rw [hop]
  by_cases h0 : n = 0
  · subst h0
    unfold ntoaDigits
    split_ifs <;> simp [toBytes, ntoaBits]
  · have := ntoaDigits_bound (intBase c) n v hg (by omega) (by omega) hv fl2
    omega

theorem intDigits_pos (P : Platform) (c : Nat) (fl fl2 : Flags) (a : Int)
    (hz : _is_zero (intOperand P c fl a).1 = false) :
    1 ≤ (ntoaDigits (intOperand P c fl a).1 (intBase c) fl2).length := by
  obtain ⟨n, v, hop, hv, _⟩ := intOperand_form P c fl a
  obtain ⟨hg, h16⟩ := intBase_good c
  rw [hop] at hz ⊢
  have hn : 0 < n := by
    rcases Nat.eq_zero_or_pos n with h | h
    · subst h; simp [toBytes, _is_zero] at hz
    · exact h
  have hv0 : v ≠ 0 := by
    intro h
    subst h
    rw [is_zero_toBytes] at hz
    exact absurd hz (by decide)
  rw [ntoaDigits_value (intBase c) n v hg h16 hn hv fl2 (Or.inr hv0), List.length_map]
  unfold cellsOf
  rw [if_neg hv0]
  have hne : Nat.digits (intBase c) v ≠ [] := Nat.digits_ne_nil_iff_ne_zero.2 hv0
  exact List.length_pos.2 hne

theorem ntoaFlags_hash_nonzero (value : List Nat) (f : Flags)
    (h : (ntoaFlags value f).hash = true) : _is_zero value = false ∧ f.hash = true := by
  unfold ntoaFlags at h
  split_ifs at h with hz
  exact ⟨by simpa using hz, h⟩

theorem intFlags_hash_conv (c : Nat) (f : Flags) (h : (intFlags c f).hash = true) :
    (c = 120 ∨ c = 88 ∨ c = 111 ∨ c = 98) ∧ (intFlags c f).plus = false ∧
      (intFlags c f).space = false := by
  unfold intFlags at h ⊢
  simp only [] at h ⊢
  by_cases hc : c = 120 ∨ c = 88 ∨ c = 111 ∨ c = 98
  · refine ⟨hc, ?_⟩
    have hne : c ≠ 105 ∧ c ≠ 100 := by omega
    simp only [hc, hne, if_true, ne_eq, not_false_eq_true, and_self]
    split_ifs <;> exact ⟨rfl, rfl⟩
  · exfalso
    simp only [hc, if_false] at h
    split_ifs at h

theorem ntoaFlags_plus_space (value : List Nat) (f : Flags) :
    (ntoaFlags value f).plus = f.plus ∧ (ntoaFlags value f).space = f.space := by
  unfold ntoaFlags; split_ifs <;> exact ⟨rfl, rfl⟩

theorem formatBuf_length_iff (buf : List Nat) (negative : Bool) (base prec width : Nat)
    (flags : Flags)
    (hL1 : flags.hash = true → 1 ≤ buf.length) (hL64 : buf.length ≤ 64)
    (hbase : flags.hash = true → base = 16 ∨ base = 8 ∨ base = 2)
    (hsign : flags.hash = true → negative = false ∧ flags.plus = false ∧ flags.space = false)
    (hzp : flags.zeropad = true → flags.precision = false)
    (hp0 : flags.precision = false → prec = 0) :
    (outRevChars (ntoaFormatBuf buf negative base prec width flags)
        (ntoaWidth negative width flags) flags).length =
      max width (outRevChars (ntoaFormatBuf buf negative base prec 0 flags)
        (ntoaWidth negative 0 flags) flags).length ↔
      ((flags.zeropad = true → flags.left = false → width ≤ 510) ∧
        (flags.hash = true → flags.precision = false →
          AltWidthFits base buf.length width (flags.zeropad && !flags.left))) := by
  rw [outRevChars_length, outRevChars_length]
  unfold ntoaFormatBuf
  rw [ntoaSign_length, ntoaSign_length, ntoaHash_hashLen, ntoaHash_hashLen,
    ntoaPad_length, ntoaPad_length, ntoaWidth_zero]
  generalize buf.length = L at *
  cases hh : flags.hash
  · -- no alternate form
    simp only [hashLen, hh, Bool.false_eq_true, if_false, false_implies, and_true]
    by_cases hl : flags.left = true
    · have hw : ntoaWidth negative width flags = width := by simp [ntoaWidth, hl]
      simp only [hl, hw, if_true, and_false, Bool.true_eq_false, if_false, false_implies,
        implies_true, iff_true]
      omega
    · have hl' : flags.left = false := by simpa using hl
      by_cases hz : flags.zeropad = true
      · have hpr := hzp hz
        have hpc := hp0 hpr
        subst hpc
        simp only [hl', hz, and_self, if_true, Bool.false_eq_true, if_false, true_implies]
        by_cases hsg : (negative = true ∨ flags.plus = true ∨ flags.space = true)
        · have hw1 : ntoaWidth negative width flags = width - 1 := by
            unfold ntoaWidth
            cases hn : negative <;> cases hp : flags.plus <;> cases hs : flags.space <;>
              simp [hl', hz, hn, hp, hs] at hsg ⊢ <;> omega
          simp only [hsg, hw1, and_true]
          split_ifs <;> omega
        · have hw1 : ntoaWidth negative width flags = width := by
            unfold ntoaWidth
            cases hn : negative <;> cases hp : flags.plus <;> cases hs : flags.space <;>
              simp [hl', hz, hn, hp, hs] at hsg ⊢
          simp only [hsg, hw1, and_false, if_false]
          omega
      · have hz' : flags.zeropad = false := by simpa using hz
        have hw : ntoaWidth negative width flags = width := by simp [ntoaWidth, hz']
        simp only [hl', hz', hw, Bool.false_eq_true, false_and, if_false, false_implies,
          iff_true]
        omega
  · -- alternate form: an unsigned conversion of a value other than zero
    obtain ⟨hn, hpl, hsp⟩ := hsign hh
    have hL := hL1 hh
    have hw : ntoaWidth negative width flags = width := by
      rw [hn]; exact ntoaWidth_nosign _ _ hpl hsp
    have hsg : ¬ (negative = true ∨ flags.plus = true ∨ flags.space = true) := by
      simp [hn, hpl, hsp]
    simp only [hw, hsg, and_false, if_false, Nat.add_zero, true_implies]
    rcases hbase hh with rfl | rfl | rfl
    · have h := altLen_iff_16 L prec width flags hh hL hL64 hzp hp0
      unfold padLen at h
      exact h
    · have h := altLen_iff_8 L prec width flags hh hL hL64 hzp hp0
      unfold padLen at h
      exact h
    · have h := altLen_iff_2 L prec width flags hh hL hL64 hzp hp0
      unfold padLen at h
      exact h

theorem intFlags_fields (c : Nat) (f : Flags) :
    (intFlags c f).zeropad = (f.zeropad && !f.precision) ∧
      ((intFlags c f).hash = true ↔
        (f.hash = true ∧ (c = 120 ∨ c = 88 ∨ c = 111 ∨ c = 98))) := by
  unfold intFlags
  simp only []
  constructor
  · split_ifs <;> simp_all
  · by_cases hc : c = 120 ∨ c = 88 ∨ c = 111 ∨ c = 98
    · simp only [hc, if_true, and_true]
      split_ifs <;> rfl
    · simp only [hc, if_false, and_false, iff_false]
      split_ifs <;> simp

theorem intBase_alt (c : Nat) (hc : c = 120 ∨ c = 88 ∨ c = 111 ∨ c = 98) :
    intBase c = 16 ∨ intBase c = 8 ∨ intBase c = 2 := by
  unfold intBase
  rcases hc with h | h | h | h <;> subst h <;> simp

theorem intOperand_unsigned (P : Platform) (c : Nat) (fl : Flags) (a : Int)
    (hc : c = 120 ∨ c = 88 ∨ c = 111 ∨ c = 98) : (intOperand P c fl a).2 = false := by
  have h : ¬ (c = 105 ∨ c = 100) := by omega
  unfold intOperand
  rw [if_neg h]
  split_ifs <;> rfl

/-- Claim C3, amended: for an integer directive (integer types of at most 8
bytes, the precision field 0 without the precision flag, as the parser
leaves it) the advance of the sink index is `max(w, natural_length)`,
`natural_length` being the advance of the same directive with width 0,
exactly when (1) the width is at most 510, the capacity of the scratch
buffer, if the zero flag pads to the width (zero flag, no left-align, no
explicit precision), and (2) if the alternate form is in effect without
explicit precision, the width is one of those of `AltWidthFits`: not the
number `L` of digits without zero padding; below `L`, or at least `L + 2`
for `x` and `X`, at least `L + 1` for `o`, `L + 1` or 510 for `b` with zero
padding. -/
theorem convInt_length {β F : Type} (P : Platform) (out : out_fct_type β) (maxlen c : Nat)
    (d : Directive F) (buffer : β) (idx : Nat)
    (hP8 : P.int_bytes ≤ 8 ∧ P.long_bytes ≤ 8 ∧ P.long_long_bytes ≤ 8)
    (hp0 : d.flags.precision = false → d.precision = 0) :
    (convInt P out maxlen c d buffer idx).2 - idx =
        max d.width ((convInt P out maxlen c { d with width := 0 } buffer idx).2 - idx) ↔
      ((d.flags.zeropad = true → d.flags.left = false → d.flags.precision = false →
          d.width ≤ PRINTF_NTOA_BUFFER_SIZE) ∧
        (altFormApplies P c d →
          AltWidthFits (intBase c) (intDigitCount P c d) d.width
            (d.flags.zeropad && !d.flags.left))) := by
  rw [convInt_eq, convInt_eq, outList_idx, outList_idx]
  simp only [Nat.add_sub_cancel_left]
  unfold convIntChars ntoaOutput altFormApplies intDigitCount PRINTF_NTOA_BUFFER_SIZE
  simp only []
  obtain ⟨hzf, hhf⟩ := intFlags_fields c d.flags
  have hhash : ∀ v : List Nat, (ntoaFlags v (intFlags c d.flags)).hash = true →
      _is_zero v = false ∧ d.flags.hash = true ∧ (c = 120 ∨ c = 88 ∨ c = 111 ∨ c = 98) := by
    intro v h
    obtain ⟨h1, h2⟩ := ntoaFlags_hash_nonzero v _ h
    exact ⟨h1, hhf.1 h2⟩
  rw [formatBuf_length_iff]
  · rw [ntoaFlags_zeropad, ntoaFlags_left, ntoaFlags_precision, intFlags_left,
      intFlags_precision, hzf]
    constructor
    · rintro ⟨h1, h2⟩
      refine ⟨fun hz hl hp => h1 (by simp [hz, hp]) hl, ?_⟩
      rintro ⟨hh, hc, hp, hz⟩
      have he : (ntoaFlags (intOperand P c (intFlags c d.flags) (argInt d.va.head?)).1
          (intFlags c d.flags)).hash = true := by
        unfold ntoaFlags
        rw [hz]
        exact hhf.2 ⟨hh, hc⟩
      have := h2 he hp
      rw [hp] at this
      simpa using this
    · rintro ⟨h1, h2⟩
      refine ⟨fun hz hl => ?_, fun he hp => ?_⟩
      · simp only [Bool.and_eq_true, Bool.not_eq_true'] at hz
        exact h1 hz.1 hl hz.2
      · obtain ⟨hz, hh, hc⟩ := hhash _ he
        have := h2 ⟨hh, hc, hp, hz⟩
        rw [hp]
        simpa using this
  · intro he
    exact intDigits_pos P c _ _ _ (hhash _ he).1
  · exact intDigits_le P c _ _ _ hP8
  · intro he
    exact intBase_alt c (hhash _ he).2.2
  · intro he
    obtain ⟨_, hh, hc⟩ := hhash _ he
    obtain ⟨_, hpl, hsp⟩ := intFlags_hash_conv c d.flags (hhf.2 ⟨hh, hc⟩)
    obtain ⟨e1, e2⟩ := ntoaFlags_plus_space
      (intOperand P c (intFlags c d.flags) (argInt d.va.head?)).1 (intFlags c d.flags)
    exact ⟨intOperand_unsigned P c _ _ hc, e1.trans hpl, e2.trans hsp⟩
  · intro hz
    rw [ntoaFlags_zeropad, hzf] at hz
    rw [ntoaFlags_precision, intFlags_precision]
    simp only [Bool.and_eq_true, Bool.not_eq_true'] at hz
    exact hz.2
  · intro hp
    rw [ntoaFlags_precision, intFlags_precision] at hp
    exact hp0 hp

theorem convInt_length_witness :
    ((convInt mos traceOut 0 120
          ({ flags := { hash := true, zeropad := true }, width := 10, precision := 0,
             format := [120], va := [Arg.int 255] } : Directive Unit) [] 0).2 - 0 =
        max 10 ((convInt mos traceOut 0 120
          ({ flags := { hash := true, zeropad := true }, width := 0, precision := 0,
             format := [120], va := [Arg.int 255] } : Directive Unit) [] 0).2 - 0)) ∧
      ((convInt mos traceOut 0 111
          ({ flags := { hash := true, left := true }, width := 10, precision := 0,
             format := [111], va := [Arg.int 8] } : Directive Unit) [] 0).2 - 0 =
        max 10 ((convInt mos traceOut 0 111
          ({ flags := { hash := true, left := true }, width := 0, precision := 0,
             format := [111], va := [Arg.int 8] } : Directive Unit) [] 0).2 - 0)) :=
  ⟨(convInt_length mos traceOut 0 120
      ({ flags := { hash := true, zeropad := true }, width := 10, precision := 0,
         format := [120], va := [Arg.int 255] } : Directive Unit) [] 0 (by decide)
      (by decide)).2 ⟨by decide, fun _ => by unfold AltWidthFits; decide⟩,
    (convInt_length mos traceOut 0 111
      ({ flags := { hash := true, left := true }, width := 10, precision := 0,
         format := [111], va := [Arg.int 8] } : Directive Unit) [] 0 (by decide)
      (by decide)).2 ⟨by decide, fun _ => by unfold AltWidthFits; decide⟩⟩

set_option maxRecDepth 1000000 in
/-- Claim C3 as stated fails: `%0600d` of 5 advances the index by 510, the
capacity of the scratch buffer, and not by 600; and `%#2x` of 0x12 advances
it by 2 although its natural length is 4. -/
theorem convInt_length_counterexample :
    (convInt mos traceOut 0 100
        ({ flags := { zeropad := true }, width := 600, precision := 0, format := [100],
           va := [Arg.int 5] } : Directive Unit) [] 0).2 = 510 ∧
      (convInt mos traceOut 0 100
        ({ flags := { zeropad := true }, width := 0, precision := 0, format := [100],
           va := [Arg.int 5] } : Directive Unit) [] 0).2 = 1 ∧
      (convInt mos traceOut 0 120
        ({ flags := { hash := true }, width := 2, precision := 0, format := [120],
           va := [Arg.int 18] } : Directive Unit) [] 0).2 = 2 ∧
      (convInt mos traceOut 0 120
        ({ flags := { hash := true }, width := 0, precision := 0, format := [120],
           va := [Arg.int 18] } : Directive Unit) [] 0).2 = 4 := by
  decide

theorem etoaTailChars_field {F : Type} (P : Platform) (hint : 2 ≤ P.int_bytes)
    (hint8 : P.int_bytes ≤ 8) (width : Nat) (flags : Flags) (pl : EtoaPlan F) (n : Nat)
    (hmin : pl.minwidth = if pl.expval < 100 ∧ pl.expval > -100 then 4 else 5)
    (he : -999 ≤ pl.expval ∧ pl.expval ≤ 999) :
    ∃ digits : List Nat,
      etoaTailChars P width flags pl n =
        (if flags.uppercase then 69 else 101) :: (if pl.expval < 0 then 45 else 43) ::
          (digits ++ (if flags.left then
            List.replicate (width - (n + 1 + (1 + digits.length))) 32 else [])) ∧
      digits.length = (if pl.expval < 100 ∧ pl.expval > -100 then 2 else 3) ∧
      (∀ c ∈ digits, 48 ≤ c ∧ c ≤ 57) ∧ parseNum 10 digits = some pl.expval.natAbs := by
  have hg : GoodBase 10 := by unfold GoodBase; norm_num
  have hb : 0 < 8 * P.int_bytes := by omega
  have h16 : (2 : Int) ^ 15 ≤ 2 ^ (8 * P.int_bytes - 1) :=
    pow_le_pow_right₀ (by norm_num) (by omega)
  have h16N : (2 : Nat) ^ 16 ≤ 2 ^ (8 * P.int_bytes) :=
    Nat.pow_le_pow_right (by norm_num) (by omega)
  have habs : wrapU (8 * P.int_bytes)
      (wrapS (8 * P.int_bytes) (if pl.expval < 0 then -pl.expval else pl.expval)) =
      pl.expval.natAbs := by
    have hr : inRange (8 * P.int_bytes) (if pl.expval < 0 then -pl.expval else pl.expval) := by
      unfold inRange
      norm_num at h16
      split_ifs <;> constructor <;> omega
    rw [wrapS_inRange _ hb _ hr]
    split_ifs with h0
    · rw [wrapU_neg _ hb pl.expval ⟨by norm_num at h16; omega, by norm_num at h16; omega⟩ h0]
    · rw [wrapU_nonneg _ hb pl.expval ⟨by norm_num at h16; omega, by norm_num at h16; omega⟩
        (by omega)]
      omega
  have hm : pl.expval.natAbs < 1000 := by omega
  have hm2 : pl.expval.natAbs < 2 ^ (8 * P.int_bytes) := by norm_num at h16N; omega
  have hL3 := cellsOf10_length_le pl.expval.natAbs 3 (by norm_num) (by norm_num; exact hm)
  have hnl := numeral_length 10 false pl.expval.natAbs
  have hne := numeral_ne_nil 10 false pl.expval.natAbs
  have hpn := parseNum_numeral 10 hg (by norm_num) false pl.expval.natAbs
  have hx := fun w hw hw2 => ntoa_exponent P.int_bytes pl.expval.natAbs w (by omega) hint8 hm2 hw
    hw2 (decide (pl.expval < 0))
  have hmw : (pl.minwidth != 0) = true := by rw [hmin]; split_ifs <;> rfl
  unfold etoaTailChars
  simp only [hmw, if_true, habs]
  by_cases hsmall : pl.expval < 100 ∧ pl.expval > -100
  · rw [if_pos hsmall] at hmin
    have hL2 := cellsOf10_length_le pl.expval.natAbs 2 (by norm_num) (by norm_num; omega)
    refine ⟨List.replicate (2 - (numeral 10 false pl.expval.natAbs).length) 48 ++
      numeral 10 false pl.expval.natAbs, ?_, ?_, ?_, ?_⟩
    · rw [hmin, hx 3 (by norm_num) (by norm_num)]
      by_cases h0 : pl.expval < 0 <;> simp [h0] <;> split_ifs <;>
        first | rfl | (congr 1; omega)
    · rw [if_pos hsmall]
      simp only [List.length_append, List.length_replicate]
      omega
    · intro c hc
      simp only [List.mem_append, List.mem_replicate] at hc
      rcases hc with ⟨_, h⟩ | h
      · omega
      · exact numeral10_digits _ c h
    · unfold parseNum at hpn ⊢
      rw [if_neg hne] at hpn
      rw [if_neg (by simp [hne]), parseFrom_zeros 10 (by norm_num), hpn]
  · rw [if_neg hsmall] at hmin
    have hge := cellsOf10_length_ge pl.expval.natAbs 2 (by norm_num; omega)
    refine ⟨List.replicate (3 - (numeral 10 false pl.expval.natAbs).length) 48 ++
      numeral 10 false pl.expval.natAbs, ?_, ?_, ?_, ?_⟩
    · rw [hmin, hx 4 (by norm_num) (by norm_num)]
      by_cases h0 : pl.expval < 0 <;> simp [h0] <;> split_ifs <;>
        first | rfl | (congr 1; omega)
    · rw [if_neg hsmall]
      simp only [List.length_append, List.length_replicate]
      omega
    · intro c hc
      simp only [List.mem_append, List.mem_replicate] at hc
      rcases hc with ⟨_, h⟩ | h
      · omega
      · exact numeral10_digits _ c h
    · unfold parseNum at hpn ⊢
      rw [if_neg hne] at hpn
      rw [if_neg (by simp [hne]), parseFrom_zeros 10 (by norm_num), hpn]

theorem etoaPlan_exponent {F : Type} (P : Platform) (D : DoubleOps F) (value : F)
    (prec width : Nat) (flags : Flags)
    (hexp : flags.adapt_exp = true → inAdaptiveRange D value = false) :
    (etoaPlan P D value prec width flags).minwidth =
        (if (etoaScale P D value).expval < 100 ∧ (etoaScale P D value).expval > -100
          then 4 else 5) ∧
      (etoaPlan P D value prec width flags).expval = (etoaScale P D value).expval := by
  obtain ⟨hv, _⟩ := etoaScale_value P D value
  have hfb : (flags.adapt_exp &&
      (D.le (D.ofRat 0.0001) (etoaScale P D value).value &&
        D.lt (etoaScale P D value).value (D.ofRat 1000000))) = false := by
    cases ha : flags.adapt_exp
    · rfl
    · have := hexp ha
      unfold inAdaptiveRange at this
      rw [← hv] at this
      simpa using this
  unfold etoaPlan
  simp only [hfb, Bool.false_eq_true, if_false, and_self]

/-- Claim C25: the exponent field of exponential notation.  For a value that
is not special and is printed with an exponent (not the fixed fall-back of
the adaptive mode), whose decimal exponent `e` as `_etoa` computes it has
`|e| ≤ 999` and whose scaled mantissa `_ftoa` prints itself, `_etoa` hands
the sink the characters `ms` of the mantissa, which hold neither `e` nor
`E`, then the symbol `e` or `E`, a sign (`-` for `e < 0`, else `+`) and
exactly two digits for `|e| < 100`, exactly three otherwise, which read as
`|e|`; only the spaces of a left-aligned field follow.  `int` has from 16 to
64 bits. -/
theorem exponent_field {F : Type} (P : Platform) (D : DoubleOps F) (hint : 2 ≤ P.int_bytes)
    (hint8 : P.int_bytes ≤ 8) (value : F) (prec width : Nat) (flags : Flags)
    (hs : isSpecial D value = false)
    (hexp : flags.adapt_exp = true → inAdaptiveRange D value = false)
    (hm : (isSpecial D (etoaPlan P D value prec width flags).value ||
      !ftoaIsLarge D (etoaPlan P D value prec width flags).value) = true)
    (he : -999 ≤ (etoaScale P D value).expval ∧ (etoaScale P D value).expval ≤ 999) :
    ∃ ms digits : List Nat,
      (∀ (β : Type) (out : out_fct_type β) (maxlen : Nat) (b : β) (i : Nat),
        _etoa P D out maxlen FLOAT_DEPTH b i value prec width flags =
          some (outList out maxlen
            (ms ++ (if flags.uppercase then 69 else 101) ::
              (if (etoaScale P D value).expval < 0 then 45 else 43) ::
              (digits ++ (if flags.left then
                List.replicate (width - (ms.length + 1 + (1 + digits.length))) 32 else [])))
            (b, i))) ∧
        (101 ∉ ms ∧ 69 ∉ ms) ∧
        digits.length = (if (etoaScale P D value).expval < 100 ∧
          (etoaScale P D value).expval > -100 then 2 else 3) ∧
        (∀ c ∈ digits, 48 ≤ c ∧ c ≤ 57) ∧
        parseNum 10 digits = some (etoaScale P D value).expval.natAbs := by
  obtain ⟨hmin, hev⟩ := etoaPlan_exponent P D value prec width flags hexp
  obtain ⟨ms, hms, h101, h69⟩ := ftoa_no_exponent P D 1
    (etoaPlan P D value prec width flags).value (etoaPlan P D value prec width flags).prec
    (etoaPlan P D value prec width flags).fwidth (etoaPlan P D value prec width flags).flags hm
  obtain ⟨digits, hchars, hlen, hdig, hparse⟩ := etoaTailChars_field P hint hint8 width flags
    (etoaPlan P D value prec width flags) ms.length (by rw [hmin, hev]) (by rw [hev]; exact he)
  rw [hev] at hchars hlen hparse
  refine ⟨ms, digits, fun β out maxlen b i => ?_, ⟨h101, h69⟩, hlen, hdig, hparse⟩
  have hs2 : ¬ isSpecial D value = true := by simp [hs]
  unfold _etoa etoaWith FLOAT_DEPTH
  rw [if_neg hs2]
  simp only []
  rw [hms β out maxlen b i, Option.map_some', etoaTail_eq, hchars]

theorem exponent_field_witness :
    (isSpecial noDouble () = false ∧ (etoaScale mos noDouble ()).expval = 0) ∧
      ∃ ms digits : List Nat,
        (∀ (β : Type) (out : out_fct_type β) (maxlen : Nat) (b : β) (i : Nat),
          _etoa mos noDouble out maxlen FLOAT_DEPTH b i () 6 0 {} =
            some (outList out maxlen
              (ms ++ (if ({} : Flags).uppercase then 69 else 101) ::
                (if (etoaScale mos noDouble ()).expval < 0 then 45 else 43) ::
                (digits ++ (if ({} : Flags).left then
                  List.replicate (0 - (ms.length + 1 + (1 + digits.length))) 32 else [])))
              (b, i))) ∧
          (101 ∉ ms ∧ 69 ∉ ms) ∧
          digits.length = (if (etoaScale mos noDouble ()).expval < 100 ∧
            (etoaScale mos noDouble ()).expval > -100 then 2 else 3) ∧
          (∀ c ∈ digits, 48 ≤ c ∧ c ≤ 57) ∧
          parseNum 10 digits = some (etoaScale mos noDouble ()).expval.natAbs :=
  ⟨⟨rfl, by decide⟩,
    exponent_field mos noDouble (by decide) (by decide) () 6 0 {} rfl
      (fun h => absurd h (by decide)) (by decide) (by decide)⟩

/-- The index of `_vsnprintf` as a `size_t`: when the logical output of a
format is `s`, the call leaves the sink as the statements
`out(c, buffer, idx++, maxlen)` do for the characters of `s` in turn, with
`idx` starting at 0 and wrapping around at `2 ^ bits`; the terminating write
goes to the index this `idx` gives and the value returned is this `idx`
converted to `int`. -/
theorem vsnprintf_size_index {β F : Type} (P : Platform) (D : DoubleOps F) (format : List Nat)
    (va : List (Arg F)) (s : List Nat) (hs : logicalOutput P D format va = some s)
    (out : out_fct_type β) (b : β) (maxlen : Nat) :
    _vsnprintf P D out (some b) maxlen format va =
      some (some (out 0 (outListSize (8 * P.size_bytes) out maxlen s (b, 0)).1
          (terminatorIndex P (outListSize (8 * P.size_bytes) out maxlen s (b, 0)).2 maxlen)
          maxlen),
        wrapS (8 * P.int_bytes)
          (((outListSize (8 * P.size_bytes) out maxlen s (b, 0)).2 : Nat) : Int)) := by
  obtain ⟨h1, _⟩ := vsnprintf_run P D format va s hs
  obtain ⟨e1, e2⟩ := sizeIdx_wraps P out maxlen s b 0
  rw [outList_idx, Nat.zero_add, Nat.zero_mod] at e2
  rw [Nat.zero_mod] at e1
  rw [h1, e1, e2]

theorem vsnprintf_size_index_witness :
    logicalOutput mos noDouble [104, 105] [] = some [104, 105] ∧
      _vsnprintf mos noDouble _out_buffer (some [1, 1, 1, 1]) 4 [104, 105] [] =
        some (some (_out_buffer 0
            (outListSize (8 * mos.size_bytes) _out_buffer 4 [104, 105] ([1, 1, 1, 1], 0)).1
            (terminatorIndex mos
              (outListSize (8 * mos.size_bytes) _out_buffer 4 [104, 105] ([1, 1, 1, 1], 0)).2 4)
            4),
          wrapS (8 * mos.int_bytes)
            (((outListSize (8 * mos.size_bytes) _out_buffer 4 [104, 105]
              ([1, 1, 1, 1], 0)).2 : Nat) : Int)) :=
  ⟨by decide,
    vsnprintf_size_index mos noDouble [104, 105] [] [104, 105] (by decide) _out_buffer
      [1, 1, 1, 1] 4⟩

end Printf
